import Mathlib

/-!
Verification development for `torch/_export/passes/replace_autocast_with_hop_pass.py`.

The pass rewrites an FX graph containing paired `_enter_autocast` / `_exit_autocast`
marker nodes: it splits the graph into sequential submodules at region boundaries,
outlines each autocast region into a `wrap_with_autocast` higher-order-op call, inlines
the non-autocast segments back, reconciles the export graph signature, and recurses
into child graph modules.

The embedding below is a shallow, executable rendering of the source:

* FX nodes become the inductive `Node`; node identity is by (unique) name, matching
  the SSA discipline of FX graphs.  Metadata dictionaries become the `Meta` structure
  (only the keys the pass reads or writes: `"val"`, `"nn_module_stack"`, `"torch_fn"`).
* An FX `Graph` becomes `Graph` (placeholder names, body nodes, output argument);
  a `GraphModule` is a graph together with its child graph modules, referenced by
  index (standing for the submodule attribute name).
* Python `assert` failures and raised exceptions become `Except Err`.
* `sequential_split` / `node_inline_` live in `torch/_export/utils.py`, which is not
  part of the sources under verification; those two are modelled from the spec
  (see their doc comments).  Everything else is translated from the pass itself.
-/

namespace ReplaceAutocast

/-- The `"val"` entry of an FX node's metadata dictionary: an opaque leaf (a fake
tensor, abstracted to a tag) or a tuple of such, or absent. -/
inductive MVal where
  | noneM : MVal
  | atom : Nat → MVal
  | tupM : List MVal → MVal

/-- The slice of an FX node's `meta` dictionary that the pass reads or writes. -/
structure Meta where
  val : MVal := .noneM
  nnModuleStack : Nat := 0
  torchFn : Option (String × String) := none

/-- An argument of a node: a reference to another node (by its unique name) or
Python `None`. -/
inductive Arg where
  | ref : String → Arg
  | noneA : Arg
deriving DecidableEq, Repr

/-- An FX node, as the pass distinguishes them: an ordinary `call_function`
(`compute`), the two autocast markers, a `call_module` to a split-off submodule,
a `get_attr` of a submodule, the `wrap_with_autocast` higher-order-op call, and
`operator.getitem` extraction. -/
inductive Node where
  | compute (name : String) (f : Nat) (args : List Arg) (meta : Meta)
  | enterA (name : String) (params : List Nat) (meta : Meta)
  | exitA (name : String) (ref : String) (meta : Meta)
  | callMod (name : String) (target : Nat) (args : List String) (meta : Meta)
  | getAttr (name : String) (target : Nat) (meta : Meta)
  | wrapA (name : String) (params : List Nat) (target : Nat) (args : List String) (meta : Meta)
  | getitem (name : String) (src : String) (idx : Nat) (meta : Meta)

/-- The unique name of a node. -/
def Node.name : Node → String
  | .compute nm _ _ _ => nm
  | .enterA nm _ _ => nm
  | .exitA nm _ _ => nm
  | .callMod nm _ _ _ => nm
  | .getAttr nm _ _ => nm
  | .wrapA nm _ _ _ _ => nm
  | .getitem nm _ _ _ => nm

/-- The metadata of a node. -/
def Node.meta : Node → Meta
  | .compute _ _ _ m => m
  | .enterA _ _ m => m
  | .exitA _ _ m => m
  | .callMod _ _ _ m => m
  | .getAttr _ _ m => m
  | .wrapA _ _ _ _ m => m
  | .getitem _ _ _ m => m

/-- For an `_exit_autocast` node, the name of the `_enter_autocast` node it
references as `args[0]`. -/
def Node.exitRef : Node → Option String
  | .exitA _ r _ => some r
  | _ => none

/-- The argument of an output node: a single node, a tuple of arguments, Python
`None`, or a value of some other (unsupported) type, abstracted to a tag. -/
inductive OutArgs where
  | node : String → OutArgs
  | tup : List Arg → OutArgs
  | noneV : OutArgs
  | other : Nat → OutArgs

/-- An FX graph: placeholder names, body nodes in program order and, when the graph
has an output node, its argument.  (`split_module` intentionally omits the output
node of a submodule that returns nothing, hence the `Option`.) -/
structure Graph where
  inputs : List String
  nodes : List Node
  output : Option OutArgs

/-- An FX graph module: its graph plus the child graph modules it owns, referenced
by index. -/
inductive GraphModule where
  | mk (graph : Graph) (children : List GraphModule)

/-- The graph of a graph module. -/
def GraphModule.graph : GraphModule → Graph
  | .mk g _ => g

/-- The child graph modules of a graph module. -/
def GraphModule.children : GraphModule → List GraphModule
  | .mk _ cs => cs

/-- Failure conditions of the pass: a Python `assert` failure (tagged with the
asserted condition), a raised `NotImplementedError`, or a `RuntimeError` raised
by the host IR (for example `Graph.erase_node` on a node that still has users). -/
inductive Err where
  | assertionError (site : String)
  | notImplementedError (msg : String)
  | runtimeError (msg : String)
deriving DecidableEq, Repr

/-- `_is_enter_autocast_node`: the node is a `call_function` targeting
`torch.amp.autocast_mode._enter_autocast`. -/
def isEnterAutocastNode : Node → Bool
  | .enterA _ _ _ => true
  | _ => false

/-- `_is_exit_autocast_node`: the node is a `call_function` targeting
`torch.amp.autocast_mode._exit_autocast`. -/
def isExitAutocastNode : Node → Bool
  | .exitA _ _ _ => true
  | _ => false

/-- `_is_autocast_node`: the node targets `_enter_autocast` or `_exit_autocast`. -/
def isAutocastNode (n : Node) : Bool :=
  isEnterAutocastNode n || isExitAutocastNode n

/-- The mutable state captured by `_split_autocast`'s `node_call_back` closure:
the stack of currently open `_enter_autocast` nodes (by name) and the
`first_node_after_outer_most_exit` flag. -/
structure SplitState where
  enterStack : List String
  firstAfterExit : Bool
deriving DecidableEq, Repr

/-- The initial callback state: empty stack, flag clear. -/
def initSplitState : SplitState := ⟨[], false⟩

/-- `node_call_back` from `_split_autocast`: decides whether a new segment starts
at `n`, updating the closure state; Python `assert` failures become errors. -/
def nodeCallBack (s : SplitState) (n : Node) : Except Err (Bool × SplitState) :=
  if s.firstAfterExit || (s.enterStack.isEmpty && isEnterAutocastNode n) then
    if s.enterStack.isEmpty then
      .ok (true, ⟨if isEnterAutocastNode n then [n.name] else [], false⟩)
    else
      .error (.assertionError "len(enter_autocast_node_stack) == 0")
  else if isExitAutocastNode n then
    match s.enterStack with
    | [] => .error (.assertionError "len(enter_autocast_node_stack) > 0")
    | top :: rest =>
      if n.exitRef = some top then
        .ok (false, ⟨rest, rest.isEmpty⟩)
      else
        .error (.assertionError "node.args[0] == last_enter_autocast_node")
  else
    .ok (false, s)

/-- Running `node_call_back` over a node list in program order, collecting the
boundary decision for every node. -/
def nodeCallBackRun : SplitState → List Node → Except Err (List Bool × SplitState)
  | s, [] => .ok ([], s)
  | s, n :: ns => do
    let (b, s') ← nodeCallBack s n
    let (bs, s'') ← nodeCallBackRun s' ns
    .ok (b :: bs, s'')

/-- Specification-side plain stack scan for well-nestedness: an enter pushes its
name, an exit pops exactly its referenced enter, anything else is neutral.
`none` marks a stack-discipline violation. -/
def scanStack (st : List String) (n : Node) : Option (List String) :=
  match n with
  | .enterA nm _ _ => some (nm :: st)
  | .exitA _ r _ =>
    match st with
    | [] => none
    | t :: rest => if r = t then some rest else none
  | _ => some st

/-- Iterated `scanStack` over a node list. -/
def scanStacks (st : List String) : List Node → Option (List String)
  | [] => some st
  | n :: ns =>
    match scanStack st n with
    | none => none
    | some st' => scanStacks st' ns

/-- A node sequence is well nested when the plain stack scan succeeds from the
empty stack. -/
def WellNested (ns : List Node) : Prop := (scanStacks [] ns).isSome

/-- The node name carried by an argument, when it references one. -/
def Arg.refName? : Arg → Option String
  | .ref nm => some nm
  | .noneA => none

/-- The names referenced by a node's arguments (the exit marker references its
matching enter as `args[0]`). -/
def Node.argRefs : Node → List String
  | .compute _ _ args _ => args.filterMap Arg.refName?
  | .enterA _ _ _ => []
  | .exitA _ r _ => [r]
  | .callMod _ _ args _ => args
  | .getAttr _ _ _ => []
  | .wrapA _ _ _ args _ => args
  | .getitem _ s _ _ => [s]

/-- The names referenced by an (optional) output argument. -/
def outRefs : Option OutArgs → List String
  | some (.node n) => [n]
  | some (.tup as) => as.filterMap Arg.refName?
  | _ => []

/-- Apply a name substitution to an argument's reference. -/
def Arg.mapRef (f : String → String) : Arg → Arg
  | .ref nm => .ref (f nm)
  | .noneA => .noneA

/-- Apply a name substitution to every reference of a node (its own name, target
and metadata are untouched). -/
def Node.mapRefs (f : String → String) : Node → Node
  | .compute nm fn args m => .compute nm fn (args.map (Arg.mapRef f)) m
  | .enterA nm ps m => .enterA nm ps m
  | .exitA nm r m => .exitA nm (f r) m
  | .callMod nm t args m => .callMod nm t (args.map f) m
  | .getAttr nm t m => .getAttr nm t m
  | .wrapA nm ps t args m => .wrapA nm ps t (args.map f) m
  | .getitem nm s i m => .getitem nm (f s) i m

/-- Apply a name substitution to an output argument. -/
def OutArgs.mapRefs (f : String → String) : OutArgs → OutArgs
  | .node n => .node (f n)
  | .tup as => .tup (as.map (Arg.mapRef f))
  | o => o

/-- Apply a name substitution to an optional output argument. -/
def outMapRefs (f : String → String) : Option OutArgs → Option OutArgs
  | some o => some (o.mapRefs f)
  | none => none

/-- Replace references to `a` by `b`. -/
def substName (a b x : String) : String := if x = a then b else x

/-- Look a name up in an association list of renamings, defaulting to itself. -/
def lookupOr (prs : List (String × String)) (x : String) : String :=
  match prs.lookup x with
  | some y => y
  | none => x

/-- Replace the (unique) node named `old` by the given node list, in place. -/
def replaceNodeWith (old : String) (new : List Node) : List Node → List Node
  | [] => []
  | n :: rest => if n.name = old then new ++ rest else n :: replaceNodeWith old new rest

/-- Keep only the first occurrence of each name. -/
def dedupFirst : List String → List String
  | [] => []
  | x :: xs => x :: dedupFirst (xs.filter (fun y => y ≠ x))
termination_by l => l.length
decreasing_by
  simp only [List.length_cons]
  exact Nat.lt_succ_of_le (List.length_filter_le _ _)

/-- The references of a node list that are not defined by an earlier node of the
list itself, in order of first occurrence (with duplicates). -/
def freeRefsGo : List Node → List String → List String
  | [], _ => []
  | n :: rest, defined =>
    n.argRefs.filter (fun r => ¬ defined.contains r) ++ freeRefsGo rest (n.name :: defined)

/-- The free references of a node list: referenced names not defined inside the
list, deduplicated in order of first use.  These become the placeholders of a
split-off submodule. -/
def freeRefs (ns : List Node) : List String := dedupFirst (freeRefsGo ns [])

/-- All names referenced by a node list together with an output argument. -/
def usedNames (ns : List Node) (out : Option OutArgs) : List String :=
  (ns.map Node.argRefs).flatten ++ outRefs out

/-- The names defined inside `seg` that are used by the rest of the graph (later
nodes `rest` or the graph output), in order of definition.  These become the
returned values of a split-off submodule. -/
def escapes (seg rest : List Node) (out : Option OutArgs) : List String :=
  (seg.map Node.name).filter (fun nm => (usedNames rest out).contains nm)

/-- The output argument of a split-off submodule: absent when nothing escapes, a
single node when exactly one value escapes, a tuple otherwise. -/
def outSpecOf (es : List String) : Option OutArgs :=
  match es with
  | [] => none
  | [n] => some (.node n)
  | _ => some (.tup (es.map Arg.ref))

/-- Unary index tag used inside generated names (unary keeps injectivity proofs
elementary). -/
def natTag (n : Nat) : String := String.mk (List.replicate n 'i')

/-- Name of the `call_module` node invoking submodule `i` in the split parent.
Generated names start with `'%'`, which FX-produced user names never contain. -/
def submodName (i : Nat) : String := "%s" ++ natTag i

/-- Name of the `j`-th extraction node of submodule `i`'s call in the split parent. -/
def giName (i j : Nat) : String := "%g" ++ natTag i ++ "_" ++ natTag j

/-- Name of the `get_attr` node the pass creates for submodule `i`. -/
def gaName (i : Nat) : String := "%a" ++ natTag i

/-- Name the host graph generates for the `wrap_with_autocast` call replacing the
call to submodule `i`. -/
def wrapGenName (i : Nat) : String := "%w" ++ natTag i

/-- The child graph extracted for one segment: placeholders are the segment's free
references, the body is the segment itself, the output returns the escaping
values (omitted when there are none). -/
def buildChild (seg rest : List Node) (out : Option OutArgs) : Graph :=
  ⟨freeRefs seg, seg, outSpecOf (escapes seg rest out)⟩

/-- The child graphs of all segments. -/
def buildChildren : List (List Node) → Option OutArgs → List Graph
  | [], _ => []
  | seg :: rest, out => buildChild seg rest.flatten out :: buildChildren rest out

/-- The per-index extraction nodes unpacking the call of submodule `i` whose
output is the tuple of the escaping values `es`. -/
def giNodes (i : Nat) (es : List String) : List Node :=
  (List.range es.length).map (fun j => Node.getitem (giName i j) (submodName i) j {})

/-- The proxy-renaming entries for the escaping values `es` of submodule `i`
(original name ↦ extraction-node name). -/
def giEntries (i : Nat) (es : List String) : List (String × String) :=
  (List.range es.length).map (fun j => (es.getD j "", giName i j))

/-- The parent wiring of the split graph: one `call_module` per segment (arguments
are the segment's free references, routed through the proxy renaming built so
far), followed by one extraction node per escaping value when more than one value
escapes.  Returns the parent nodes and the final proxy renaming (original name ↦
name of the parent node now carrying the value). -/
def buildParentNodes : List (List Node) → Option OutArgs → Nat → List (String × String) →
    List Node × List (String × String)
  | [], _, _, pm => ([], pm)
  | seg :: rest, out, i, pm =>
    let phs := freeRefs seg
    let callArgs := phs.map (lookupOr pm)
    let call : Node := .callMod (submodName i) i callArgs {}
    match escapes seg rest.flatten out with
    | [] =>
      let (ns, pm') := buildParentNodes rest out (i + 1) pm
      (call :: ns, pm')
    | [n] =>
      let (ns, pm') := buildParentNodes rest out (i + 1) (pm ++ [(n, submodName i)])
      (call :: ns, pm')
    | es =>
      let (ns, pm') := buildParentNodes rest out (i + 1) (pm ++ giEntries i es)
      (call :: (giNodes i es ++ ns), pm')

/-- Split a node list into contiguous segments: a new segment starts exactly where
the boundary flag is true; the first node always opens the first segment. -/
def groupGo : List Node → List Node → List Bool → List (List Node)
  | cur, [], _ => [cur]
  | cur, n :: ns, [] => groupGo (cur ++ [n]) ns []
  | cur, n :: ns, b :: bs =>
    if b then cur :: groupGo [n] ns bs else groupGo (cur ++ [n]) ns bs

/-- Segments of a node list under a boundary-flag list (flags aligned with nodes;
the first node's flag is irrelevant). -/
def groupByFlags : List Node → List Bool → List (List Node)
  | [], _ => []
  | n :: ns, [] => groupGo [n] ns []
  | n :: ns, _ :: bs => groupGo [n] ns bs

/-- Modelled from the spec: `sequential_split` from `torch/_export/utils.py` is not
part of the sources under verification.  Per spec §6 and §3, it partitions the
instruction sequence into contiguous segments starting exactly where the callback
returns true, materializes each segment as a submodule whose placeholders are the
values the segment consumes and whose output returns the values later segments or
the graph output still need (a single value directly, several as a tuple unpacked
by per-index extraction nodes at the call site, none by omitting the output
node), and wires the calls in original order in a new parent graph. -/
def sequentialSplitModel (g : Graph) (flags : List Bool) : GraphModule :=
  let segs := groupByFlags g.nodes flags
  let children := buildChildren segs g.output
  let pn := buildParentNodes segs g.output 0 []
  .mk ⟨g.inputs, pn.1, outMapRefs (lookupOr pn.2) g.output⟩ (children.map (fun c => .mk c []))

/-- `_split_autocast`: sequential split of the graph driven by `node_call_back`. -/
def splitAutocast (g : Graph) : Except Err GraphModule := do
  let (flags, _) ← nodeCallBackRun initSplitState g.nodes
  .ok (sequentialSplitModel g flags)

/-- `_is_autocast_sub_mod`: the node is a `call_module` whose submodule's first
non-placeholder node is `_enter_autocast`. -/
def isAutocastSubMod (children : List GraphModule) (n : Node) : Bool :=
  match n with
  | .callMod _ t _ _ =>
    match children.get? t with
    | some sub =>
      match sub.graph.nodes.head? with
      | some first => isEnterAutocastNode first
      | none => false
    | none => false
  | _ => false

/-- `_check_valid_autocast_block`: the first autocast node is an enter, the last an
exit, and the exit's `args[0]` is that enter. -/
def checkValidAutocastBlock (enterN exitN : Node) : Except Err Unit :=
  if ¬ isEnterAutocastNode enterN then
    .error (.assertionError "_is_enter_autocast_node(enter_autocast_node)")
  else if ¬ isExitAutocastNode exitN then
    .error (.assertionError "_is_exit_autocast_node(exit_autocast_node)")
  else if exitN.exitRef = some enterN.name then .ok ()
  else .error (.assertionError "exit_autocast_node.args[0] == enter_autocast_node")

/-- The `"torch_fn"` metadata the pass writes on the created wrap node. -/
def wrapTorchFn : String × String := ("wrap_with_autocast", "WrapWithAutocast.wrap_with_autocast")

/-- The autocast parameters of an enter node. -/
def Node.enterParams : Node → List Nat
  | .enterA _ ps _ => ps
  | _ => []

/-- Renaming of one extraction user of the wrap node (lines 126–131): read its
index, rename it to the corresponding output member's name and copy that
member's metadata; references to its old name follow the rename. -/
def renameOne (outAs : List Arg) (subNodes : List Node) (u : Node) (g : Graph) :
    Except Err Graph :=
  match u with
  | .getitem gnm src idx _ =>
    match outAs.get? idx with
    | none => .error (.assertionError "IndexError: tuple index out of range")
    | some .noneA => .error (.assertionError "NoneType has no attribute name")
    | some (.ref onm) =>
      match subNodes.find? (fun n => n.name = onm) with
      | none => .error (.assertionError "output arg not found in subgraph")
      | some onode =>
        .ok ⟨g.inputs,
          g.nodes.map (fun n =>
            if n.name = gnm then Node.getitem onm src idx onode.meta
            else n.mapRefs (substName gnm onm)),
          outMapRefs (substName gnm onm) g.output⟩
  | _ => .error (.assertionError "user of the wrap node is not a getitem")

/-- The `"val"` metadata of each member of a tuple output argument (line 113:
`tuple(arg.meta["val"] for arg in output_args)`); a `None` member or an
unresolvable reference is a failure. -/
def collectMemberVals (subNodes : List Node) : List Arg → Except Err (List MVal)
  | [] => .ok []
  | a :: rest =>
    match a with
    | .noneA => .error (.assertionError "NoneType has no attribute meta")
    | .ref onm =>
      match subNodes.find? (fun n => n.name = onm) with
      | none => .error (.assertionError "output arg not found in subgraph")
      | some onode => do
        let vs ← collectMemberVals subNodes rest
        .ok (onode.meta.val :: vs)

/-- `Graph.erase_node` of the host IR: remove the (unique) node of that name,
raising a `RuntimeError` when other nodes or the graph output still reference it. -/
def eraseNodeChecked (nm : String) (g : Graph) : Except Err Graph :=
  let remaining := replaceNodeWith nm [] g.nodes
  if remaining.any (fun n => n.argRefs.contains nm) || (outRefs g.output).contains nm then
    .error (.runtimeError ("erase_node: node still has users: " ++ nm))
  else
    .ok ⟨g.inputs, remaining, g.output⟩

/-- The replacement proper of `_replace_with_hop` (lines 89–151), after the block
validation: create the `get_attr` node, branch on the submodule's output argument
(replace the call by a `wrap_with_autocast` node — tuple outputs additionally get
their extraction users renamed with metadata copied, a missing output just erases
the call — or raise `NotImplementedError`), then erase the enter/exit markers
from the submodule.  Returns the rewritten parent graph, the updated children,
and the log of use-replacements (the replace-hook feed). -/
def replaceWithHopCore (pg : Graph) (children : List GraphModule) (cname : String)
    (t : Nat) (cargs : List String) (sub : GraphModule) (enterN exitN : Node) :
    Except Err (Graph × List GraphModule × List (String × String)) :=
  let subNodes := sub.graph.nodes
  let ga : Node := .getAttr (gaName t) t { nnModuleStack := enterN.meta.nnModuleStack }
  let params := enterN.enterParams
  -- lines 150–151: erase the exit, then the enter, from the subgraph
  let eraseMarkers : Except Err GraphModule := do
    let g1 ← eraseNodeChecked exitN.name sub.graph
    let g2 ← eraseNodeChecked enterN.name g1
    pure (.mk g2 sub.children)
  match sub.graph.output with
  | none => do
    let sub' ← eraseMarkers
    .ok (⟨pg.inputs, replaceNodeWith cname [ga] pg.nodes, pg.output⟩,
         children.set t sub', [])
  | some (.tup outAs) => do
    let metas ← collectMemberVals subNodes outAs
    let wname := wrapGenName t
    let wnode : Node := .wrapA wname params t cargs
      ⟨.tupM metas, enterN.meta.nnModuleStack, some wrapTorchFn⟩
    let pg1 : Graph := ⟨pg.inputs,
      (replaceNodeWith cname [ga, wnode] pg.nodes).map (Node.mapRefs (substName cname wname)),
      outMapRefs (substName cname wname) pg.output⟩
    let users := pg1.nodes.filter (fun n => n.argRefs.contains wname)
    let pgFinal ← users.foldlM (fun g u => renameOne outAs subNodes u g) pg1
    let sub' ← eraseMarkers
    .ok (pgFinal, children.set t sub', [(cname, wname)])
  | some (.node onm) =>
    match subNodes.find? (fun n => n.name = onm) with
    | none => .error (.assertionError "output arg not found in subgraph")
    | some onode => do
      let wnode : Node := .wrapA onm params t cargs onode.meta
      let pg1 : Graph := ⟨pg.inputs,
        (replaceNodeWith cname [ga, wnode] pg.nodes).map (Node.mapRefs (substName cname onm)),
        outMapRefs (substName cname onm) pg.output⟩
      let sub' ← eraseMarkers
      .ok (pg1, children.set t sub', [(cname, onm)])
  | some .noneV =>
    .error (.notImplementedError "repalce_autocast_with_hop_pass doesnt' support output type NoneType")
  | some (.other k) =>
    .error (.notImplementedError ("repalce_autocast_with_hop_pass doesnt' support output type " ++ toString k))

/-- `_replace_with_hop` (lines 75–151): locate the child submodule, check its
autocast block (first/last autocast node are a matching enter/exit pair), then
run the replacement core. -/
def replaceWithHop (pg : Graph) (children : List GraphModule) (nd : Node) :
    Except Err (Graph × List GraphModule × List (String × String)) :=
  match nd with
  | .callMod cname t cargs _ =>
    match children.get? t with
    | none => .error (.assertionError "getattr(gm, node.target)")
    | some sub =>
      match sub.graph.nodes.filter isAutocastNode with
      | [] => .ok (pg, children, [])
      | [_] => .error (.assertionError "len(autocast_nodes) > 1")
      | enterN :: restAC =>
        match (enterN :: restAC).getLast? with
        | none => .error (.assertionError "unreachable: nonempty list")
        | some exitN =>
          match checkValidAutocastBlock enterN exitN with
          | .error e => .error e
          | .ok _ => replaceWithHopCore pg children cname t cargs sub enterN exitN
  | _ => .error (.assertionError "node.op == call_module")

/-- One extraction-elimination step of inlining: remove the extraction
instruction and redirect its uses to the corresponding returned value, logging
the redirection. -/
def inlineGetitemStep (outAs : List Arg) (p : Graph × List (String × String)) (u : Node) :
    Except Err (Graph × List (String × String)) :=
  match u with
  | .getitem gnm _ idx _ =>
    match outAs.get? idx with
    | some (.ref onm) =>
      .ok (⟨p.1.inputs,
            (replaceNodeWith gnm [] p.1.nodes).map (Node.mapRefs (substName gnm onm)),
            outMapRefs (substName gnm onm) p.1.output⟩,
           p.2 ++ [(gnm, onm)])
    | some .noneA => .error (.assertionError "inline: None output member")
    | none => .error (.assertionError "inline: getitem index out of range")
  | _ => .error (.assertionError "inline: user of the call is not a getitem")

/-- Modelled from the spec: `node_inline_` from `torch/_export/utils.py` is not part
of the sources under verification.  Per spec §4.3, inlining a `call_module` splices
the submodule's body into the parent in place of the invocation, binding
placeholders to the call's arguments, and removes the invocation and its
extraction instructions, redirecting their uses to the returned values.  The
use-redirections are logged (the replace-hook feed). -/
def nodeInline (pg : Graph) (children : List GraphModule) (nd : Node) :
    Except Err (Graph × List GraphModule × List (String × String)) :=
  match nd with
  | .callMod cname t cargs _ =>
    match children.get? t with
    | none => .error (.assertionError "getattr(gm, node.target)")
    | some sub =>
      let bind := sub.graph.inputs.zip cargs
      let body := sub.graph.nodes.map (Node.mapRefs (lookupOr bind))
      let nodes1 := replaceNodeWith cname body pg.nodes
      match sub.graph.output with
      | none => .ok (⟨pg.inputs, nodes1, pg.output⟩, children, [])
      | some (.node onm) =>
        .ok (⟨pg.inputs, nodes1.map (Node.mapRefs (substName cname onm)),
              outMapRefs (substName cname onm) pg.output⟩, children, [(cname, onm)])
      | some (.tup outAs) => do
        let gis := nodes1.filter (fun n => n.argRefs.contains cname)
        let res ← gis.foldlM (inlineGetitemStep outAs) (⟨pg.inputs, nodes1, pg.output⟩, [])
        .ok (res.1, children, res.2)
      | some _ => .error (.assertionError "inline: unsupported output argument")
  | _ => .error (.assertionError "node.op == call_module")

/-- The names of the `call_module` nodes of a node list, in order (the snapshot the
pass iterates with `nodes_map`). -/
def callModNames (ns : List Node) : List String :=
  ns.filterMap (fun n => match n with | .callMod nm _ _ _ => some nm | _ => none)

/-- One step of the processing loop `_maybe_inline_or_replace_with_hop`: find the
call node by name (skip if already gone), outline it when its submodule is an
autocast body, inline it otherwise. -/
def maybeInlineOrReplaceWithHop (st : Graph × List GraphModule × List (String × String))
    (nm : String) : Except Err (Graph × List GraphModule × List (String × String)) :=
  match st.1.nodes.find? (fun n => n.name = nm) with
  | none => .ok st
  | some nd =>
    if isAutocastSubMod st.2.1 nd then do
      let (g, cs, log) ← replaceWithHop st.1 st.2.1 nd
      .ok (g, cs, st.2.2 ++ log)
    else
      match nd with
      | .callMod _ _ _ _ => do
        let (g, cs, log) ← nodeInline st.1 st.2.1 nd
        .ok (g, cs, st.2.2 ++ log)
      | _ => .error (.assertionError "node.op == call_module")

/-- One entry of the export signature's `output_specs`: the producing node's name
and, for constant outputs, the constant value (`none` models Python `None`). -/
structure OutSpecEntry where
  name : String
  value : Option Nat
deriving DecidableEq, Repr

/-- The slice of the export graph signature the pass touches. -/
structure GraphSignature where
  outputSpecs : List OutSpecEntry
deriving DecidableEq, Repr

/-- The signature reconciliation loop (lines 213–223): assert the output argument
count matches the spec count, then walk them in lockstep, asserting `None`
outputs stay `None` and updating each entry's name to the argument's name. -/
def fixSpecsGo : List (Arg × OutSpecEntry) → Except Err (List OutSpecEntry)
  | [] => .ok []
  | p :: rest =>
    match p.1 with
    | .noneA =>
      if p.2.value = none then do
        let r ← fixSpecsGo rest
        .ok (p.2 :: r)
      else .error (.assertionError "out_spec.arg.value is None")
    | .ref nm => do
      let r ← fixSpecsGo rest
      .ok ({ p.2 with name := nm } :: r)

/-- The signature reconciliation (lines 213–223): assert the output argument count
matches the spec count, then run the lockstep walk `fixSpecsGo`. -/
def fixOutputSpecs (args : List Arg) (specs : List OutSpecEntry) :
    Except Err (List OutSpecEntry) :=
  if args.length = specs.length then
    fixSpecsGo (args.zip specs)
  else
    .error (.assertionError "len(new_gm_out_node.args[0]) == len(new_signature.output_specs)")

/-- The signature replace hook (`new_signature.get_replace_hook()`): every logged
use-replacement `old ↦ new` renames matching entries of the output specs. -/
def applyReplaceHook (specs : List OutSpecEntry) (log : List (String × String)) :
    List OutSpecEntry :=
  log.foldl (fun sp p => sp.map (fun e => if e.name = p.1 then { e with name := p.2 } else e)) specs

/-- `_sequential_split_and_maybe_inline_subgraphs` (lines 189–246): no-op when no
autocast node occurs in the top-level node list; otherwise split, reconcile the
(deep-copied) signature, and process every `call_module` node. -/
def sequentialSplitAndMaybeInlineSubgraphs (gm : GraphModule) (sig : Option GraphSignature) :
    Except Err (GraphModule × Option GraphSignature) := do
  let needReplacing := gm.graph.nodes.any isAutocastNode
  if ¬ needReplacing then
    .ok (gm, sig)
  else do
    let newGm ← splitAutocast gm.graph
    let preSpecs ← match sig with
      | none => pure (none : Option (List OutSpecEntry))
      | some s =>
        match newGm.graph.output with
        | some (.tup as) => do
          let sp ← fixOutputSpecs as s.outputSpecs
          pure (some sp)
        | _ => .error (.assertionError "len(new_gm_out_node.args[0])")
    let st ← (callModNames newGm.graph.nodes).foldlM maybeInlineOrReplaceWithHop
      (newGm.graph, newGm.children, ([] : List (String × String)))
    let finalSig := preSpecs.map (fun sp => GraphSignature.mk (applyReplaceHook sp st.2.2))
    .ok (.mk st.1 st.2.1, finalSig)

/-- `replace_autocast_with_hop_pass` (lines 250–265): run the helper, then recurse
into every child graph module referenced by a `get_attr` node, substituting the
rewritten child back.  `fuel` bounds the recursion depth (the Python recursion
terminates because nesting depth decreases; theorems supply sufficient fuel). -/
def replaceAutocastWithHopPass : Nat → GraphModule → Option GraphSignature →
    Except Err (GraphModule × Option GraphSignature)
  | 0, _, _ => .error (.assertionError "recursion fuel exhausted")
  | fuel + 1, gm, sig => do
    let (gm1, sig1) ← sequentialSplitAndMaybeInlineSubgraphs gm sig
    let children ← gm1.graph.nodes.foldlM
      (fun (cs : List GraphModule) n =>
        match n with
        | .getAttr _ t _ =>
          match cs.get? t with
          | some sub => do
            let res ← replaceAutocastWithHopPass fuel sub none
            pure (cs.set t res.1)
          | none => pure cs
        | _ => pure cs)
      gm1.children
    .ok (.mk gm1.graph children, sig1)

/-- A heap of signature objects: Python object identity made explicit.  `store`
maps references to contents, `next` is the next fresh reference. -/
structure SigHeap where
  store : Nat → GraphSignature
  next : Nat

/-- The signature-aliasing discipline of `_sequential_split_and_maybe_inline_subgraphs`
made explicit: on the no-marker fast path the very same signature object (`r`) is
handed back; otherwise `copy.deepcopy(graph_signature)` allocates a fresh object
and every signature mutation (the reconciliation walk and the replace-hook
updates) targets the fresh object only. -/
def sequentialSplitAndMaybeInlineHeap (gm : GraphModule) (h : SigHeap) (r : Nat) :
    Except Err (GraphModule × Nat × SigHeap) := do
  let needReplacing := gm.graph.nodes.any isAutocastNode
  if ¬ needReplacing then
    .ok (gm, r, h)
  else do
    let fresh := h.next
    let res ← sequentialSplitAndMaybeInlineSubgraphs gm (some (h.store r))
    match res.2 with
    | some s => .ok (res.1, fresh, ⟨fun x => if x = fresh then s else h.store x, h.next + 1⟩)
    | none => .error (.assertionError "unreachable: a signature was supplied")

/-- Runtime values: an opaque base value (abstracted to a tag) or a tuple. -/
inductive Val where
  | base : Nat → Val
  | tupV : List Val → Val

/-- The ambient autocast context: the stack of entered autocast parameter lists.
`_enter_autocast` pushes, `_exit_autocast` pops; `wrap_with_autocast` is defined
to run its body under the pushed context. -/
abbrev Ctx := List (List Nat)

/-- An interpretation of the opaque operations: the result of operation `f` on its
argument values may depend on the ambient autocast context. -/
abbrev OpSem := Nat → List Val → Ctx → Val

/-- Variable environments: total maps from names to values, defaulting to `.base 0`. -/
abbrev Env := String → Val

/-- Update an environment at one name. -/
def updEnv (env : Env) (nm : String) (v : Val) : Env :=
  fun x => if x = nm then v else env x

/-- Evaluate an argument (Python `None` evaluates to the default value). -/
def Arg.eval (env : Env) : Arg → Val
  | .ref nm => env nm
  | .noneA => .base 0

/-- `operator.getitem` on a runtime value. -/
def projV : Val → Nat → Val
  | .tupV vs, i => vs.getD i (.base 0)
  | _, _ => .base 0

/-- The value returned by a graph given its final environment. -/
def evalOut (env : Env) : Option OutArgs → Val
  | some (.node n) => env n
  | some (.tup as) => .tupV (as.map (Arg.eval env))
  | _ => .base 0

/-- Bind placeholder names to argument values, in order. -/
def bindVals (nms : List String) (vs : List Val) : Env :=
  fun x =>
    match (nms.zip vs).lookup x with
    | some v => v
    | none => .base 0

/-- Evaluate a node list in program order, threading the environment and the
autocast context.  `callF` evaluates a submodule call (by target index, argument
values and context); `wrap_with_autocast` runs the submodule under the pushed
context, the markers push and pop it directly. -/
def evalNodesF (S : OpSem) (callF : Nat → List Val → Ctx → Val) :
    Env → Ctx → List Node → Env × Ctx
  | env, ctx, [] => (env, ctx)
  | env, ctx, n :: rest =>
    match n with
    | .compute nm f args _ =>
      evalNodesF S callF (updEnv env nm (S f (args.map (Arg.eval env)) ctx)) ctx rest
    | .enterA nm ps _ =>
      evalNodesF S callF (updEnv env nm (.base 0)) (ps :: ctx) rest
    | .exitA nm _ _ =>
      evalNodesF S callF (updEnv env nm (.base 0)) ctx.tail rest
    | .callMod nm t args _ =>
      evalNodesF S callF (updEnv env nm (callF t (args.map env) ctx)) ctx rest
    | .getAttr nm _ _ =>
      evalNodesF S callF (updEnv env nm (.base 0)) ctx rest
    | .wrapA nm ps t args _ =>
      evalNodesF S callF (updEnv env nm (callF t (args.map env) (ps :: ctx))) ctx rest
    | .getitem nm src i _ =>
      evalNodesF S callF (updEnv env nm (projV (env src) i)) ctx rest

/-- Evaluate a graph module on argument values under an ambient context.  `fuel`
bounds the call-nesting depth (theorems supply sufficient fuel). -/
def evalGM (S : OpSem) : Nat → GraphModule → List Val → Ctx → Val
  | 0, _, _, _ => .base 0
  | fuel + 1, gm, argVals, ctx =>
    let env0 := bindVals gm.graph.inputs argVals
    let r := evalNodesF S
      (fun t vs c =>
        match gm.children.get? t with
        | none => .base 0
        | some sub => evalGM S fuel sub vs c)
      env0 ctx gm.graph.nodes
    evalOut r.1 gm.graph.output

/-- A node is an ordinary `call_function` computation. -/
def isComputeNode : Node → Bool
  | .compute _ _ _ _ => true
  | _ => false

/-- A node is a `wrap_with_autocast` call. -/
def isWrapNode : Node → Bool
  | .wrapA _ _ _ _ _ => true
  | _ => false

/-- Number of `wrap_with_autocast` nodes in a node list. -/
def countWrap (ns : List Node) : Nat := ns.countP isWrapNode

/-- Number of `wrap_with_autocast` nodes in a graph module and, recursively, its
children (`fuel` bounds the descent depth). -/
def gmWrapCount : Nat → GraphModule → Nat
  | 0, _ => 0
  | fuel + 1, gm => countWrap gm.graph.nodes + (gm.children.map (gmWrapCount fuel)).sum

/-- No autocast marker occurs in the graph module nor, recursively, in any child,
checked to depth `fuel` (false when the depth exceeds the fuel). -/
def markerFreeRec : Nat → GraphModule → Bool
  | 0, _ => false
  | fuel + 1, .mk g cs => g.nodes.all (fun n => ! isAutocastNode n) && cs.all (markerFreeRec fuel)

/-- A properly nested pair of autocast regions, as produced by two nested
`with autocast(...)` blocks. -/
def nestedMarkers : List Node :=
  [.enterA "e1" [1] {}, .enterA "e2" [2] {}, .exitA "x2" "e2" {}, .exitA "x1" "e1" {}]

/-- A graph with an outer autocast region fully enclosing an inner one. -/
def nestedRegionGraph : Graph :=
  ⟨["x"],
   [.enterA "eo" [1] {}, .compute "b" 1 [.ref "x"] {}, .enterA "ei" [2] {},
    .compute "c" 2 [.ref "b"] {}, .exitA "xi" "ei" {}, .compute "d" 3 [.ref "c"] {},
    .exitA "xo" "eo" {}],
   some (.tup [.ref "d"])⟩

/-- A mismatched closing: the exit references the outer enter while the inner
enter is still unclosed. -/
def mismatchedExitMarkers : List Node :=
  [.enterA "e" [1] {}, .enterA "f" [2] {}, .exitA "g" "e" {}]

/-- A graph whose final exit occurs while no enter is open (it immediately
follows the outermost exit of a closed region). -/
def strayExitGraph : Graph :=
  ⟨[], [.compute "a" 0 [] {}, .enterA "e" [] {}, .exitA "x" "e" {}, .exitA "y" "a" {}],
   some (.tup [])⟩

/-- A child graph containing an autocast region. -/
def markerChildGraph : Graph :=
  ⟨["u"], [.enterA "en" [1] {}, .compute "v" 4 [.ref "u"] {}, .exitA "ex" "en" {}],
   some (.tup [.ref "v"])⟩

/-- A graph module whose top-level node list is free of autocast markers but whose
`get_attr` child contains an autocast region. -/
def markerFreeTopGm : GraphModule :=
  .mk ⟨["x"], [.getAttr "sub" 0 {}, .compute "w" 5 [.ref "x"] {}], some (.tup [.ref "w"])⟩
    [.mk markerChildGraph []]

/-- C2: the claim says the boundary callback returns false (without failing) at
every Enter or Exit nested inside an already-open region of a well-nested input.
The code never pushes nested enters onto its stack (the `append` only runs in the
branch that asserts the stack is empty), so on the well-nested sequence
`enter e1; enter e2; exit(e2); exit(e1)` the callback pops `e1` at the nested
exit and its `node.args[0] == last_enter_autocast_node` assertion fails instead
of returning false.  This contradicts `_split_autocast`'s own docstring
("Nested autocast regions are not splitted", i.e. kept embedded) and the
recursive driver that exists to outline them later. -/
theorem claim_C2_callback_asserts_on_nested_exit :
    WellNested nestedMarkers ∧
    nodeCallBackRun initSplitState nestedMarkers =
      .error (.assertionError "node.args[0] == last_enter_autocast_node") :=
  ⟨rfl, rfl⟩

/-- C3: the claim says a graph with an outer region fully enclosing an inner one
has its outer region outlined (inner markers preserved) and the inner one
outlined by the recursive descent.  In fact the pass never gets that far: the
split callback crashes on the inner exit (see C2), so the whole pass raises an
`AssertionError` on every such graph and nothing is outlined. -/
theorem claim_C3_pass_asserts_on_nested_region :
    WellNested nestedRegionGraph.nodes ∧
    replaceAutocastWithHopPass 4 (.mk nestedRegionGraph []) none =
      .error (.assertionError "node.args[0] == last_enter_autocast_node") :=
  ⟨rfl, rfl⟩

/-- C4: the claim says every Exit referencing a non-innermost Enter, and every
Exit with no open Enter, aborts the pass with a malformed-scope-nesting failure.
Two violations: (a) on `enter e; enter f; exit(e)` the callback accepts the exit
(popping the outer enter) because the inner enter was never pushed; (b) an exit
with no open enter that immediately follows an outermost exit is absorbed by the
`first_node_after_outer_most_exit` branch, and the full pass completes on
`strayExitGraph` (whose plain stack scan rejects it) instead of aborting. -/
theorem claim_C4_malformed_nesting_not_rejected :
    (∃ bs s, nodeCallBackRun initSplitState mismatchedExitMarkers = .ok (bs, s)) ∧
    scanStacks [] strayExitGraph.nodes = none ∧
    (replaceAutocastWithHopPass 3 (.mk strayExitGraph []) none).isOk = true :=
  ⟨⟨[true, false, false], ⟨[], true⟩, rfl⟩, rfl, rfl⟩

/-- Bind on a successful `Except` computation reduces to the continuation. -/
@[simp] lemma exceptBindOk {α β : Type} (a : α) (f : α → Except Err β) :
    (Except.ok a >>= f : Except Err β) = f a := rfl

/-- Bind on a failed `Except` computation propagates the error. -/
@[simp] lemma exceptBindErr {α β : Type} (e : Err) (f : α → Except Err β) :
    (Except.error e >>= f : Except Err β) = Except.error e := rfl

/-- The lockstep walk succeeds and renames each entry when every `None` output
argument is paired with a `None`-valued spec entry. -/
lemma fixSpecsGo_ok (l : List (Arg × OutSpecEntry))
    (h : ∀ p ∈ l, p.1 = Arg.noneA → p.2.value = none) :
    fixSpecsGo l = .ok (l.map (fun p =>
      match p.1 with
      | Arg.noneA => p.2
      | Arg.ref nm => { p.2 with name := nm })) := by
  induction l with
  | nil => rfl
  | cons p rest ih =>
    have hrest : ∀ q ∈ rest, q.1 = Arg.noneA → q.2.value = none :=
      fun q hq => h q (List.mem_cons_of_mem _ hq)
    cases hp : p.1 with
    | noneA =>
      have hv : p.2.value = none := h p (List.mem_cons_self _ _) hp
      simp [fixSpecsGo, hp, hv, ih hrest]
    | ref nm => simp [fixSpecsGo, hp, ih hrest]

/-- The lockstep walk aborts with the `None`-preservation assertion when some
`None` output argument is paired with a non-`None` spec entry. -/
lemma fixSpecsGo_err (l : List (Arg × OutSpecEntry))
    (h : ∃ p ∈ l, p.1 = Arg.noneA ∧ p.2.value ≠ none) :
    fixSpecsGo l = .error (.assertionError "out_spec.arg.value is None") := by
  induction l with
  | nil => simp at h
  | cons p rest ih =>
    obtain ⟨q, hq, hq1, hq2⟩ := h
    rcases List.mem_cons.mp hq with rfl | hmem
    · simp [fixSpecsGo, hq1, hq2]
    · cases hp : p.1 with
      | noneA =>
        by_cases hv : p.2.value = none
        · simp [fixSpecsGo, hp, hv, ih ⟨q, hmem, hq1, hq2⟩]
        · simp [fixSpecsGo, hp, hv]
      | ref nm => simp [fixSpecsGo, hp, ih ⟨q, hmem, hq1, hq2⟩]

/-- C9: when a named-output specification is supplied and splitting occurs, the
reconciliation walks the output arguments in order against the specification's
entries, updating each entry's name to the argument's name; it aborts when the
argument count differs from the entry count, and aborts when a `None` output
argument is paired with an entry whose declared value is not `None`. -/
theorem claim_C9_signature_reconciliation (args : List Arg) (specs : List OutSpecEntry) :
    (args.length ≠ specs.length →
      fixOutputSpecs args specs =
        .error (.assertionError
          "len(new_gm_out_node.args[0]) == len(new_signature.output_specs)")) ∧
    (args.length = specs.length →
      (∀ p ∈ args.zip specs, p.1 = Arg.noneA → p.2.value = none) →
      fixOutputSpecs args specs = .ok ((args.zip specs).map (fun p =>
        match p.1 with
        | Arg.noneA => p.2
        | Arg.ref nm => { p.2 with name := nm }))) ∧
    (args.length = specs.length →
      (∃ p ∈ args.zip specs, p.1 = Arg.noneA ∧ p.2.value ≠ none) →
      fixOutputSpecs args specs = .error (.assertionError "out_spec.arg.value is None")) := by
  refine ⟨fun h => ?_, fun h1 h2 => ?_, fun h1 h2 => ?_⟩
  · simp [fixOutputSpecs, h]
  · simp [fixOutputSpecs, h1, fixSpecsGo_ok _ h2]
  · simp [fixOutputSpecs, h1, fixSpecsGo_err _ h2]

/-- Witness for C9: the three behaviours at concrete inputs (count mismatch,
successful renaming walk, `None` paired with a non-`None` value). -/
theorem claim_C9_witness :
    fixOutputSpecs [Arg.ref "a"] [] =
      .error (.assertionError
        "len(new_gm_out_node.args[0]) == len(new_signature.output_specs)") ∧
    fixOutputSpecs [Arg.ref "a", Arg.noneA] [⟨"o1", none⟩, ⟨"o2", none⟩] =
      .ok [⟨"a", none⟩, ⟨"o2", none⟩] ∧
    fixOutputSpecs [Arg.noneA] [⟨"o", some 5⟩] =
      .error (.assertionError "out_spec.arg.value is None") := by
  refine ⟨(claim_C9_signature_reconciliation [Arg.ref "a"] []).1 (by decide), ?_, ?_⟩
  · have := (claim_C9_signature_reconciliation [Arg.ref "a", Arg.noneA]
      [⟨"o1", none⟩, ⟨"o2", none⟩]).2.1 (by decide) (by decide)
    simpa using this
  · exact (claim_C9_signature_reconciliation [Arg.noneA] [⟨"o", some 5⟩]).2.2 (by decide)
      ⟨(Arg.noneA, ⟨"o", some 5⟩), by decide, rfl, by decide⟩

/-- C10: with a non-`None` signature on a graph that does contain autocast
markers, the pass hands back a fresh deep copy (a new object, distinct from the
caller's, which is left unmodified on the heap); only on the no-marker fast path
is the very same signature object handed back. -/
theorem claim_C10_signature_freshness (gm : GraphModule) (h : SigHeap) (r : Nat)
    (hr : r < h.next) (gm' : GraphModule) (r' : Nat) (h' : SigHeap)
    (hres : sequentialSplitAndMaybeInlineHeap gm h r = .ok (gm', r', h')) :
    (gm.graph.nodes.any isAutocastNode = false → gm' = gm ∧ r' = r ∧ h' = h) ∧
    (gm.graph.nodes.any isAutocastNode = true →
      h'.store r = h.store r ∧ r' = h.next ∧ r' ≠ r) := by
  constructor
  · intro hm
    simp [sequentialSplitAndMaybeInlineHeap, hm] at hres
    exact ⟨hres.1.symm, hres.2.1.symm, hres.2.2.symm⟩
  · intro hm
    simp [sequentialSplitAndMaybeInlineHeap, hm] at hres
    cases e : sequentialSplitAndMaybeInlineSubgraphs gm (some (h.store r)) with
    | error err => rw [e] at hres; simp [Bind.bind, Except.bind] at hres
    | ok res =>
      rw [e] at hres
      simp only [Bind.bind, Except.bind] at hres
      cases hs : res.2 with
      | none => rw [hs] at hres; simp at hres
      | some s =>
        rw [hs] at hres
        simp at hres
        obtain ⟨-, hr', hh'⟩ := hres
        subst hh'
        refine ⟨?_, hr'.symm, ?_⟩
        · simp only [SigHeap.store]
          have : ¬ (r = h.next) := by omega
          simp [this]
        · omega

/-- A marker-containing one-region graph used to witness C10's fresh-copy branch. -/
def c10WitnessGm : GraphModule :=
  .mk ⟨[], [.enterA "e" [1] {}, .exitA "x" "e" {}], some (.tup [])⟩ []

/-- The heap holding the caller's signature object for the C10 witness. -/
def c10WitnessHeap : SigHeap := ⟨fun _ => ⟨[]⟩, 1⟩

/-- Witness for C10: on a concrete marker-containing graph the returned signature
reference is the fresh one, distinct from the caller's, whose heap cell is
untouched. -/
theorem claim_C10_witness :
    (match sequentialSplitAndMaybeInlineHeap c10WitnessGm c10WitnessHeap 0 with
     | .ok (_, r', h') => h'.store 0 = c10WitnessHeap.store 0 ∧ r' ≠ 0
     | .error _ => False) := by
  have hok : (sequentialSplitAndMaybeInlineHeap c10WitnessGm c10WitnessHeap 0).isOk = true := rfl
  cases e : sequentialSplitAndMaybeInlineHeap c10WitnessGm c10WitnessHeap 0 with
  | error err => rw [e] at hok; simp [Except.isOk, Except.toBool] at hok
  | ok res =>
    obtain ⟨gm', r', h'⟩ := res
    have h := (claim_C10_signature_freshness c10WitnessGm c10WitnessHeap 0 (by decide)
      gm' r' h' e).2 rfl
    exact ⟨h.1, by omega⟩

/-- C8 counterexample: a graph module whose top-level node list has no autocast
marker is not returned unchanged by the pass — the driver still recurses into
`get_attr` children, and a child containing markers gets outlined (the result
contains a `wrap_with_autocast` node the input did not have). -/
theorem claim_C8_counterexample :
    markerFreeTopGm.graph.nodes.any isAutocastNode = false ∧
    (replaceAutocastWithHopPass 3 markerFreeTopGm none).map (fun p => gmWrapCount 2 p.1) =
      .ok 1 ∧
    gmWrapCount 2 markerFreeTopGm = 0 :=
  ⟨rfl, rfl, rfl⟩

/-- Setting an index of a list to the element it already holds is the identity. -/
lemma list_set_of_getElem? {α : Type _} (l : List α) (i : Nat) (a : α)
    (h : l[i]? = some a) : l.set i a = l := by
  induction l generalizing i with
  | nil => simp at h
  | cons x xs ih =>
    cases i with
    | zero => simp at h; simp [h]
    | succ n => simp at h ⊢; exact ih n h

/-- The driver's recursion loop leaves the children untouched when every child is
returned unchanged by the recursive pass. -/
lemma childFold_id (fuel : Nat) (ns : List Node) (cs : List GraphModule)
    (hp : ∀ c ∈ cs, replaceAutocastWithHopPass fuel c none = .ok (c, none)) :
    ns.foldlM
      (fun (cs' : List GraphModule) n =>
        match n with
        | .getAttr _ t _ =>
          match cs'.get? t with
          | some sub => do
            let res ← replaceAutocastWithHopPass fuel sub none
            pure (cs'.set t res.1)
          | none => pure cs'
        | _ => pure cs') cs = .ok cs := by
  induction ns with
  | nil => rfl
  | cons n rest ih =>
    cases n with
    | getAttr nm t m =>
      simp only [List.foldlM_cons]
      cases hg : cs.get? t with
      | none => simpa using ih
      | some sub =>
        have hmem : sub ∈ cs := by
          have := List.getElem?_eq_some_iff.mp (by simpa using hg)
          obtain ⟨hlt, he⟩ := this
          exact he ▸ List.getElem_mem _
        have hset : cs.set t sub = cs := list_set_of_getElem? cs t sub (by simpa using hg)
        simp [hp sub hmem, hset]
        simpa using ih
    | compute nm f args m => simpa using ih
    | enterA nm ps m => simpa using ih
    | exitA nm r m => simpa using ih
    | callMod nm t args m => simpa using ih
    | wrapA nm ps t args m => simpa using ih
    | getitem nm s i m => simpa using ih

/-- A graph module that is recursively free of autocast markers is returned
unchanged by the pass, together with the supplied signature. -/
lemma pass_id_of_markerFree (fuel : Nat) (gm : GraphModule) (sig : Option GraphSignature)
    (h1 : markerFreeRec fuel gm = true) :
    replaceAutocastWithHopPass fuel gm sig = .ok (gm, sig) := by
  induction fuel generalizing gm sig with
  | zero => simp [markerFreeRec] at h1
  | succ fuel ih =>
    cases gm with
    | mk g cs =>
      simp only [markerFreeRec, Bool.and_eq_true, List.all_eq_true] at h1
      obtain ⟨hg, hcs⟩ := h1
      have hno : g.nodes.any isAutocastNode = false := by
        simp only [List.any_eq_false]
        intro n hn
        have := hg n hn
        simpa using this
      have hhelper : sequentialSplitAndMaybeInlineSubgraphs (.mk g cs) sig = .ok (.mk g cs, sig) := by
        simp [sequentialSplitAndMaybeInlineSubgraphs, GraphModule.graph, hno]
      have hfold := childFold_id fuel g.nodes cs (fun c hc => ih c none (hcs c hc))
      simp only [replaceAutocastWithHopPass, hhelper, exceptBindOk, GraphModule.graph,
        GraphModule.children]
      rw [hfold]
      rfl

/-- C8 amended: the claim holds once "no marker in the top-level node list" is
strengthened to "no marker anywhere in the graph module nor, recursively, in any
child": then the pass returns the input graph module and the supplied signature
unchanged.  (`markerFreeRec fuel` checks this to the recursion depth the fuel
covers.) -/
theorem claim_C8_amended (fuel : Nat) (gm : GraphModule) (sig : Option GraphSignature)
    (h1 : markerFreeRec fuel gm = true) :
    replaceAutocastWithHopPass fuel gm sig = .ok (gm, sig) :=
  pass_id_of_markerFree fuel gm sig h1

/-- Witness for C8's amended theorem: a concrete marker-free graph module with a
marker-free child is returned unchanged. -/
theorem claim_C8_amended_witness :
    replaceAutocastWithHopPass 2
      (.mk ⟨["x"], [.getAttr "s" 0 {}], some (.tup [.ref "x"])⟩ [.mk ⟨[], [], some (.tup [])⟩ []])
      none =
    .ok (.mk ⟨["x"], [.getAttr "s" 0 {}], some (.tup [.ref "x"])⟩ [.mk ⟨[], [], some (.tup [])⟩ []],
      none) :=
  claim_C8_amended 2
    (.mk ⟨["x"], [.getAttr "s" 0 {}], some (.tup [.ref "x"])⟩ [.mk ⟨[], [], some (.tup [])⟩ []])
    none rfl

/-- Mapping an argument's reference by the identity is the identity. -/
lemma argMapRef_id (a : Arg) : Arg.mapRef id a = a := by cases a <;> rfl

/-- Composition of argument-reference substitutions. -/
lemma argMapRef_comp (f g : String → String) (a : Arg) :
    Arg.mapRef g (Arg.mapRef f a) = Arg.mapRef (g ∘ f) a := by cases a <;> rfl

/-- Mapping references by the identity is the identity. -/
lemma mapRefs_id (n : Node) : n.mapRefs id = n := by
  have hid : Arg.mapRef id = id := funext argMapRef_id
  cases n <;> simp [Node.mapRefs, hid]

/-- Reference substitutions agreeing on a node's references act identically. -/
lemma mapRefs_congr (f g : String → String) (n : Node)
    (h : ∀ x ∈ n.argRefs, f x = g x) : n.mapRefs f = n.mapRefs g := by
  cases n with
  | compute nm fn args m =>
    simp only [Node.mapRefs, Node.compute.injEq, true_and, and_true]
    apply List.map_congr_left
    intro a ha
    cases a with
    | ref r =>
      have : r ∈ Node.argRefs (.compute nm fn args m) := by
        simp [Node.argRefs, List.mem_filterMap]
        exact ⟨.ref r, ha, rfl⟩
      simp [Arg.mapRef, h r this]
    | noneA => rfl
  | enterA nm ps m => rfl
  | exitA nm r m => simp [Node.mapRefs, h r (by simp [Node.argRefs])]
  | callMod nm t args m =>
    simp only [Node.mapRefs, Node.callMod.injEq, true_and, and_true]
    exact List.map_congr_left fun a ha => h a (by simp [Node.argRefs]; exact ha)
  | getAttr nm t m => rfl
  | wrapA nm ps t args m =>
    simp only [Node.mapRefs, Node.wrapA.injEq, true_and, and_true]
    exact List.map_congr_left fun a ha => h a (by simp [Node.argRefs]; exact ha)
  | getitem nm s i m => simp [Node.mapRefs, h s (by simp [Node.argRefs])]

/-- Substituting a name a node never references leaves the node unchanged. -/
lemma mapRefs_subst_id (a b : String) (n : Node) (h : a ∉ n.argRefs) :
    n.mapRefs (substName a b) = n := by
  rw [mapRefs_congr (substName a b) id n, mapRefs_id]
  intro x hx
  have : x ≠ a := fun he => h (he ▸ hx)
  simp [substName, this]

/-- Composition of reference substitutions. -/
lemma mapRefs_comp (f g : String → String) (n : Node) :
    (n.mapRefs f).mapRefs g = n.mapRefs (g ∘ f) := by
  cases n <;> simp [Node.mapRefs, List.map_map, argMapRef_comp, Function.comp_def]

/-- Replacing a node that does not occur in the prefix skips the prefix. -/
lemma replaceNodeWith_append (old : String) (new ns rest : List Node)
    (h : ∀ n ∈ ns, n.name ≠ old) :
    replaceNodeWith old new (ns ++ rest) = ns ++ replaceNodeWith old new rest := by
  induction ns with
  | nil => rfl
  | cons x xs ih =>
    have hx : x.name ≠ old := h x (by simp)
    simp only [List.cons_append, replaceNodeWith, if_neg hx]
    rw [show xs.append rest = xs ++ rest from rfl, ih (fun n hn => h n (by simp [hn]))]

/-- Replacing the head node when its name matches. -/
lemma replaceNodeWith_cons_self (old : String) (new : List Node) (n : Node)
    (rest : List Node) (h : n.name = old) :
    replaceNodeWith old new (n :: rest) = new ++ rest := by
  simp [replaceNodeWith, h]

/-- Replacing a node absent from the whole list is the identity. -/
lemma replaceNodeWith_absent (old : String) (new : List Node) (ns : List Node)
    (h : ∀ n ∈ ns, n.name ≠ old) :
    replaceNodeWith old new ns = ns := by
  induction ns with
  | nil => rfl
  | cons x xs ih =>
    simp only [replaceNodeWith, if_neg (h x (by simp))]
    simp [ih (fun n hn => h n (by simp [hn]))]

/-- The autocast filter of an enter/compute-body/exit segment is the marker pair. -/
lemma filter_autocast_region (en ex : String) (ps : List Nat) (em xm : Meta)
    (body : List Node) (hbody : ∀ n ∈ body, isComputeNode n = true) :
    (Node.enterA en ps em :: (body ++ [Node.exitA ex en xm])).filter isAutocastNode =
      [Node.enterA en ps em, Node.exitA ex en xm] := by
  have hb : body.filter isAutocastNode = [] := by
    rw [List.filter_eq_nil_iff]
    intro n hn
    have := hbody n hn
    cases n <;> simp_all [isComputeNode, isAutocastNode, isEnterAutocastNode, isExitAutocastNode]
  simp [List.filter_append, hb, isAutocastNode, isEnterAutocastNode, isExitAutocastNode]

/-- Erasing the exit marker from an autocast-body subgraph succeeds and removes
exactly the exit node. -/
lemma erase_exit_ok (phs : List String) (en ex : String) (ps : List Nat) (em xm : Meta)
    (body : List Node) (outspec : Option OutArgs)
    (hnex : en ≠ ex)
    (hnames : ∀ n ∈ body, n.name ≠ ex)
    (hnref : ∀ n ∈ body, ex ∉ n.argRefs)
    (hout : ex ∉ outRefs outspec) :
    eraseNodeChecked ex ⟨phs, .enterA en ps em :: body ++ [.exitA ex en xm], outspec⟩ =
      .ok ⟨phs, .enterA en ps em :: body, outspec⟩ := by
  have hrepl : replaceNodeWith ex [] (Node.enterA en ps em :: body ++ [.exitA ex en xm]) =
      .enterA en ps em :: body := by
    have h1 : Node.name (.enterA en ps em) ≠ ex := by simpa [Node.name] using hnex
    simp only [replaceNodeWith, if_neg h1]
    rw [show (body.append [Node.exitA ex en xm]) = body ++ [Node.exitA ex en xm] from rfl]
    rw [replaceNodeWith_append ex [] body _ hnames,
        replaceNodeWith_cons_self ex [] _ _ (by simp [Node.name])]
    simp
  simp only [eraseNodeChecked, hrepl]
  have hcond : ((Node.enterA en ps em :: body).any (fun n => n.argRefs.contains ex) ||
      (outRefs outspec).contains ex) = false := by
    simp only [Bool.or_eq_false_iff]
    refine ⟨?_, by simpa using hout⟩
    simp only [List.any_eq_false]
    intro n hn
    rcases List.mem_cons.mp hn with rfl | hmem
    · simp [Node.argRefs]
    · simpa using hnref n hmem
  rw [hcond]
  rfl

/-- Erasing the enter marker (after the exit) succeeds and leaves the body. -/
lemma erase_enter_ok (phs : List String) (en : String) (ps : List Nat) (em : Meta)
    (body : List Node) (outspec : Option OutArgs)
    (hnref : ∀ n ∈ body, en ∉ n.argRefs)
    (hout : en ∉ outRefs outspec) :
    eraseNodeChecked en ⟨phs, .enterA en ps em :: body, outspec⟩ =
      .ok ⟨phs, body, outspec⟩ := by
  have hrepl : replaceNodeWith en [] (Node.enterA en ps em :: body) = body := by
    rw [replaceNodeWith_cons_self en [] _ _ (by simp [Node.name])]
    simp
  simp only [eraseNodeChecked, hrepl]
  have hcond : (body.any (fun n => n.argRefs.contains en) ||
      (outRefs outspec).contains en) = false := by
    simp only [Bool.or_eq_false_iff]
    refine ⟨?_, by simpa using hout⟩
    simp only [List.any_eq_false]
    intro n hn
    simpa using hnref n hn
  rw [hcond]
  rfl

/-- On a `call_module` whose submodule is an autocast region (enter,
compute-only body, matching exit), `_replace_with_hop` reduces to the
post-validation replacement core. -/
lemma replaceWithHop_region (pg : Graph) (children : List GraphModule)
    (cname : String) (t : Nat) (cargs : List String) (cmeta : Meta)
    (sub : GraphModule) (hchild : children.get? t = some sub)
    (phs : List String) (en ex : String) (ps : List Nat) (em xm : Meta)
    (body : List Node) (outspec : Option OutArgs) (subcs : List GraphModule)
    (hsub : sub = .mk ⟨phs, .enterA en ps em :: body ++ [.exitA ex en xm], outspec⟩ subcs)
    (hbody : ∀ n ∈ body, isComputeNode n = true) :
    replaceWithHop pg children (.callMod cname t cargs cmeta) =
      replaceWithHopCore pg children cname t cargs sub
        (.enterA en ps em) (.exitA ex en xm) := by
  have hfilter : sub.graph.nodes.filter isAutocastNode =
      [Node.enterA en ps em, Node.exitA ex en xm] := by
    rw [hsub]
    exact filter_autocast_region en ex ps em xm body hbody
  simp only [replaceWithHop, hchild, hfilter]
  simp [List.getLast?, List.getLast, checkValidAutocastBlock, isEnterAutocastNode,
    isExitAutocastNode, Node.exitRef, Node.name]

/-- C7: a scope-body segment whose child graph has no output instruction gets its
invocation node erased — no `wrap_with_autocast` node is emitted in its place,
only the `get_attr` of the submodule remains — the enter/exit markers are still
deleted from the child graph, and the step completes without an error. -/
theorem claim_C7_no_output_graceful_drop
    (ins : List String) (P Q : List Node) (pout : Option OutArgs)
    (cname : String) (t : Nat) (cargs : List String) (cmeta : Meta)
    (children : List GraphModule) (phs : List String) (en ex : String)
    (ps : List Nat) (em xm : Meta) (body : List Node) (subcs : List GraphModule)
    (hchild : children.get? t =
      some (.mk ⟨phs, .enterA en ps em :: body ++ [.exitA ex en xm], none⟩ subcs))
    (hbody : ∀ n ∈ body, isComputeNode n = true)
    (hnames : ∀ n ∈ body, n.name ≠ en ∧ n.name ≠ ex)
    (hnref : ∀ n ∈ body, en ∉ n.argRefs ∧ ex ∉ n.argRefs)
    (hnex : en ≠ ex)
    (hP : ∀ n ∈ P, n.name ≠ cname) :
    replaceWithHop ⟨ins, P ++ .callMod cname t cargs cmeta :: Q, pout⟩ children
        (.callMod cname t cargs cmeta) =
      .ok (⟨ins, P ++ .getAttr (gaName t) t ⟨.noneM, em.nnModuleStack, none⟩ :: Q, pout⟩,
           children.set t (.mk ⟨phs, body, none⟩ subcs), []) := by
  rw [replaceWithHop_region _ children cname t cargs cmeta _ hchild phs en ex ps em xm
    body none subcs rfl hbody]
  have herase1 := erase_exit_ok phs en ex ps em xm body none hnex
    (fun n hn => (hnames n hn).2) (fun n hn => (hnref n hn).2) (by simp [outRefs])
  have herase2 := erase_enter_ok phs en ps em body none
    (fun n hn => (hnref n hn).1) (by simp [outRefs])
  have hrepl : replaceNodeWith cname
      [.getAttr (gaName t) t ⟨.noneM, em.nnModuleStack, none⟩]
      (P ++ .callMod cname t cargs cmeta :: Q) =
      P ++ .getAttr (gaName t) t ⟨.noneM, em.nnModuleStack, none⟩ :: Q := by
    rw [replaceNodeWith_append cname _ P _ hP,
        replaceNodeWith_cons_self cname _ _ _ (by simp [Node.name])]
    simp
  simp only [replaceWithHopCore, GraphModule.graph, GraphModule.children, Node.name,
    Node.meta, herase1, exceptBindOk, herase2]
  simp [hrepl]

/-- Witness for C7 at a concrete one-region graph whose region body returns
nothing: the call is erased, no wrap node appears, the child keeps only its body. -/
theorem claim_C7_witness :
    replaceWithHop
        ⟨["x"], [.compute "a" 0 [.ref "x"] {}] ++
          .callMod "%submod_1" 0 ["a"] {} :: [.compute "z" 9 [.ref "a"] {}],
          some (.tup [.ref "z"])⟩
        [.mk ⟨["a"], .enterA "en" [1] {} :: [.compute "b" 1 [.ref "a"] {}] ++
          [.exitA "ex" "en" {}], none⟩ []]
        (.callMod "%submod_1" 0 ["a"] {}) =
      .ok (⟨["x"], [.compute "a" 0 [.ref "x"] {}] ++
             .getAttr (gaName 0) 0 ⟨.noneM, 0, none⟩ :: [.compute "z" 9 [.ref "a"] {}],
             some (.tup [.ref "z"])⟩,
           [.mk ⟨["a"], [.compute "b" 1 [.ref "a"] {}], none⟩ []].set 0
             (.mk ⟨["a"], [.compute "b" 1 [.ref "a"] {}], none⟩ []), []) := by
  have h := claim_C7_no_output_graceful_drop ["x"]
    [.compute "a" 0 [.ref "x"] {}] [.compute "z" 9 [.ref "a"] {}]
    (some (.tup [.ref "z"])) "%submod_1" 0 ["a"] {}
    [.mk ⟨["a"], .enterA "en" [1] {} :: [.compute "b" 1 [.ref "a"] {}] ++
      [.exitA "ex" "en" {}], none⟩ []]
    ["a"] "en" "ex" [1] {} {} [.compute "b" 1 [.ref "a"] {}] []
    (by rfl) (by decide) (by decide) (by decide) (by decide) (by decide)
  simpa using h

/-- Mapping a reference substitution over nodes that never mention the source
name is the identity. -/
lemma map_mapRefs_subst_id (a b : String) (ns : List Node)
    (h : ∀ n ∈ ns, a ∉ n.argRefs) :
    ns.map (Node.mapRefs (substName a b)) = ns := by
  rw [List.map_congr_left (fun n hn => mapRefs_subst_id a b n (h n hn))]
  exact List.map_id _

/-- C6: a scope-body segment whose output argument is a single node value is
replaced by exactly one `wrap_with_autocast` node that reuses that value's name
and metadata directly, with no per-index extraction nodes created; an output
argument that is neither absent, a single node, nor a tuple/list aborts with a
`NotImplementedError` reporting the offending type. -/
theorem claim_C6_single_value_and_unsupported
    (ins : List String) (P Q : List Node) (pout : Option OutArgs)
    (cname : String) (t : Nat) (cargs : List String) (cmeta : Meta)
    (children : List GraphModule) (phs : List String) (en ex : String)
    (ps : List Nat) (em xm : Meta) (body : List Node) (subcs : List GraphModule)
    (outspec : Option OutArgs)
    (hchild : children.get? t =
      some (.mk ⟨phs, .enterA en ps em :: body ++ [.exitA ex en xm], outspec⟩ subcs))
    (hbody : ∀ n ∈ body, isComputeNode n = true)
    (hnames : ∀ n ∈ body, n.name ≠ en ∧ n.name ≠ ex)
    (hnref : ∀ n ∈ body, en ∉ n.argRefs ∧ ex ∉ n.argRefs)
    (hnex : en ≠ ex)
    (hP : ∀ n ∈ P, n.name ≠ cname)
    (hPref : ∀ n ∈ P, cname ∉ n.argRefs)
    (hcargs : cname ∉ cargs) :
    (∀ onm onode, outspec = some (.node onm) →
      List.find? (fun n => n.name = onm)
          (Node.enterA en ps em :: body ++ [Node.exitA ex en xm]) = some onode →
      onm ≠ en → onm ≠ ex →
      replaceWithHop ⟨ins, P ++ .callMod cname t cargs cmeta :: Q, pout⟩ children
          (.callMod cname t cargs cmeta) =
        .ok (⟨ins, P ++ .getAttr (gaName t) t ⟨.noneM, em.nnModuleStack, none⟩ ::
                .wrapA onm ps t cargs onode.meta ::
                Q.map (Node.mapRefs (substName cname onm)),
              outMapRefs (substName cname onm) pout⟩,
             children.set t (.mk ⟨phs, body, outspec⟩ subcs), [(cname, onm)])) ∧
    (outspec = some .noneV →
      replaceWithHop ⟨ins, P ++ .callMod cname t cargs cmeta :: Q, pout⟩ children
          (.callMod cname t cargs cmeta) =
        .error (.notImplementedError
          "repalce_autocast_with_hop_pass doesnt' support output type NoneType")) ∧
    (∀ k, outspec = some (.other k) →
      replaceWithHop ⟨ins, P ++ .callMod cname t cargs cmeta :: Q, pout⟩ children
          (.callMod cname t cargs cmeta) =
        .error (.notImplementedError
          ("repalce_autocast_with_hop_pass doesnt' support output type " ++ toString k))) := by
  have hdispatch := replaceWithHop_region
    ⟨ins, P ++ .callMod cname t cargs cmeta :: Q, pout⟩ children cname t cargs cmeta
    _ hchild phs en ex ps em xm body outspec subcs rfl hbody
  refine ⟨fun onm onode hspec hfind h1 h2 => ?_, fun hspec => ?_, fun k hspec => ?_⟩
  · subst hspec
    rw [hdispatch]
    have herase1 := erase_exit_ok phs en ex ps em xm body (some (.node onm)) hnex
      (fun n hn => (hnames n hn).2) (fun n hn => (hnref n hn).2)
      (by simp [outRefs]; exact fun he => h2 he.symm)
    have herase2 := erase_enter_ok phs en ps em body (some (.node onm))
      (fun n hn => (hnref n hn).1)
      (by simp [outRefs]; exact fun he => h1 he.symm)
    have hrepl : replaceNodeWith cname
        [.getAttr (gaName t) t ⟨.noneM, em.nnModuleStack, none⟩,
         .wrapA onm ps t cargs onode.meta]
        (P ++ .callMod cname t cargs cmeta :: Q) =
        P ++ .getAttr (gaName t) t ⟨.noneM, em.nnModuleStack, none⟩ ::
          .wrapA onm ps t cargs onode.meta :: Q := by
      rw [replaceNodeWith_append cname _ P _ hP,
          replaceNodeWith_cons_self cname _ _ _ (by simp [Node.name])]
      simp
    have hE1 : (Node.enterA en ps em).meta = em := rfl
    have hE2 : (Node.enterA en ps em).enterParams = ps := rfl
    have hE3 : (Node.exitA ex en xm).name = ex := rfl
    have hE4 : (Node.enterA en ps em).name = en := rfl
    simp only [replaceWithHopCore, GraphModule.graph, GraphModule.children,
      hE1, hE2, hE3, hE4, hfind, herase1, herase2, exceptBindOk, hrepl]
    have hmap : (P ++ .getAttr (gaName t) t ⟨.noneM, em.nnModuleStack, none⟩ ::
        .wrapA onm ps t cargs onode.meta :: Q).map (Node.mapRefs (substName cname onm)) =
        P ++ .getAttr (gaName t) t ⟨.noneM, em.nnModuleStack, none⟩ ::
          .wrapA onm ps t cargs onode.meta ::
          Q.map (Node.mapRefs (substName cname onm)) := by
      rw [List.map_append, map_mapRefs_subst_id cname onm P hPref]
      simp only [List.map_cons]
      rw [mapRefs_subst_id cname onm _ (by simp [Node.argRefs]),
          mapRefs_subst_id cname onm _ (by simpa [Node.argRefs] using hcargs)]
    rw [hmap]
    rfl
  · subst hspec
    rw [hdispatch]
    simp [replaceWithHopCore, GraphModule.graph]
  · subst hspec
    rw [hdispatch]
    simp [replaceWithHopCore, GraphModule.graph]

/-- Witness for C6 at a concrete one-region graph with a single-value output: the
wrap node reuses the member's name `"b"` and its metadata, no getitem appears,
and a `None`-typed output aborts with the `NotImplementedError`. -/
theorem claim_C6_witness :
    (replaceWithHop
        ⟨["x"], [.compute "a" 0 [.ref "x"] {}] ++
          .callMod "%submod_1" 0 ["a"] {} :: [.compute "z" 9 [.ref "%submod_1"] {}],
          some (.tup [.ref "z"])⟩
        [.mk ⟨["a"], .enterA "en" [1] {} :: [.compute "b" 1 [.ref "a"] ⟨.atom 7, 3, none⟩] ++
          [.exitA "ex" "en" {}], some (.node "b")⟩ []]
        (.callMod "%submod_1" 0 ["a"] {}) =
      .ok (⟨["x"], [.compute "a" 0 [.ref "x"] {}] ++
             .getAttr (gaName 0) 0 ⟨.noneM, 0, none⟩ ::
             .wrapA "b" [1] 0 ["a"] ⟨.atom 7, 3, none⟩ ::
             [.compute "z" 9 [.ref "b"] {}],
             some (.tup [.ref "z"])⟩,
           [.mk ⟨["a"], [.compute "b" 1 [.ref "a"] ⟨.atom 7, 3, none⟩], some (.node "b")⟩ []],
           [("%submod_1", "b")])) ∧
    (replaceWithHop
        ⟨["x"], [] ++ .callMod "%submod_1" 0 ["a"] {} :: [], some (.tup [])⟩
        [.mk ⟨["a"], .enterA "en" [1] {} :: [] ++ [.exitA "ex" "en" {}], some .noneV⟩ []]
        (.callMod "%submod_1" 0 ["a"] {}) =
      .error (.notImplementedError
        "repalce_autocast_with_hop_pass doesnt' support output type NoneType")) := by
  constructor
  · have h := (claim_C6_single_value_and_unsupported ["x"]
      [.compute "a" 0 [.ref "x"] {}] [.compute "z" 9 [.ref "%submod_1"] {}]
      (some (.tup [.ref "z"])) "%submod_1" 0 ["a"] {}
      [.mk ⟨["a"], .enterA "en" [1] {} :: [.compute "b" 1 [.ref "a"] ⟨.atom 7, 3, none⟩] ++
        [.exitA "ex" "en" {}], some (.node "b")⟩ []]
      ["a"] "en" "ex" [1] {} {} [.compute "b" 1 [.ref "a"] ⟨.atom 7, 3, none⟩] []
      (some (.node "b")) (by rfl) (by decide) (by decide) (by decide) (by decide)
      (by decide) (by decide) (by decide)).1
      "b" (.compute "b" 1 [.ref "a"] ⟨.atom 7, 3, none⟩) rfl (by rfl)
      (by decide) (by decide)
    simpa [substName, outMapRefs, OutArgs.mapRefs, Arg.mapRef, Node.mapRefs,
      Node.meta] using h
  · have h := (claim_C6_single_value_and_unsupported ["x"] [] []
      (some (.tup [])) "%submod_1" 0 ["a"] {}
      [.mk ⟨["a"], .enterA "en" [1] {} :: [] ++ [.exitA "ex" "en" {}], some .noneV⟩ []]
      ["a"] "en" "ex" [1] {} {} [] [] (some .noneV) (by rfl) (by decide) (by decide)
      (by decide) (by decide) (by decide) (by decide) (by decide)).2.1 rfl
    simpa using h

/-- Sequential application of single-name reference substitutions to a node. -/
def substSeq (prs : List (String × String)) (n : Node) : Node :=
  prs.foldl (fun m p => m.mapRefs (substName p.1 p.2)) n

/-- Sequential application of single-name reference substitutions to an output. -/
def substSeqOut (prs : List (String × String)) (o : Option OutArgs) : Option OutArgs :=
  prs.foldl (fun m p => outMapRefs (substName p.1 p.2) m) o

/-- Reference substitution does not change a node's name. -/
lemma mapRefs_name (f : String → String) (n : Node) : (n.mapRefs f).name = n.name := by
  cases n <;> rfl

/-- Substituting a name an output never references leaves it unchanged. -/
lemma outMapRefs_subst_id (a b : String) (o : Option OutArgs) (h : a ∉ outRefs o) :
    outMapRefs (substName a b) o = o := by
  match o with
  | none => rfl
  | some (.node n) =>
    have hna : n ≠ a := fun he => h (by simp [outRefs, he])
    simp [outMapRefs, OutArgs.mapRefs, substName, hna]
  | some (.tup as) =>
    simp only [outMapRefs, OutArgs.mapRefs, Option.some.injEq, OutArgs.tup.injEq]
    rw [List.map_congr_left, List.map_id]
    intro x hx
    cases x with
    | noneA => rfl
    | ref r =>
      have : r ≠ a := by
        intro he
        exact h (by simp [outRefs, List.mem_filterMap]; exact ⟨.ref r, hx, by simp [Arg.refName?, he]⟩)
      simp [Arg.mapRef, substName, this]
  | some .noneV => rfl
  | some (.other k) => rfl

/-- The member metadata collection over a list of referenced members. -/
lemma collectMemberVals_map (subNodes : List Node) (idxs : List Nat) (esf : Nat → String)
    (mem : Nat → Node)
    (hfind : ∀ j ∈ idxs, subNodes.find? (fun n => n.name = esf j) = some (mem j)) :
    collectMemberVals subNodes (idxs.map (fun j => Arg.ref (esf j))) =
      .ok (idxs.map (fun j => (mem j).meta.val)) := by
  induction idxs with
  | nil => rfl
  | cons j rest ih =>
    simp only [List.map_cons, collectMemberVals, hfind j (by simp),
      ih (fun i hi => hfind i (by simp [hi])), exceptBindOk]

/-- One extraction-renaming step in explicit form. -/
lemma renameOne_getitem (outAs : List Arg) (subNodes : List Node) (gnm src : String)
    (idx : Nat) (gmeta : Meta) (onm : String) (onode : Node) (g : Graph)
    (h1 : outAs.get? idx = some (.ref onm))
    (h2 : subNodes.find? (fun n => n.name = onm) = some onode) :
    renameOne outAs subNodes (.getitem gnm src idx gmeta) g =
      .ok ⟨g.inputs,
        g.nodes.map (fun n => if n.name = gnm then .getitem onm src idx onode.meta
          else n.mapRefs (substName gnm onm)),
        outMapRefs (substName gnm onm) g.output⟩ := by
  have h1' : outAs[idx]? = some (Arg.ref onm) := by
    rw [← List.get?_eq_getElem?]
    exact h1
  simp [renameOne, h1', h2]

/-- The extraction-renaming fold of the tuple branch: renaming the per-index
extraction users of the wrap node, one at a time, renames each to its member's
name with the member's metadata and pushes the corresponding reference
substitutions through the rest of the graph. -/
lemma renameFold (outAs : List Arg) (subNodes : List Node) (ins : List String)
    (wname : String) (esf : Nat → String) (mem : Nat → Node) (g : Nat → String)
    (gm : Nat → Meta) :
    ∀ (L : List Nat) (A B : List Node) (o : Option OutArgs),
    (∀ j ∈ L, outAs.get? j = some (.ref (esf j))) →
    (∀ j ∈ L, subNodes.find? (fun n => n.name = esf j) = some (mem j)) →
    (∀ j ∈ L, ∀ n ∈ A, n.name ≠ g j ∧ g j ∉ n.argRefs) →
    (L.map g).Nodup →
    (∀ j ∈ L, ∀ i ∈ L, esf i ≠ g j) →
    (∀ j ∈ L, wname ≠ g j) →
    (∀ j ∈ L, ∀ n ∈ B, n.name ≠ g j) →
    List.foldlM (fun gr u => renameOne outAs subNodes u gr)
        (⟨ins, A ++ (L.map fun j => Node.getitem (g j) wname j (gm j)) ++ B, o⟩ : Graph)
        (L.map fun j => Node.getitem (g j) wname j (gm j)) =
      .ok ⟨ins, A ++ (L.map fun j => Node.getitem (esf j) wname j (mem j).meta) ++
            B.map (substSeq (L.map fun j => (g j, esf j))),
          substSeqOut (L.map fun j => (g j, esf j)) o⟩ := by
  intro L
  induction L with
  | nil =>
    intro A B o _ _ _ _ _ _ _
    simp only [List.map_nil, List.append_nil, List.foldlM_nil, substSeqOut, List.foldl_nil]
    rw [show substSeq ([] : List (String × String)) = id from funext (fun n => rfl)]
    simp
    rfl
  | cons j rest ih =>
    intro A B o hget hfind hA hgnodup hes hw hB
    obtain ⟨hgnotin, hgrest⟩ : (∀ x ∈ rest, ¬ g x = g j) ∧ (rest.map g).Nodup := by
      simpa using hgnodup
    simp only [List.map_cons, List.foldlM_cons]
    rw [renameOne_getitem outAs subNodes (g j) wname j (gm j) (esf j) (mem j) _
      (hget j (by simp)) (hfind j (by simp))]
    simp only [exceptBindOk]
    have hφA : A.map (fun n => if n.name = g j then Node.getitem (esf j) wname j (mem j).meta
        else n.mapRefs (substName (g j) (esf j))) = A := by
      rw [List.map_congr_left, List.map_id]
      intro n hn
      rw [if_neg ((hA j (by simp) n hn).1)]
      exact mapRefs_subst_id _ _ _ (hA j (by simp) n hn).2
    have hφrest : (rest.map fun i => Node.getitem (g i) wname i (gm i)).map
        (fun n => if n.name = g j then Node.getitem (esf j) wname j (mem j).meta
          else n.mapRefs (substName (g j) (esf j))) =
        rest.map fun i => Node.getitem (g i) wname i (gm i) := by
      rw [List.map_map, List.map_congr_left]
      intro i hi
      have hne : Node.name (Node.getitem (g i) wname i (gm i)) ≠ g j := by
        simpa [Node.name] using hgnotin i hi
      simp only [Function.comp_apply, if_neg hne]
      refine mapRefs_subst_id _ _ _ ?_
      simp only [Node.argRefs, List.mem_singleton]
      intro he
      exact hw j (by simp) he.symm
    have hφB : B.map (fun n => if n.name = g j then Node.getitem (esf j) wname j (mem j).meta
        else n.mapRefs (substName (g j) (esf j))) =
        B.map (Node.mapRefs (substName (g j) (esf j))) := by
      apply List.map_congr_left
      intro n hn
      rw [if_neg (hB j (by simp) n hn)]
    have hφhead : (if (Node.getitem (g j) wname j (gm j)).name = g j
        then Node.getitem (esf j) wname j (mem j).meta
        else (Node.getitem (g j) wname j (gm j)).mapRefs (substName (g j) (esf j))) =
        Node.getitem (esf j) wname j (mem j).meta := by
      simp [Node.name]
    simp only [List.map_append, List.map_cons, hφhead, hφA, hφrest, hφB]
    have hlist : (A ++ Node.getitem (esf j) wname j (mem j).meta ::
          rest.map (fun i => Node.getitem (g i) wname i (gm i))) ++
          B.map (Node.mapRefs (substName (g j) (esf j))) =
        (A ++ [Node.getitem (esf j) wname j (mem j).meta]) ++
          rest.map (fun i => Node.getitem (g i) wname i (gm i)) ++
          B.map (Node.mapRefs (substName (g j) (esf j))) := by
      simp
    rw [hlist]
    rw [ih (A ++ [Node.getitem (esf j) wname j (mem j).meta])
      (B.map (Node.mapRefs (substName (g j) (esf j))))
      (outMapRefs (substName (g j) (esf j)) o)
      (fun i hi => hget i (by simp [hi]))
      (fun i hi => hfind i (by simp [hi]))
      (fun i hi n hn => by
        rcases List.mem_append.mp hn with hmem | hmem
        · exact hA i (by simp [hi]) n hmem
        · have heq : n = Node.getitem (esf j) wname j (mem j).meta := by simpa using hmem
          subst heq
          refine ⟨?_, ?_⟩
          · simp only [Node.name]
            exact hes i (by simp [hi]) j (by simp)
          · simp only [Node.argRefs, List.mem_singleton]
            intro he
            exact hw i (by simp [hi]) he.symm)
      hgrest
      (fun i hi i' hi' => hes i (by simp [hi]) i' (by simp [hi']))
      (fun i hi => hw i (by simp [hi]))
      (fun i hi n hn => by
        obtain ⟨n0, hn0, rfl⟩ := List.mem_map.mp hn
        rw [mapRefs_name]
        exact hB i (by simp [hi]) n0 hn0)]
    have hmm2 : (B.map (Node.mapRefs (substName (g j) (esf j)))).map
        (substSeq (rest.map fun i => (g i, esf i))) =
        B.map (substSeq ((j :: rest).map fun i => (g i, esf i))) := by
      rw [List.map_map]
      exact List.map_congr_left (fun n _ => rfl)
    have hmm3 : substSeqOut (rest.map fun i => (g i, esf i))
        (outMapRefs (substName (g j) (esf j)) o) =
        substSeqOut ((j :: rest).map fun i => (g i, esf i)) o := rfl
    rw [hmm2, hmm3]
    simp

/-- The tuple branch of the replacement core in closed form: the call is replaced
by the `get_attr` and a single `wrap_with_autocast` node carrying the members'
`"val"` metadata, the per-index extraction users are renamed to the members'
names with metadata copied, references follow the renames, the markers are
deleted from the child, and the call-to-wrap replacement is logged. -/
lemma hopTupleStep
    (ins : List String) (P Q : List Node) (pout : Option OutArgs)
    (cname : String) (t : Nat) (cargs : List String) (cmeta : Meta)
    (children : List GraphModule) (phs : List String) (en ex : String)
    (ps : List Nat) (em xm : Meta) (body : List Node) (subcs : List GraphModule)
    (k : Nat) (esf : Nat → String) (mem : Nat → Node) (gnames : Nat → String)
    (gms : Nat → Meta)
    (hchild : children.get? t = some (.mk ⟨phs,
        .enterA en ps em :: body ++ [.exitA ex en xm],
        some (.tup ((List.range k).map fun j => Arg.ref (esf j)))⟩ subcs))
    (hbody : ∀ n ∈ body, isComputeNode n = true)
    (hnames : ∀ n ∈ body, n.name ≠ en ∧ n.name ≠ ex)
    (hnref : ∀ n ∈ body, en ∉ n.argRefs ∧ ex ∉ n.argRefs)
    (hnex : en ≠ ex)
    (hfind : ∀ j < k, List.find? (fun n => n.name = esf j)
        (Node.enterA en ps em :: body ++ [Node.exitA ex en xm]) = some (mem j))
    (hesfm : ∀ j < k, esf j ≠ en ∧ esf j ≠ ex)
    (hP : ∀ n ∈ P, n.name ≠ cname ∧ cname ∉ n.argRefs ∧ wrapGenName t ∉ n.argRefs)
    (hPg : ∀ j < k, ∀ n ∈ P, n.name ≠ gnames j ∧ gnames j ∉ n.argRefs)
    (hQ : ∀ n ∈ Q, cname ∉ n.argRefs ∧ wrapGenName t ∉ n.argRefs)
    (hQn : ∀ j < k, ∀ n ∈ Q, n.name ≠ gnames j)
    (hcargs : cname ∉ cargs ∧ wrapGenName t ∉ cargs)
    (hcargsg : ∀ j < k, gnames j ∉ cargs)
    (hgnodup : ((List.range k).map gnames).Nodup)
    (hgesf : ∀ j < k, ∀ i < k, esf i ≠ gnames j)
    (hgw : ∀ j < k, wrapGenName t ≠ gnames j)
    (hgga : ∀ j < k, gnames j ≠ gaName t)
    (hout : cname ∉ outRefs pout ∧ wrapGenName t ∉ outRefs pout) :
    replaceWithHop ⟨ins, P ++ .callMod cname t cargs cmeta ::
        (((List.range k).map fun j => Node.getitem (gnames j) cname j (gms j)) ++ Q), pout⟩
        children (.callMod cname t cargs cmeta) =
      .ok (⟨ins,
            P ++ .getAttr (gaName t) t ⟨.noneM, em.nnModuleStack, none⟩ ::
              .wrapA (wrapGenName t) ps t cargs
                ⟨.tupM ((List.range k).map fun j => (mem j).meta.val),
                 em.nnModuleStack, some wrapTorchFn⟩ ::
              (((List.range k).map fun j =>
                  Node.getitem (esf j) (wrapGenName t) j (mem j).meta) ++
               Q.map (substSeq ((List.range k).map fun j => (gnames j, esf j)))),
            substSeqOut ((List.range k).map fun j => (gnames j, esf j)) pout⟩,
           children.set t (.mk ⟨phs, body,
             some (.tup ((List.range k).map fun j => Arg.ref (esf j)))⟩ subcs),
           [(cname, wrapGenName t)]) := by
  have hdispatch := replaceWithHop_region
    ⟨ins, P ++ .callMod cname t cargs cmeta ::
      (((List.range k).map fun j => Node.getitem (gnames j) cname j (gms j)) ++ Q), pout⟩
    children cname t cargs cmeta _ hchild phs en ex ps em xm body
    (some (.tup ((List.range k).map fun j => Arg.ref (esf j)))) subcs rfl hbody
  rw [hdispatch]
  set outAs := (List.range k).map fun j => Arg.ref (esf j) with houtAs
  set wname := wrapGenName t with hwname
  set subNodes := Node.enterA en ps em :: body ++ [Node.exitA ex en xm] with hsubNodes
  set ga := Node.getAttr (gaName t) t ⟨.noneM, em.nnModuleStack, none⟩ with hga
  set wnode := Node.wrapA wname ps t cargs
    ⟨.tupM ((List.range k).map fun j => (mem j).meta.val),
     em.nnModuleStack, some wrapTorchFn⟩ with hwnode
  set G := (List.range k).map fun j => Node.getitem (gnames j) cname j (gms j) with hG
  set G2 := (List.range k).map fun j => Node.getitem (gnames j) wname j (gms j) with hG2
  -- metadata collection succeeds
  have hcollect : collectMemberVals subNodes outAs =
      .ok ((List.range k).map fun j => (mem j).meta.val) :=
    collectMemberVals_map subNodes (List.range k) esf mem
      (fun j hj => hfind j (List.mem_range.mp hj))
  -- the call is replaced in place and uses rerouted to the wrap node
  have hrepl : replaceNodeWith cname [ga, wnode]
      (P ++ .callMod cname t cargs cmeta :: (G ++ Q)) =
      P ++ ga :: wnode :: (G ++ Q) := by
    rw [replaceNodeWith_append cname _ P _ (fun n hn => (hP n hn).1),
        replaceNodeWith_cons_self cname _ _ _ (by simp [Node.name])]
    simp
  have hmapsub : (P ++ ga :: wnode :: (G ++ Q)).map (Node.mapRefs (substName cname wname)) =
      P ++ ga :: wnode :: (G2 ++ Q) := by
    rw [List.map_append, map_mapRefs_subst_id cname wname P (fun n hn => (hP n hn).2.1)]
    simp only [List.map_cons, List.map_append]
    rw [mapRefs_subst_id cname wname ga (by simp [hga, Node.argRefs]),
        mapRefs_subst_id cname wname wnode (by simp [hwnode, Node.argRefs]; exact hcargs.1),
        map_mapRefs_subst_id cname wname Q (fun n hn => (hQ n hn).1)]
    have hGmap : G.map (Node.mapRefs (substName cname wname)) = G2 := by
      rw [hG, hG2, List.map_map]
      apply List.map_congr_left
      intro j _
      simp [Function.comp, Node.mapRefs, substName]
    rw [hGmap]
  have hpout : outMapRefs (substName cname wname) pout = pout :=
    outMapRefs_subst_id cname wname pout hout.1
  -- the users of the wrap node are exactly the extraction nodes
  have husers : (P ++ ga :: wnode :: (G2 ++ Q)).filter (fun n => n.argRefs.contains wname) =
      G2 := by
    rw [List.filter_append]
    have h1 : P.filter (fun n => n.argRefs.contains wname) = [] := by
      rw [List.filter_eq_nil_iff]
      intro n hn
      simpa using (hP n hn).2.2
    rw [h1]
    rw [List.filter_cons_of_neg (by simp [hga, Node.argRefs]),
        List.filter_cons_of_neg (by simp [hwnode, Node.argRefs]; exact hcargs.2)]
    rw [List.filter_append]
    have h2 : Q.filter (fun n => n.argRefs.contains wname) = [] := by
      rw [List.filter_eq_nil_iff]
      intro n hn
      simpa using (hQ n hn).2
    have h3 : G2.filter (fun n => n.argRefs.contains wname) = G2 := by
      rw [List.filter_eq_self]
      intro n hn
      rw [hG2] at hn
      obtain ⟨j, _, rfl⟩ := List.mem_map.mp hn
      simp [Node.argRefs]
    rw [h2, h3]
    simp
  -- the renaming fold
  have hfold := renameFold outAs subNodes ins wname esf mem gnames gms (List.range k)
    (P ++ [ga, wnode]) Q pout
    (fun j hj => by
      rw [houtAs, List.get?_eq_getElem?, List.getElem?_map,
        List.getElem?_range (List.mem_range.mp hj)]
      rfl)
    (fun j hj => hfind j (List.mem_range.mp hj))
    (fun j hj n hn => by
      rcases List.mem_append.mp hn with hmem | hmem
      · exact ⟨(hPg j (List.mem_range.mp hj) n hmem).1, (hPg j (List.mem_range.mp hj) n hmem).2⟩
      · rcases List.mem_cons.mp hmem with rfl | hmem2
        · exact ⟨by simpa [hga, Node.name] using (hgga j (List.mem_range.mp hj)).symm,
            by simp [hga, Node.argRefs]⟩
        · have : n = wnode := by simpa using hmem2
          subst this
          refine ⟨by simpa [hwnode, Node.name] using hgw j (List.mem_range.mp hj), ?_⟩
          simp only [hwnode, Node.argRefs]
          exact hcargsg j (List.mem_range.mp hj))
    hgnodup
    (fun j hj i hi => hgesf j (List.mem_range.mp hj) i (List.mem_range.mp hi))
    (fun j hj => hgw j (List.mem_range.mp hj))
    (fun j hj n hn => hQn j (List.mem_range.mp hj) n hn)
  -- marker erasure
  have henout : en ∉ outRefs (some (.tup outAs)) := by
    simp only [outRefs, houtAs, List.mem_filterMap]
    rintro ⟨a, ha, hr⟩
    obtain ⟨j, hj, rfl⟩ := List.mem_map.mp ha
    simp only [Arg.refName?, Option.some.injEq] at hr
    exact (hesfm j (List.mem_range.mp hj)).1 hr
  have hexout : ex ∉ outRefs (some (.tup outAs)) := by
    simp only [outRefs, houtAs, List.mem_filterMap]
    rintro ⟨a, ha, hr⟩
    obtain ⟨j, hj, rfl⟩ := List.mem_map.mp ha
    simp only [Arg.refName?, Option.some.injEq] at hr
    exact (hesfm j (List.mem_range.mp hj)).2 hr
  have herase1 := erase_exit_ok phs en ex ps em xm body (some (.tup outAs)) hnex
    (fun n hn => (hnames n hn).2) (fun n hn => (hnref n hn).2) hexout
  have herase2 := erase_enter_ok phs en ps em body (some (.tup outAs))
    (fun n hn => (hnref n hn).1) henout
  -- assemble
  have hE1 : (Node.enterA en ps em).meta = em := rfl
  have hE2 : (Node.enterA en ps em).enterParams = ps := rfl
  have hE3 : (Node.exitA ex en xm).name = ex := rfl
  have hE4 : (Node.enterA en ps em).name = en := rfl
  simp only [replaceWithHopCore, GraphModule.graph, GraphModule.children, hE1, hE2, hE3, hE4,
    hcollect, exceptBindOk, hrepl, hmapsub, hpout, husers]
  have hassoc : P ++ ga :: wnode :: (G2 ++ Q) = (P ++ [ga, wnode]) ++ G2 ++ Q := by simp
  rw [hassoc, hG2, hfold]
  simp only [herase1, exceptBindOk, herase2]
  simp

/-- C5: a scope-body segment whose output argument is a tuple is replaced by
exactly one `wrap_with_autocast` node whose `"val"` metadata is the tuple of the
members' `"val"` metadata, and every per-index extraction user of that node is
renamed to the corresponding member's original name with the member's metadata
copied onto it (references follow the renames); the markers are deleted from the
child and the use-replacement of the call by the wrap node is logged. -/
theorem claim_C5_tuple_output_replacement
    (ins : List String) (P Q : List Node) (pout : Option OutArgs)
    (cname : String) (t : Nat) (cargs : List String) (cmeta : Meta)
    (children : List GraphModule) (phs : List String) (en ex : String)
    (ps : List Nat) (em xm : Meta) (body : List Node) (subcs : List GraphModule)
    (k : Nat) (esf : Nat → String) (mem : Nat → Node) (gnames : Nat → String)
    (gms : Nat → Meta)
    (hchild : children.get? t = some (.mk ⟨phs,
        .enterA en ps em :: body ++ [.exitA ex en xm],
        some (.tup ((List.range k).map fun j => Arg.ref (esf j)))⟩ subcs))
    (hbody : ∀ n ∈ body, isComputeNode n = true)
    (hnames : ∀ n ∈ body, n.name ≠ en ∧ n.name ≠ ex)
    (hnref : ∀ n ∈ body, en ∉ n.argRefs ∧ ex ∉ n.argRefs)
    (hnex : en ≠ ex)
    (hfind : ∀ j < k, List.find? (fun n => n.name = esf j)
        (Node.enterA en ps em :: body ++ [Node.exitA ex en xm]) = some (mem j))
    (hesfm : ∀ j < k, esf j ≠ en ∧ esf j ≠ ex)
    (hP : ∀ n ∈ P, n.name ≠ cname ∧ cname ∉ n.argRefs ∧ wrapGenName t ∉ n.argRefs)
    (hPg : ∀ j < k, ∀ n ∈ P, n.name ≠ gnames j ∧ gnames j ∉ n.argRefs)
    (hQ : ∀ n ∈ Q, cname ∉ n.argRefs ∧ wrapGenName t ∉ n.argRefs)
    (hQn : ∀ j < k, ∀ n ∈ Q, n.name ≠ gnames j)
    (hcargs : cname ∉ cargs ∧ wrapGenName t ∉ cargs)
    (hcargsg : ∀ j < k, gnames j ∉ cargs)
    (hgnodup : ((List.range k).map gnames).Nodup)
    (hgesf : ∀ j < k, ∀ i < k, esf i ≠ gnames j)
    (hgw : ∀ j < k, wrapGenName t ≠ gnames j)
    (hgga : ∀ j < k, gnames j ≠ gaName t)
    (hout : cname ∉ outRefs pout ∧ wrapGenName t ∉ outRefs pout) :
    replaceWithHop ⟨ins, P ++ .callMod cname t cargs cmeta ::
        (((List.range k).map fun j => Node.getitem (gnames j) cname j (gms j)) ++ Q), pout⟩
        children (.callMod cname t cargs cmeta) =
      .ok (⟨ins,
            P ++ .getAttr (gaName t) t ⟨.noneM, em.nnModuleStack, none⟩ ::
              .wrapA (wrapGenName t) ps t cargs
                ⟨.tupM ((List.range k).map fun j => (mem j).meta.val),
                 em.nnModuleStack, some wrapTorchFn⟩ ::
              (((List.range k).map fun j =>
                  Node.getitem (esf j) (wrapGenName t) j (mem j).meta) ++
               Q.map (substSeq ((List.range k).map fun j => (gnames j, esf j)))),
            substSeqOut ((List.range k).map fun j => (gnames j, esf j)) pout⟩,
           children.set t (.mk ⟨phs, body,
             some (.tup ((List.range k).map fun j => Arg.ref (esf j)))⟩ subcs),
           [(cname, wrapGenName t)]) :=
  hopTupleStep ins P Q pout cname t cargs cmeta children phs en ex ps em xm body subcs
    k esf mem gnames gms hchild hbody hnames hnref hnex hfind hesfm hP hPg hQ hQn
    hcargs hcargsg hgnodup hgesf hgw hgga hout

/-- Witness for C5 at a concrete two-member tuple region: the wrap node's `"val"`
metadata is the pair of the members' values, both extraction nodes are renamed to
`"b"` and `"c"` with the members' metadata, and downstream references follow. -/
theorem claim_C5_witness :
    replaceWithHop
      ⟨["x"], [.compute "a" 0 [.ref "x"] {}] ++ .callMod "%submod_1" 1 ["a"] {} ::
        ([.getitem "%gi_1_0" "%submod_1" 0 {}, .getitem "%gi_1_1" "%submod_1" 1 {}] ++
         [.compute "d" 3 [.ref "%gi_1_0", .ref "%gi_1_1"] {}]),
        some (.tup [.ref "d", .ref "%gi_1_0"])⟩
      [.mk ⟨[], [], none⟩ [],
       .mk ⟨["a"], .enterA "en" [9] {} ::
          [.compute "b" 1 [.ref "a"] ⟨.atom 5, 0, none⟩,
           .compute "c" 2 [.ref "b"] ⟨.atom 6, 0, none⟩] ++ [.exitA "ex" "en" {}],
          some (.tup [.ref "b", .ref "c"])⟩ []]
      (.callMod "%submod_1" 1 ["a"] {}) =
    .ok (⟨["x"],
          [.compute "a" 0 [.ref "x"] {}] ++ .getAttr (gaName 1) 1 ⟨.noneM, 0, none⟩ ::
            .wrapA (wrapGenName 1) [9] 1 ["a"]
              ⟨.tupM [.atom 5, .atom 6], 0, some wrapTorchFn⟩ ::
            ([.getitem "b" (wrapGenName 1) 0 ⟨.atom 5, 0, none⟩,
              .getitem "c" (wrapGenName 1) 1 ⟨.atom 6, 0, none⟩] ++
             [.compute "d" 3 [.ref "b", .ref "c"] {}]),
          some (.tup [.ref "d", .ref "b"])⟩,
         [.mk ⟨[], [], none⟩ [],
          .mk ⟨["a"], [.compute "b" 1 [.ref "a"] ⟨.atom 5, 0, none⟩,
            .compute "c" 2 [.ref "b"] ⟨.atom 6, 0, none⟩],
            some (.tup [.ref "b", .ref "c"])⟩ []],
         [("%submod_1", wrapGenName 1)]) := by
  have h := claim_C5_tuple_output_replacement ["x"]
    [.compute "a" 0 [.ref "x"] {}]
    [.compute "d" 3 [.ref "%gi_1_0", .ref "%gi_1_1"] {}]
    (some (.tup [.ref "d", .ref "%gi_1_0"]))
    "%submod_1" 1 ["a"] {}
    [.mk ⟨[], [], none⟩ [],
     .mk ⟨["a"], .enterA "en" [9] {} ::
        [.compute "b" 1 [.ref "a"] ⟨.atom 5, 0, none⟩,
         .compute "c" 2 [.ref "b"] ⟨.atom 6, 0, none⟩] ++ [.exitA "ex" "en" {}],
        some (.tup [.ref "b", .ref "c"])⟩ []]
    ["a"] "en" "ex" [9] {} {}
    [.compute "b" 1 [.ref "a"] ⟨.atom 5, 0, none⟩,
     .compute "c" 2 [.ref "b"] ⟨.atom 6, 0, none⟩] []
    2 (fun j => if j = 0 then "b" else "c")
    (fun j => if j = 0 then .compute "b" 1 [.ref "a"] ⟨.atom 5, 0, none⟩
      else .compute "c" 2 [.ref "b"] ⟨.atom 6, 0, none⟩)
    (fun j => if j = 0 then "%gi_1_0" else "%gi_1_1") (fun _ => {})
    (by rfl) (by decide) (by decide) (by decide) (by decide)
    (fun j hj => by interval_cases j <;> rfl)
    (by decide) (by decide) (by decide) (by decide) (by decide) (by decide) (by decide)
    (by decide) (by decide) (by decide) (by decide) (by decide)
  exact h

/-- A name produced by FX tracing (never starting with `'%'`, the marker of the
names this model generates for split artifacts). -/
def percentFree (nm : String) : Prop := nm.data.head? ≠ some '%'

instance (nm : String) : Decidable (percentFree nm) := by
  unfold percentFree
  infer_instance

/-- Character data of the generated submodule-call name. -/
lemma submodName_data (i : Nat) : (submodName i).data = '%' :: 's' :: List.replicate i 'i' := rfl

/-- Character data of the generated `get_attr` name. -/
lemma gaName_data (i : Nat) : (gaName i).data = '%' :: 'a' :: List.replicate i 'i' := rfl

/-- Character data of the generated wrap-node name. -/
lemma wrapGenName_data (i : Nat) : (wrapGenName i).data = '%' :: 'w' :: List.replicate i 'i' := rfl

/-- Character data of the generated extraction-node name. -/
lemma giName_data (i j : Nat) :
    (giName i j).data = '%' :: 'g' :: (List.replicate i 'i' ++ '_' :: List.replicate j 'i') := by
  show (((("%g" ++ natTag i) ++ "_") ++ natTag j)).data = _
  have h : ∀ s t : String, (s ++ t).data = s.data ++ t.data := fun s t => rfl
  simp [h, natTag]

/-- A traced name differs from every generated submodule-call name. -/
lemma percentFree_ne_submodName (nm : String) (h : percentFree nm) (i : Nat) :
    nm ≠ submodName i := by
  intro he
  exact h (by rw [he, submodName_data]; rfl)

/-- A traced name differs from every generated extraction name. -/
lemma percentFree_ne_giName (nm : String) (h : percentFree nm) (i j : Nat) :
    nm ≠ giName i j := by
  intro he
  exact h (by rw [he, giName_data]; rfl)

/-- A traced name differs from every generated `get_attr` name. -/
lemma percentFree_ne_gaName (nm : String) (h : percentFree nm) (i : Nat) :
    nm ≠ gaName i := by
  intro he
  exact h (by rw [he, gaName_data]; rfl)

/-- A traced name differs from every generated wrap name. -/
lemma percentFree_ne_wrapGenName (nm : String) (h : percentFree nm) (i : Nat) :
    nm ≠ wrapGenName i := by
  intro he
  exact h (by rw [he, wrapGenName_data]; rfl)

/-- The generated name families are pairwise disjoint and injective. -/
lemma gaName_ne_submodName (i j : Nat) : gaName i ≠ submodName j := by
  intro h
  have h2 := congrArg String.data h
  rw [gaName_data, submodName_data] at h2
  simp at h2

/-- Wrap names never collide with submodule-call names. -/
lemma wrapGenName_ne_submodName (i j : Nat) : wrapGenName i ≠ submodName j := by
  intro h
  have h2 := congrArg String.data h
  rw [wrapGenName_data, submodName_data] at h2
  simp at h2

/-- Extraction names never collide with submodule-call names. -/
lemma giName_ne_submodName (i j l : Nat) : giName i j ≠ submodName l := by
  intro h
  have h2 := congrArg String.data h
  rw [giName_data, submodName_data] at h2
  simp at h2

/-- `get_attr` names never collide with wrap names. -/
lemma gaName_ne_wrapGenName (i j : Nat) : gaName i ≠ wrapGenName j := by
  intro h
  have h2 := congrArg String.data h
  rw [gaName_data, wrapGenName_data] at h2
  simp at h2

/-- `get_attr` names never collide with extraction names. -/
lemma gaName_ne_giName (i j l : Nat) : gaName i ≠ giName j l := by
  intro h
  have h2 := congrArg String.data h
  rw [gaName_data, giName_data] at h2
  simp at h2

/-- Wrap names never collide with extraction names. -/
lemma wrapGenName_ne_giName (i j l : Nat) : wrapGenName i ≠ giName j l := by
  intro h
  have h2 := congrArg String.data h
  rw [wrapGenName_data, giName_data] at h2
  simp at h2

/-- Submodule-call names are injective in the index. -/
lemma submodName_inj (i j : Nat) (h : submodName i = submodName j) : i = j := by
  have h2 := congrArg String.data h
  rw [submodName_data, submodName_data] at h2
  simp only [List.cons.injEq, true_and] at h2
  simpa using congrArg List.length h2

/-- Wrap names are injective in the index. -/
lemma wrapGenName_inj (i j : Nat) (h : wrapGenName i = wrapGenName j) : i = j := by
  have h2 := congrArg String.data h
  rw [wrapGenName_data, wrapGenName_data] at h2
  simp only [List.cons.injEq, true_and] at h2
  simpa using congrArg List.length h2

/-- A replicate-separator encoding is unambiguous. -/
lemma replicate_sep_inj (a b : List Char) :
    ∀ i j : Nat, List.replicate i 'i' ++ '_' :: a = List.replicate j 'i' ++ '_' :: b →
    i = j ∧ a = b := by
  intro i
  induction i with
  | zero =>
    intro j h
    cases j with
    | zero => simpa using h
    | succ j' =>
      rw [List.replicate_succ] at h
      simp only [List.replicate, List.nil_append, List.cons_append, List.cons.injEq] at h
      exact absurd h.1 (by decide)
  | succ i' ih =>
    intro j h
    cases j with
    | zero =>
      rw [List.replicate_succ] at h
      simp only [List.replicate, List.nil_append, List.cons_append, List.cons.injEq] at h
      exact absurd h.1 (by decide)
    | succ j' =>
      rw [List.replicate_succ, List.replicate_succ] at h
      simp only [List.cons_append, List.cons.injEq, true_and] at h
      obtain ⟨he, ha⟩ := ih j' h
      exact ⟨by omega, ha⟩

/-- Extraction names are injective in both indices. -/
lemma giName_inj (i j i' j' : Nat) (h : giName i j = giName i' j') : i = i' ∧ j = j' := by
  have h2 := congrArg String.data h
  rw [giName_data, giName_data] at h2
  simp only [List.cons.injEq, true_and] at h2
  obtain ⟨hi, hrep⟩ := replicate_sep_inj _ _ i i' h2
  refine ⟨hi, ?_⟩
  simpa using congrArg List.length hrep

/-- Description of one segment of the split: either a marker-free run of ordinary
computations or one maximal autocast region (enter, compute-only body, exit). -/
inductive SegDesc where
  | plain (ns : List Node)
  | region (en : String) (ps : List Nat) (em : Meta) (body : List Node) (ex : String) (xm : Meta)

/-- The node sequence of a segment. -/
def SegDesc.nodes : SegDesc → List Node
  | .plain ns => ns
  | .region en ps em body ex xm => .enterA en ps em :: body ++ [.exitA ex en xm]

/-- The concatenated node sequence of a segment list. -/
def segsNodes (segs : List SegDesc) : List Node := (segs.map SegDesc.nodes).flatten

/-- The force-flag value the callback holds after a segment's last node. -/
def segExitFlag : SegDesc → Bool
  | .plain _ => false
  | .region _ _ _ _ _ _ => true

/-- The expected callback decision sequence over a segment list, given the force
flag at entry to the first segment. -/
def flagsOf : Bool → List SegDesc → List Bool
  | _, [] => []
  | f, .plain ns :: rest => (f :: List.replicate (ns.length - 1) false) ++ flagsOf false rest
  | _, .region _ _ _ body _ _ :: rest =>
      (true :: List.replicate (body.length + 1) false) ++ flagsOf true rest

/-- The force-flag value after processing a whole segment list. -/
def segsExitFlag : Bool → List SegDesc → Bool
  | f, [] => f
  | _, s :: rest => segsExitFlag (segExitFlag s) rest

/-- Per-segment content discipline: plain segments are nonempty runs of
computations, region bodies are computations. -/
def segsContentOK : List SegDesc → Prop
  | [] => True
  | .plain ns :: rest => ns ≠ [] ∧ (∀ n ∈ ns, isComputeNode n = true) ∧ segsContentOK rest
  | .region _ _ _ body _ _ :: rest => (∀ n ∈ body, isComputeNode n = true) ∧ segsContentOK rest

/-- Chain discipline: every plain segment is entered with the force flag set,
i.e. it immediately follows a region. -/
def plainsFollowRegions : Bool → List SegDesc → Prop
  | _, [] => True
  | f, .plain _ :: rest => f = true ∧ plainsFollowRegions false rest
  | _, .region _ _ _ _ _ _ :: rest => plainsFollowRegions true rest

/-- A valid segment decomposition: nonempty, content discipline, and no plain
segment directly follows a plain segment. -/
def segsOK (segs : List SegDesc) : Prop :=
  segsContentOK segs ∧
    match segs with
    | [] => False
    | s :: rest => plainsFollowRegions (segExitFlag s) rest

/-- The callback on an ordinary computation with the force flag clear: no split,
state unchanged. -/
lemma callBack_compute_mid (st : List String) (n : Node) (h : isComputeNode n = true) :
    nodeCallBack ⟨st, false⟩ n = .ok (false, ⟨st, false⟩) := by
  match n, h with
  | .compute nm f args m, _ =>
    have h1 : isEnterAutocastNode (Node.compute nm f args m) = false := rfl
    have h2 : isExitAutocastNode (Node.compute nm f args m) = false := rfl
    simp [nodeCallBack, h1, h2]

/-- The callback on an ordinary computation entered with empty stack: the
decision is the force flag, which is then cleared. -/
lemma callBack_compute_entry (f : Bool) (n : Node) (h : isComputeNode n = true) :
    nodeCallBack ⟨[], f⟩ n = .ok (f, ⟨[], false⟩) := by
  match n, h with
  | .compute nm fn args m, _ =>
    have h1 : isEnterAutocastNode (Node.compute nm fn args m) = false := rfl
    have h2 : isExitAutocastNode (Node.compute nm fn args m) = false := rfl
    cases f <;> simp [nodeCallBack, h1, h2]

/-- Unfolding one step of the callback run when the head decision is known. -/
lemma runCons (s : SplitState) (n : Node) (ns : List Node) (b : Bool) (s' : SplitState)
    (h : nodeCallBack s n = .ok (b, s')) :
    nodeCallBackRun s (n :: ns) =
      (nodeCallBackRun s' ns).bind (fun q => .ok (b :: q.1, q.2)) := by
  simp only [nodeCallBackRun, h, exceptBindOk]
  cases hq : nodeCallBackRun s' ns with
  | error e => simp [Except.bind]
  | ok q => simp [Except.bind]

/-- The callback ignores ordinary computations: no split, unchanged state. -/
lemma run_computes (ns : List Node) :
    ∀ st : List String, (∀ n ∈ ns, isComputeNode n = true) →
    nodeCallBackRun ⟨st, false⟩ ns = .ok (List.replicate ns.length false, ⟨st, false⟩) := by
  induction ns with
  | nil => intro st _; rfl
  | cons n rest ih =>
    intro st h
    rw [runCons _ n rest false ⟨st, false⟩ (callBack_compute_mid st n (h n (by simp)))]
    rw [ih st (fun x hx => h x (by simp [hx]))]
    simp [Except.bind, List.replicate_succ]

/-- Appending node lists splits a callback run. -/
lemma run_append (xs : List Node) :
    ∀ (ys : List Node) (s : SplitState) (bs1 : List Bool) (s1 : SplitState),
    nodeCallBackRun s xs = .ok (bs1, s1) →
    nodeCallBackRun s (xs ++ ys) =
      (nodeCallBackRun s1 ys).bind (fun q => .ok (bs1 ++ q.1, q.2)) := by
  induction xs with
  | nil =>
    intro ys s bs1 s1 h
    simp only [nodeCallBackRun, Except.ok.injEq, Prod.mk.injEq] at h
    obtain ⟨h1, h2⟩ := h
    subst h1; subst h2
    simp only [List.nil_append]
    cases hq : nodeCallBackRun s ys with
    | error e => simp [Except.bind]
    | ok q => simp [Except.bind]
  | cons x xs ih =>
    intro ys s bs1 s1 h
    simp only [nodeCallBackRun] at h
    cases hx : nodeCallBack s x with
    | error e => rw [hx] at h; simp [Except.bind] at h
    | ok p =>
      obtain ⟨b, s'⟩ := p
      rw [hx] at h
      simp only [exceptBindOk] at h
      cases hrest : nodeCallBackRun s' xs with
      | error e => rw [hrest] at h; simp [Except.bind] at h
      | ok q =>
        obtain ⟨bs, s''⟩ := q
        rw [hrest] at h
        simp only [exceptBindOk, Except.ok.injEq, Prod.mk.injEq] at h
        obtain ⟨h1, h2⟩ := h
        subst h1; subst h2
        rw [show (x :: xs) ++ ys = x :: (xs ++ ys) from rfl]
        rw [runCons s x (xs ++ ys) b s' hx]
        rw [ih ys s' bs s'' hrest]
        cases hys : nodeCallBackRun s'' ys with
        | error e => simp [Except.bind]
        | ok r => simp [Except.bind]

/-- One plain segment under any entry flag: the first decision equals the flag,
the rest are false, and the flag is cleared. -/
lemma run_plain (ns : List Node) (f : Bool) (hne : ns ≠ [])
    (h : ∀ n ∈ ns, isComputeNode n = true) :
    nodeCallBackRun ⟨[], f⟩ ns =
      .ok (f :: List.replicate (ns.length - 1) false, ⟨[], false⟩) := by
  match ns, hne with
  | n :: rest, _ =>
    rw [runCons _ n rest f ⟨[], false⟩ (callBack_compute_entry f n (h n (by simp)))]
    rw [run_computes rest [] (fun x hx => h x (by simp [hx]))]
    simp [Except.bind]

/-- One region segment under any entry flag: split at the enter, no split inside,
force flag set after the exit. -/
lemma run_region (en : String) (ps : List Nat) (em xm : Meta) (body : List Node)
    (ex : String) (f : Bool) (h : ∀ n ∈ body, isComputeNode n = true) :
    nodeCallBackRun ⟨[], f⟩ (.enterA en ps em :: (body ++ [.exitA ex en xm])) =
      .ok (true :: List.replicate (body.length + 1) false, ⟨[], true⟩) := by
  have hen : nodeCallBack ⟨[], f⟩ (.enterA en ps em) = .ok (true, ⟨[en], false⟩) := by
    have h1 : isEnterAutocastNode (Node.enterA en ps em) = true := rfl
    have h2 : Node.name (Node.enterA en ps em) = en := rfl
    cases f <;> simp [nodeCallBack, h1, h2]
  have hex : nodeCallBack ⟨[en], false⟩ (.exitA ex en xm) = .ok (false, ⟨[], true⟩) := by
    have h1 : isEnterAutocastNode (Node.exitA ex en xm) = false := rfl
    have h2 : isExitAutocastNode (Node.exitA ex en xm) = true := rfl
    have h3 : Node.exitRef (Node.exitA ex en xm) = some en := rfl
    simp [nodeCallBack, h1, h2, h3]
  rw [runCons _ _ _ true ⟨[en], false⟩ hen]
  rw [run_append body [Node.exitA ex en xm] ⟨[en], false⟩ _ _ (run_computes body [en] h)]
  rw [runCons _ _ _ false ⟨[], true⟩ hex]
  simp [nodeCallBackRun, Except.bind, List.replicate_succ']

/-- The callback run over a full segment list produces the expected decisions. -/
lemma run_segs (segs : List SegDesc) :
    ∀ f : Bool, segsContentOK segs →
    nodeCallBackRun ⟨[], f⟩ (segsNodes segs) =
      .ok (flagsOf f segs, ⟨[], segsExitFlag f segs⟩) := by
  induction segs with
  | nil => intro f _; rfl
  | cons s rest ih =>
    intro f hc
    cases s with
    | plain ns =>
      obtain ⟨hne, hcomp, hrest⟩ := hc
      have h1 := run_plain ns f hne hcomp
      rw [show segsNodes (.plain ns :: rest) = ns ++ segsNodes rest from by
        simp [segsNodes, SegDesc.nodes]]
      rw [run_append ns (segsNodes rest) ⟨[], f⟩ _ _ h1, ih false hrest]
      simp [flagsOf, segsExitFlag, segExitFlag, Except.bind]
    | region en ps em body ex xm =>
      obtain ⟨hcomp, hrest⟩ := hc
      have h1 := run_region en ps em xm body ex f hcomp
      rw [show segsNodes (.region en ps em body ex xm :: rest) =
        (Node.enterA en ps em :: (body ++ [Node.exitA ex en xm])) ++ segsNodes rest from by
        simp [segsNodes, SegDesc.nodes]]
      rw [run_append _ (segsNodes rest) ⟨[], f⟩ _ _ h1, ih true hrest]
      simp [flagsOf, segsExitFlag, segExitFlag, Except.bind]

/-- Grouping step: a true flag closes the current segment. -/
lemma groupGo_true (cur : List Node) (n : Node) (ns : List Node) (bs : List Bool) :
    groupGo cur (n :: ns) (true :: bs) = cur :: groupGo [n] ns bs := by
  simp [groupGo]

/-- Grouping step: a false flag extends the current segment. -/
lemma groupGo_false (cur : List Node) (n : Node) (ns : List Node) (bs : List Bool) :
    groupGo cur (n :: ns) (false :: bs) = groupGo (cur ++ [n]) ns bs := by
  simp [groupGo]

/-- Grouping consumes a run of false flags into the current segment. -/
lemma groupGo_falses (xs : List Node) :
    ∀ (cur more : List Node) (bs : List Bool),
    groupGo cur (xs ++ more) (List.replicate xs.length false ++ bs) =
      groupGo (cur ++ xs) more bs := by
  induction xs with
  | nil => intro cur more bs; simp
  | cons x xs ih =>
    intro cur more bs
    rw [show (x :: xs) ++ more = x :: (xs ++ more) from rfl]
    rw [show List.replicate (x :: xs).length false ++ bs =
      false :: (List.replicate xs.length false ++ bs) from by simp [List.replicate_succ]]
    rw [groupGo_false, ih (cur ++ [x]) more bs]
    simp

/-- Grouping a segment list whose non-first segments all start with a true flag
recovers exactly the segments. -/
lemma groupGo_segs (segs : List SegDesc) :
    ∀ (f : Bool) (cur : List Node), segsContentOK segs → plainsFollowRegions f segs →
    groupGo cur (segsNodes segs) (flagsOf f segs) = cur :: segs.map SegDesc.nodes := by
  induction segs with
  | nil => intro f cur _ _; rfl
  | cons s rest ih =>
    intro f cur hc hp
    cases s with
    | plain ns =>
      obtain ⟨hne, hcomp, hrest⟩ := hc
      obtain ⟨hf, hprest⟩ := hp
      subst hf
      match ns, hne with
      | n :: tl, _ =>
        rw [show segsNodes (.plain (n :: tl) :: rest) = n :: (tl ++ segsNodes rest) from by
          simp [segsNodes, SegDesc.nodes]]
        rw [show flagsOf true (.plain (n :: tl) :: rest) =
          true :: (List.replicate tl.length false ++ flagsOf false rest) from by
          simp [flagsOf]]
        rw [groupGo_true]
        rw [groupGo_falses tl [n] (segsNodes rest) (flagsOf false rest)]
        rw [show [n] ++ tl = n :: tl from rfl]
        rw [ih false (n :: tl) hrest hprest]
        simp [SegDesc.nodes]
    | region en ps em body ex xm =>
      obtain ⟨hcomp, hrest⟩ := hc
      have hprest : plainsFollowRegions true rest := hp
      rw [show segsNodes (.region en ps em body ex xm :: rest) =
        Node.enterA en ps em :: ((body ++ [Node.exitA ex en xm]) ++ segsNodes rest) from by
        simp [segsNodes, SegDesc.nodes]]
      rw [show flagsOf f (.region en ps em body ex xm :: rest) =
        true :: (List.replicate (body ++ [Node.exitA ex en xm]).length false ++
          flagsOf true rest) from by simp [flagsOf, List.replicate_succ']]
      rw [groupGo_true]
      rw [groupGo_falses (body ++ [Node.exitA ex en xm]) [Node.enterA en ps em]
        (segsNodes rest) (flagsOf true rest)]
      rw [ih true _ hrest hprest]
      simp [SegDesc.nodes]

/-- Grouping the full node list under the expected flags recovers the segments. -/
lemma groupByFlags_segs (segs : List SegDesc) (h : segsOK segs) :
    groupByFlags (segsNodes segs) (flagsOf false segs) = segs.map SegDesc.nodes := by
  obtain ⟨hc, hchain⟩ := h
  match segs, hchain with
  | .plain ns :: rest, hchain =>
    obtain ⟨hne, hcomp, hrest⟩ := hc
    match ns, hne with
    | n :: tl, _ =>
      rw [show segsNodes (.plain (n :: tl) :: rest) = n :: (tl ++ segsNodes rest) from by
        simp [segsNodes, SegDesc.nodes]]
      rw [show flagsOf false (.plain (n :: tl) :: rest) =
        false :: (List.replicate tl.length false ++ flagsOf false rest) from by
        simp [flagsOf]]
      rw [show groupByFlags (n :: (tl ++ segsNodes rest))
        (false :: (List.replicate tl.length false ++ flagsOf false rest)) =
        groupGo [n] (tl ++ segsNodes rest)
          (List.replicate tl.length false ++ flagsOf false rest) from rfl]
      rw [groupGo_falses tl [n] (segsNodes rest) (flagsOf false rest)]
      rw [show [n] ++ tl = n :: tl from rfl]
      rw [groupGo_segs rest false (n :: tl) hrest hchain]
      simp [SegDesc.nodes]
  | .region en ps em body ex xm :: rest, hchain =>
    obtain ⟨hcomp, hrest⟩ := hc
    rw [show segsNodes (.region en ps em body ex xm :: rest) =
      Node.enterA en ps em :: ((body ++ [Node.exitA ex en xm]) ++ segsNodes rest) from by
      simp [segsNodes, SegDesc.nodes]]
    rw [show flagsOf false (.region en ps em body ex xm :: rest) =
      true :: (List.replicate (body ++ [Node.exitA ex en xm]).length false ++
        flagsOf true rest) from by simp [flagsOf, List.replicate_succ']]
    rw [show groupByFlags
      (Node.enterA en ps em :: ((body ++ [Node.exitA ex en xm]) ++ segsNodes rest))
      (true :: (List.replicate (body ++ [Node.exitA ex en xm]).length false ++
        flagsOf true rest)) =
      groupGo [Node.enterA en ps em] ((body ++ [Node.exitA ex en xm]) ++ segsNodes rest)
        (List.replicate (body ++ [Node.exitA ex en xm]).length false ++
          flagsOf true rest) from rfl]
    rw [groupGo_falses (body ++ [Node.exitA ex en xm]) [Node.enterA en ps em]
      (segsNodes rest) (flagsOf true rest)]
    rw [groupGo_segs rest true _ hrest hchain]
    simp [SegDesc.nodes]

/-- `lookupOr` on the empty renaming is the identity. -/
lemma lookupOr_nil (x : String) : lookupOr [] x = x := rfl

/-- `lookupOr` on a self-zip is the identity. -/
lemma lookupOr_zip_self (l : List String) (x : String) : lookupOr (l.zip l) x = x := by
  induction l with
  | nil => rfl
  | cons a rest ih =>
    by_cases hx : x = a
    · subst hx; simp [lookupOr, List.lookup]
    · have hbeq : (x == a) = false := by simpa using hx
      simp only [List.zip_cons_cons, lookupOr, List.lookup, hbeq]
      simpa only [lookupOr] using ih

/-- `lookupOr` of a name none of the renaming's sources match. -/
lemma lookupOr_not_mem (pm : List (String × String)) (x : String)
    (h : ∀ pr ∈ pm, pr.1 ≠ x) : lookupOr pm x = x := by
  induction pm with
  | nil => rfl
  | cons p rest ih =>
    obtain ⟨a, b⟩ := p
    have hax : x ≠ a := fun he => h (a, b) (by simp) he.symm
    have hbeq : (x == a) = false := by simpa using hax
    simp only [lookupOr, List.lookup, hbeq]
    simpa [lookupOr] using ih (fun pr hpr => h pr (by simp [hpr]))

/-- `lookupOr` either leaves the name alone or returns one of the targets. -/
lemma lookupOr_mem_or (pm : List (String × String)) (x : String) :
    lookupOr pm x = x ∨ ∃ pr ∈ pm, lookupOr pm x = pr.2 := by
  induction pm with
  | nil => exact Or.inl rfl
  | cons p rest ih =>
    obtain ⟨a, b⟩ := p
    by_cases hx : x = a
    · subst hx
      right
      exact ⟨(x, b), by simp, by simp [lookupOr, List.lookup]⟩
    · have hbeq : (x == a) = false := by simpa using hx
      have hskip : lookupOr ((a, b) :: rest) x = lookupOr rest x := by
        simp [lookupOr, List.lookup, hbeq]
      rw [hskip]
      rcases ih with h | ⟨pr, hpr, he⟩
      · exact Or.inl h
      · exact Or.inr ⟨pr, by simp [hpr], he⟩

/-- Unwinding a single proxy entry: substituting the proxy back to its original
name undoes the entry of the renaming, on any name that is not the proxy. -/
lemma subst_lookupOr_cons (orig proxy x : String) (pm : List (String × String))
    (hx : x ≠ proxy) (hkeys : ∀ pr ∈ pm, pr.1 ≠ orig) (hvals : ∀ pr ∈ pm, pr.2 ≠ proxy) :
    substName proxy orig (lookupOr ((orig, proxy) :: pm) x) = lookupOr pm x := by
  by_cases hxo : x = orig
  · subst hxo
    have h1 : lookupOr ((x, proxy) :: pm) x = proxy := by
      simp [lookupOr, List.lookup]
    rw [h1, lookupOr_not_mem pm x hkeys]
    simp [substName]
  · have hbeq : (x == orig) = false := by simpa using hxo
    have hskip : lookupOr ((orig, proxy) :: pm) x = lookupOr pm x := by
      simp [lookupOr, List.lookup, hbeq]
    rw [hskip]
    have hne : lookupOr pm x ≠ proxy := by
      rcases lookupOr_mem_or pm x with h | ⟨pr, hpr, he⟩
      · rw [h]; exact hx
      · rw [he]; exact hvals pr hpr
    simp [substName, hne]

/-- Membership in the deduplicated list is membership in the original. -/
lemma mem_dedupFirst (l : List String) (x : String) : x ∈ dedupFirst l ↔ x ∈ l := by
  induction l using dedupFirst.induct with
  | case1 => simp [dedupFirst]
  | case2 a rest ih =>
    rw [dedupFirst]
    constructor
    · intro h
      rcases List.mem_cons.mp h with rfl | h2
      · simp
      · have := ih.mp h2
        simp only [List.mem_filter] at this
        simp [this.1]
    · intro h
      rcases List.mem_cons.mp h with rfl | h2
      · simp
      · by_cases hxa : x = a
        · simp [hxa]
        · right
          exact ih.mpr (List.mem_filter.mpr ⟨h2, by simpa using hxa⟩)

/-- Deduplication yields distinct names. -/
lemma nodup_dedupFirst (l : List String) : (dedupFirst l).Nodup := by
  induction l using dedupFirst.induct with
  | case1 => simp [dedupFirst]
  | case2 a rest ih =>
    rw [dedupFirst]
    refine List.nodup_cons.mpr ⟨?_, ih⟩
    intro hmem
    have := (mem_dedupFirst _ a).mp hmem
    simp at this

/-- A free reference is never in the already-defined set. -/
lemma freeRefsGo_not_mem (ns : List Node) :
    ∀ (D : List String) (r : String), r ∈ freeRefsGo ns D → r ∉ D := by
  induction ns with
  | nil => intro D r h; simp [freeRefsGo] at h
  | cons n rest ih =>
    intro D r h
    rcases List.mem_append.mp h with h1 | h2
    · have := List.mem_filter.mp h1
      simpa using this.2
    · intro hD
      exact ih (n.name :: D) r h2 (by simp [hD])

/-- A free reference is a reference of some node of the list. -/
lemma freeRefsGo_sub (ns : List Node) :
    ∀ (D : List String) (r : String), r ∈ freeRefsGo ns D → ∃ n ∈ ns, r ∈ n.argRefs := by
  induction ns with
  | nil => intro D r h; simp [freeRefsGo] at h
  | cons n rest ih =>
    intro D r h
    rcases List.mem_append.mp h with h1 | h2
    · exact ⟨n, by simp, (List.mem_filter.mp h1).1⟩
    · obtain ⟨n', hn', hr⟩ := ih (n.name :: D) r h2
      exact ⟨n', by simp [hn'], hr⟩

/-- A reference free for one defined set is free for any set avoiding it. -/
lemma freeRefsGo_transfer (ns : List Node) :
    ∀ (D D' : List String) (r : String), r ∈ freeRefsGo ns D → r ∉ D' →
    r ∈ freeRefsGo ns D' := by
  induction ns with
  | nil => intro D D' r h _; simpa [freeRefsGo] using h
  | cons n rest ih =>
    intro D D' r h hD'
    rcases List.mem_append.mp h with h1 | h2
    · have hf := List.mem_filter.mp h1
      exact List.mem_append.mpr (Or.inl (List.mem_filter.mpr ⟨hf.1, by simpa using hD'⟩))
    · have hne : r ∉ (n.name :: D) := freeRefsGo_not_mem rest _ r h2
      have hne' : r ∉ (n.name :: D') := by
        intro hmem
        rcases List.mem_cons.mp hmem with he | hmem2
        · exact hne (by simp [he])
        · exact hD' hmem2
      exact List.mem_append.mpr (Or.inr (ih _ _ r h2 hne'))

/-- Free-reference accumulation across an append. -/
lemma freeRefsGo_append (xs : List Node) :
    ∀ (ys : List Node) (D : List String),
    freeRefsGo (xs ++ ys) D = freeRefsGo xs D ++ freeRefsGo ys (xs.reverse.map Node.name ++ D) := by
  induction xs with
  | nil => intro ys D; simp [freeRefsGo]
  | cons x rest ih =>
    intro ys D
    simp only [List.cons_append, freeRefsGo, List.append_assoc, List.append_eq]
    rw [ih ys (x.name :: D)]
    simp

/-- Binding a self-mapped value list reads back the mapped value. -/
lemma bindVals_zip_map (nms : List String) (f : String → Val) :
    ∀ (x : String), nms.Nodup → x ∈ nms → bindVals nms (nms.map f) x = f x := by
  induction nms with
  | nil => intro x _ h; simp at h
  | cons a rest ih =>
    intro x hnd hmem
    by_cases hx : x = a
    · subst hx; simp [bindVals, List.lookup]
    · have hbeq : (x == a) = false := by simpa using hx
      simp only [List.map_cons, bindVals, List.zip_cons_cons, List.lookup, hbeq]
      have := ih x (List.nodup_cons.mp hnd).2 (by
        rcases List.mem_cons.mp hmem with he | h2
        · exact absurd he hx
        · exact h2)
      simpa [bindVals] using this

/-- A name outside the placeholder list reads the default value. -/
lemma bindVals_not_mem (nms : List String) :
    ∀ (vs : List Val) (x : String), x ∉ nms → bindVals nms vs x = .base 0 := by
  induction nms with
  | nil => intro vs x _; simp [bindVals]
  | cons a rest ih =>
    intro vs x h
    cases vs with
    | nil => simp [bindVals]
    | cons v vrest =>
      have hbeq : (x == a) = false := by
        simpa using fun he => h (by simp [he])
      simp only [bindVals, List.zip_cons_cons, List.lookup, hbeq]
      simpa [bindVals] using ih vrest x (fun h2 => h (by simp [h2]))

/-- Mapping output references by the identity is the identity. -/
lemma outMapRefs_id (o : Option OutArgs) : outMapRefs id o = o := by
  match o with
  | none => rfl
  | some (.node n) => rfl
  | some (.tup as) =>
    simp only [outMapRefs, OutArgs.mapRefs, Option.some.injEq, OutArgs.tup.injEq]
    rw [show Arg.mapRef id = id from funext argMapRef_id, List.map_id]
  | some .noneV => rfl
  | some (.other k) => rfl

/-- Composition of output-reference substitutions. -/
lemma outMapRefs_comp (f g : String → String) (o : Option OutArgs) :
    outMapRefs g (outMapRefs f o) = outMapRefs (g ∘ f) o := by
  match o with
  | none => rfl
  | some (.node n) => rfl
  | some (.tup as) =>
    simp [outMapRefs, OutArgs.mapRefs, List.map_map, argMapRef_comp, Function.comp_def]
  | some .noneV => rfl
  | some (.other k) => rfl

/-- Output-reference substitutions agreeing on the output's references coincide. -/
lemma outMapRefs_congr (f g : String → String) (o : Option OutArgs)
    (h : ∀ r ∈ outRefs o, f r = g r) : outMapRefs f o = outMapRefs g o := by
  match o with
  | none => rfl
  | some (.node n) =>
    simp [outMapRefs, OutArgs.mapRefs, h n (by simp [outRefs])]
  | some (.tup as) =>
    simp only [outMapRefs, OutArgs.mapRefs, Option.some.injEq, OutArgs.tup.injEq]
    apply List.map_congr_left
    intro a ha
    cases a with
    | noneA => rfl
    | ref r =>
      have hr : r ∈ outRefs (some (.tup as)) := by
        simp only [outRefs, List.mem_filterMap]
        exact ⟨.ref r, ha, rfl⟩
      simp [Arg.mapRef, h r hr]
  | some .noneV => rfl
  | some (.other k) => rfl

/-- Unfolding a sequential substitution by one step. -/
lemma substSeq_cons (p : String × String) (S : List (String × String)) (n : Node) :
    substSeq (p :: S) n = substSeq S (n.mapRefs (substName p.1 p.2)) := rfl

/-- The empty sequential substitution. -/
lemma substSeq_nil (n : Node) : substSeq [] n = n := rfl

/-- Unfolding a sequential output substitution by one step. -/
lemma substSeqOut_cons (p : String × String) (S : List (String × String))
    (o : Option OutArgs) :
    substSeqOut (p :: S) o = substSeqOut S (outMapRefs (substName p.1 p.2) o) := rfl

/-- The empty sequential output substitution. -/
lemma substSeqOut_nil (o : Option OutArgs) : substSeqOut [] o = o := rfl

/-- A name generated by the split for a segment index at least `i` (the call to
the submodule or one of its unpacking extractions). -/
def genName (i : Nat) (r : String) : Prop :=
  (∃ u, i ≤ u ∧ r = submodName u) ∨ (∃ u j, i ≤ u ∧ r = giName u j)

/-- Generated names for later segments are generated names for earlier bounds. -/
lemma genName_mono (i : Nat) (r : String) (h : genName (i + 1) r) : genName i r := by
  rcases h with ⟨u, hu, he⟩ | ⟨u, j, hu, he⟩
  · exact Or.inl ⟨u, by omega, he⟩
  · exact Or.inr ⟨u, j, by omega, he⟩

/-- A generated name of bound `i` differs from the submodule-call name of any
earlier segment. -/
lemma genName_ne_submod (i t : Nat) (r : String) (h : genName i r) (ht : t < i) :
    r ≠ submodName t := by
  rcases h with ⟨u, hu, rfl⟩ | ⟨u, j, hu, rfl⟩
  · intro he
    have := submodName_inj u t he
    omega
  · exact giName_ne_submodName u j t

/-- A generated name of bound `i` differs from every wrap name. -/
lemma genName_ne_wrap (i t : Nat) (r : String) (h : genName i r) : r ≠ wrapGenName t := by
  rcases h with ⟨u, hu, rfl⟩ | ⟨u, j, hu, rfl⟩
  · exact fun he => wrapGenName_ne_submodName t u he.symm
  · exact fun he => wrapGenName_ne_giName t u j he.symm

/-- A generated name of bound `i` differs from every `get_attr` name. -/
lemma genName_ne_ga (i t : Nat) (r : String) (h : genName i r) : r ≠ gaName t := by
  rcases h with ⟨u, hu, rfl⟩ | ⟨u, j, hu, rfl⟩
  · exact fun he => gaName_ne_submodName t u he.symm
  · exact fun he => gaName_ne_giName t u j he.symm

/-- A generated name of bound `i` differs from the extraction names of any
earlier segment. -/
lemma genName_ne_gi (i t j' : Nat) (r : String) (h : genName i r) (ht : t < i) :
    r ≠ giName t j' := by
  rcases h with ⟨u, hu, rfl⟩ | ⟨u, j, hu, rfl⟩
  · exact giName_ne_submodName t j' u ∘ Eq.symm
  · intro he
    have := (giName_inj u j t j' he).1
    omega

/-- A default-read within bounds is a member of the list. -/
lemma getD_mem_of_lt {α : Type} (l : List α) (j : Nat) (d : α) (h : j < l.length) :
    l.getD j d ∈ l := by
  rw [List.getD_eq_getElem?_getD, List.getElem?_eq_getElem h]
  simpa using List.getElem_mem h

/-- The escaping values of a segment are names the segment defines. -/
lemma escapes_sub (seg rest : List Node) (out : Option OutArgs) (nm : String)
    (h : nm ∈ escapes seg rest out) : nm ∈ seg.map Node.name :=
  (List.mem_filter.mp h).1

/-- The escaping values of a segment are used by the rest of the graph. -/
lemma escapes_used (seg rest : List Node) (out : Option OutArgs) (nm : String)
    (h : nm ∈ escapes seg rest out) : nm ∈ usedNames rest out := by
  have := (List.mem_filter.mp h).2
  simpa using this

/-- A defined name that the rest of the graph uses escapes. -/
lemma mem_escapes (seg rest : List Node) (out : Option OutArgs) (nm : String)
    (h1 : nm ∈ seg.map Node.name) (h2 : nm ∈ usedNames rest out) :
    nm ∈ escapes seg rest out :=
  List.mem_filter.mpr ⟨h1, by simpa using h2⟩

/-- Escaping values of a segment with distinct names are distinct. -/
lemma escapes_nodup (seg rest : List Node) (out : Option OutArgs)
    (h : (seg.map Node.name).Nodup) : (escapes seg rest out).Nodup :=
  h.filter _

/-- Unfolding the parent wiring for a segment without escaping values. -/
lemma buildParentNodes_cons_none (seg : List Node) (rest : List (List Node))
    (out : Option OutArgs) (i : Nat) (pm : List (String × String))
    (h : escapes seg rest.flatten out = []) :
    buildParentNodes (seg :: rest) out i pm =
      (Node.callMod (submodName i) i ((freeRefs seg).map (lookupOr pm)) {} ::
        (buildParentNodes rest out (i + 1) pm).1,
       (buildParentNodes rest out (i + 1) pm).2) := by
  rcases hrec : buildParentNodes rest out (i + 1) pm with ⟨ns, pm'⟩
  simp [buildParentNodes, h, hrec]

/-- Unfolding the parent wiring for a segment with a single escaping value. -/
lemma buildParentNodes_cons_single (seg : List Node) (rest : List (List Node))
    (out : Option OutArgs) (i : Nat) (pm : List (String × String)) (n : String)
    (h : escapes seg rest.flatten out = [n]) :
    buildParentNodes (seg :: rest) out i pm =
      (Node.callMod (submodName i) i ((freeRefs seg).map (lookupOr pm)) {} ::
        (buildParentNodes rest out (i + 1) (pm ++ [(n, submodName i)])).1,
       (buildParentNodes rest out (i + 1) (pm ++ [(n, submodName i)])).2) := by
  rcases hrec : buildParentNodes rest out (i + 1) (pm ++ [(n, submodName i)]) with ⟨ns, pm'⟩
  simp [buildParentNodes, h, hrec]

/-- Unfolding the parent wiring for a segment with several escaping values. -/
lemma buildParentNodes_cons_multi (seg : List Node) (rest : List (List Node))
    (out : Option OutArgs) (i : Nat) (pm : List (String × String))
    (a b : String) (es' : List String)
    (h : escapes seg rest.flatten out = a :: b :: es') :
    buildParentNodes (seg :: rest) out i pm =
      (Node.callMod (submodName i) i ((freeRefs seg).map (lookupOr pm)) {} ::
        (giNodes i (a :: b :: es') ++
          (buildParentNodes rest out (i + 1) (pm ++ giEntries i (a :: b :: es'))).1),
       (buildParentNodes rest out (i + 1) (pm ++ giEntries i (a :: b :: es'))).2) := by
  rcases hrec : buildParentNodes rest out (i + 1) (pm ++ giEntries i (a :: b :: es'))
    with ⟨ns, pm'⟩
  simp [buildParentNodes, h, hrec]

/-- Every node the pending split parent contains is a submodule call or an
extraction for a segment index at least `i`. -/
lemma pending_names (L : List (List Node)) :
    ∀ (out : Option OutArgs) (i : Nat) (pm : List (String × String)) (n : Node),
    n ∈ (buildParentNodes L out i pm).1 →
    (∃ u, i ≤ u ∧ n = .callMod (submodName u) u (n.argRefs) {}) ∨
    (∃ u j, i ≤ u ∧ n = .getitem (giName u j) (submodName u) j {}) := by
  induction L with
  | nil => intro out i pm n h; simp [buildParentNodes] at h
  | cons seg rest ih =>
    intro out i pm n h
    rcases hes : escapes seg rest.flatten out with _ | ⟨a, es1⟩
    · rw [buildParentNodes_cons_none seg rest out i pm hes] at h
      rcases List.mem_cons.mp h with rfl | h2
      · exact Or.inl ⟨i, le_refl i, by simp [Node.argRefs]⟩
      · rcases ih out (i + 1) pm n h2 with ⟨u, hu, he⟩ | ⟨u, j, hu, he⟩
        · exact Or.inl ⟨u, by omega, he⟩
        · exact Or.inr ⟨u, j, by omega, he⟩
    · rcases hes1 : es1 with _ | ⟨b, es'⟩
      · rw [hes1] at hes
        rw [buildParentNodes_cons_single seg rest out i pm a hes] at h
        rcases List.mem_cons.mp h with rfl | h2
        · exact Or.inl ⟨i, le_refl i, by simp [Node.argRefs]⟩
        · rcases ih out (i + 1) _ n h2 with ⟨u, hu, he⟩ | ⟨u, j, hu, he⟩
          · exact Or.inl ⟨u, by omega, he⟩
          · exact Or.inr ⟨u, j, by omega, he⟩
      · rw [hes1] at hes
        rw [buildParentNodes_cons_multi seg rest out i pm a b es' hes] at h
        rcases List.mem_cons.mp h with rfl | h2
        · exact Or.inl ⟨i, le_refl i, by simp [Node.argRefs]⟩
        · rcases List.mem_append.mp h2 with h3 | h4
          · simp only [giNodes] at h3
            obtain ⟨j, hj, rfl⟩ := List.mem_map.mp h3
            exact Or.inr ⟨i, j, le_refl i, rfl⟩
          · rcases ih out (i + 1) _ n h4 with ⟨u, hu, he⟩ | ⟨u, j, hu, he⟩
            · exact Or.inl ⟨u, by omega, he⟩
            · exact Or.inr ⟨u, j, by omega, he⟩

/-- Every reference in the pending split parent is an original traced name, a
target of the initial renaming, or a generated proxy for a segment ≥ `i`. -/
lemma pending_refs (L : List (List Node)) :
    ∀ (out : Option OutArgs) (i : Nat) (pm : List (String × String)) (n : Node)
      (r : String),
    (∀ seg ∈ L, ∀ x ∈ freeRefs seg, percentFree x) →
    n ∈ (buildParentNodes L out i pm).1 → r ∈ n.argRefs →
    percentFree r ∨ (∃ pr ∈ pm, r = pr.2) ∨ genName i r := by
  induction L with
  | nil => intro out i pm n r _ h _; simp [buildParentNodes] at h
  | cons seg rest ih =>
    intro out i pm n r hfree h hr
    have hcall : ∀ x ∈ (freeRefs seg).map (lookupOr pm),
        percentFree x ∨ (∃ pr ∈ pm, x = pr.2) := by
      intro x hx
      obtain ⟨y, hy, rfl⟩ := List.mem_map.mp hx
      rcases lookupOr_mem_or pm y with he | ⟨pr, hpr, he⟩
      · rw [he]; exact Or.inl (hfree seg (by simp) y hy)
      · rw [he]; exact Or.inr ⟨pr, hpr, rfl⟩
    have hfree' : ∀ s ∈ rest, ∀ x ∈ freeRefs s, percentFree x :=
      fun s hs => hfree s (by simp [hs])
    have hlift : ∀ (pm2 : List (String × String)),
        (∀ pr ∈ pm2, pr ∈ pm ∨ genName i pr.2) →
        n ∈ (buildParentNodes rest out (i + 1) pm2).1 →
        percentFree r ∨ (∃ pr ∈ pm, r = pr.2) ∨ genName i r := by
      intro pm2 hpm2 hmem
      rcases ih out (i + 1) pm2 n r hfree' hmem hr with h1 | ⟨pr, hpr, he⟩ | h3
      · exact Or.inl h1
      · rcases hpm2 pr hpr with hin | hgen
        · exact Or.inr (Or.inl ⟨pr, hin, he⟩)
        · exact Or.inr (Or.inr (he ▸ hgen))
      · exact Or.inr (Or.inr (genName_mono i r h3))
    rcases hes : escapes seg rest.flatten out with _ | ⟨a, es1⟩
    · rw [buildParentNodes_cons_none seg rest out i pm hes] at h
      rcases List.mem_cons.mp h with rfl | h2
      · rcases hcall r (by simpa [Node.argRefs] using hr) with h1 | h2
        · exact Or.inl h1
        · exact Or.inr (Or.inl h2)
      · exact hlift pm (fun pr hpr => Or.inl hpr) h2
    · rcases hes1 : es1 with _ | ⟨b, es'⟩
      · rw [hes1] at hes
        rw [buildParentNodes_cons_single seg rest out i pm a hes] at h
        rcases List.mem_cons.mp h with rfl | h2
        · rcases hcall r (by simpa [Node.argRefs] using hr) with h1 | h2
          · exact Or.inl h1
          · exact Or.inr (Or.inl h2)
        · refine hlift _ ?_ h2
          intro pr hpr
          rcases List.mem_append.mp hpr with hin | hnew
          · exact Or.inl hin
          · have : pr = (a, submodName i) := by simpa using hnew
            subst this
            exact Or.inr (Or.inl ⟨i, le_refl i, rfl⟩)
      · rw [hes1] at hes
        rw [buildParentNodes_cons_multi seg rest out i pm a b es' hes] at h
        rcases List.mem_cons.mp h with rfl | h2
        · rcases hcall r (by simpa [Node.argRefs] using hr) with h1 | h2
          · exact Or.inl h1
          · exact Or.inr (Or.inl h2)
        · rcases List.mem_append.mp h2 with h3 | h4
          · simp only [giNodes] at h3
            obtain ⟨j, hj, rfl⟩ := List.mem_map.mp h3
            have : r = submodName i := by simpa [Node.argRefs] using hr
            exact Or.inr (Or.inr (Or.inl ⟨i, le_refl i, this⟩))
          · refine hlift _ ?_ h4
            intro pr hpr
            rcases List.mem_append.mp hpr with hin | hnew
            · exact Or.inl hin
            · simp only [giEntries] at hnew
              obtain ⟨j, hj, rfl⟩ := List.mem_map.mp hnew
              exact Or.inr (Or.inr ⟨i, j, le_refl i, rfl⟩)

/-- Every key of the renaming accumulated by the pending split parent is either
an initial key or a name defined by one of the pending segments. -/
lemma pending_pm_keys (L : List (List Node)) :
    ∀ (out : Option OutArgs) (i : Nat) (pm : List (String × String)) (pr : String × String),
    pr ∈ (buildParentNodes L out i pm).2 →
    pr ∈ pm ∨ ((∃ seg ∈ L, pr.1 ∈ seg.map Node.name) ∧ genName i pr.2) := by
  induction L with
  | nil => intro out i pm pr h; exact Or.inl (by simpa [buildParentNodes] using h)
  | cons seg rest ih =>
    intro out i pm pr h
    have hlift : ∀ (pm2 : List (String × String)),
        (∀ q ∈ pm2, q ∈ pm ∨ (q.1 ∈ seg.map Node.name ∧ genName i q.2)) →
        pr ∈ (buildParentNodes rest out (i + 1) pm2).2 →
        pr ∈ pm ∨ ((∃ s ∈ seg :: rest, pr.1 ∈ s.map Node.name) ∧ genName i pr.2) := by
      intro pm2 hpm2 hmem
      rcases ih out (i + 1) pm2 pr hmem with hin | ⟨⟨s, hs, hn⟩, hg⟩
      · rcases hpm2 pr hin with h1 | ⟨h2, h3⟩
        · exact Or.inl h1
        · exact Or.inr ⟨⟨seg, by simp, h2⟩, h3⟩
      · exact Or.inr ⟨⟨s, by simp [hs], hn⟩, genName_mono i pr.2 hg⟩
    rcases hes : escapes seg rest.flatten out with _ | ⟨a, es1⟩
    · rw [buildParentNodes_cons_none seg rest out i pm hes] at h
      exact hlift pm (fun q hq => Or.inl hq) h
    · rcases hes1 : es1 with _ | ⟨b, es'⟩
      · rw [hes1] at hes
        rw [buildParentNodes_cons_single seg rest out i pm a hes] at h
        refine hlift _ ?_ h
        intro q hq
        rcases List.mem_append.mp hq with hin | hnew
        · exact Or.inl hin
        · have : q = (a, submodName i) := by simpa using hnew
          subst this
          refine Or.inr ⟨?_, Or.inl ⟨i, le_refl i, rfl⟩⟩
          exact escapes_sub seg rest.flatten out a (by simp [hes])
      · rw [hes1] at hes
        rw [buildParentNodes_cons_multi seg rest out i pm a b es' hes] at h
        refine hlift _ ?_ h
        intro q hq
        rcases List.mem_append.mp hq with hin | hnew
        · exact Or.inl hin
        · simp only [giEntries] at hnew
          obtain ⟨j, hj, rfl⟩ := List.mem_map.mp hnew
          refine Or.inr ⟨?_, Or.inr ⟨i, j, le_refl i, rfl⟩⟩
          refine escapes_sub seg rest.flatten out _ ?_
          rw [hes]
          exact getD_mem_of_lt _ j "" (by simpa using List.mem_range.mp hj)

/-- The number of child graphs equals the number of segments. -/
lemma buildChildren_length (L : List (List Node)) (out : Option OutArgs) :
    (buildChildren L out).length = L.length := by
  induction L with
  | nil => rfl
  | cons seg rest ih => simp [buildChildren, ih]

/-- The call-module names of the pending split parent are the generated
submodule-call names, in segment order. -/
lemma callModNames_buildParent (L : List (List Node)) :
    ∀ (out : Option OutArgs) (i : Nat) (pm : List (String × String)),
    callModNames (buildParentNodes L out i pm).1 =
      (List.range' i L.length).map submodName := by
  induction L with
  | nil => intro out i pm; rfl
  | cons seg rest ih =>
    intro out i pm
    have hgis : ∀ (es : List String), callModNames (giNodes i es) = [] := by
      intro es
      simp only [giNodes, callModNames, List.filterMap_map]
      rw [List.filterMap_eq_nil_iff.mpr]
      intro j _
      rfl
    rcases hes : escapes seg rest.flatten out with _ | ⟨a, es1⟩
    · rw [buildParentNodes_cons_none seg rest out i pm hes]
      simp only [callModNames, List.filterMap_cons]
      rw [show (List.filterMap (fun n => match n with
        | .callMod nm _ _ _ => some nm | _ => none)
        (buildParentNodes rest out (i+1) pm).1) =
        callModNames (buildParentNodes rest out (i+1) pm).1 from rfl]
      rw [ih out (i + 1) pm]
      simp [List.range'_succ]
    · rcases hes1 : es1 with _ | ⟨b, es'⟩
      · rw [hes1] at hes
        rw [buildParentNodes_cons_single seg rest out i pm a hes]
        simp only [callModNames, List.filterMap_cons]
        rw [show (List.filterMap (fun n => match n with
          | .callMod nm _ _ _ => some nm | _ => none)
          (buildParentNodes rest out (i+1) (pm ++ [(a, submodName i)])).1) =
          callModNames (buildParentNodes rest out (i+1) (pm ++ [(a, submodName i)])).1 from rfl]
        rw [ih out (i + 1) _]
        simp [List.range'_succ]
      · rw [hes1] at hes
        rw [buildParentNodes_cons_multi seg rest out i pm a b es' hes]
        simp only [callModNames, List.filterMap_cons, List.filterMap_append]
        rw [show ∀ ns, List.filterMap (fun n => match n with
          | .callMod nm _ _ _ => some nm | _ => none) ns = callModNames ns from fun _ => rfl]
        rw [show ∀ ns, List.filterMap (fun n => match n with
          | .callMod nm _ _ _ => some nm | _ => none) ns = callModNames ns from fun _ => rfl]
        rw [hgis, ih out (i + 1) _]
        simp [List.range'_succ]

/-- The renaming accumulated by the parent wiring extends the initial renaming. -/
lemma buildParentNodes_pm_ext (L : List (List Node)) :
    ∀ (out : Option OutArgs) (i : Nat) (pm : List (String × String)),
    (buildParentNodes L out i pm).2 = pm ++ (buildParentNodes L out i []).2 := by
  induction L with
  | nil => intro out i pm; simp [buildParentNodes]
  | cons seg rest ih =>
    intro out i pm
    rcases hes : escapes seg rest.flatten out with _ | ⟨a, es1⟩
    · rw [buildParentNodes_cons_none seg rest out i pm hes,
          buildParentNodes_cons_none seg rest out i [] hes]
      simp only []
      rw [ih out (i + 1) pm]
    · rcases hes1 : es1 with _ | ⟨b, es'⟩
      · rw [hes1] at hes
        rw [buildParentNodes_cons_single seg rest out i pm a hes,
            buildParentNodes_cons_single seg rest out i [] a hes]
        simp only [List.nil_append]
        rw [ih out (i + 1) (pm ++ [(a, submodName i)]), ih out (i + 1) [(a, submodName i)]]
        simp
      · rw [hes1] at hes
        rw [buildParentNodes_cons_multi seg rest out i pm a b es' hes,
            buildParentNodes_cons_multi seg rest out i [] a b es' hes]
        simp only [List.nil_append]
        rw [ih out (i + 1) (pm ++ giEntries i (a :: b :: es')),
            ih out (i + 1) (giEntries i (a :: b :: es'))]
        simp

/-- The node a name resolves to inside a node list (default: a dummy). -/
def findNodeD (ns : List Node) (nm : String) : Node :=
  (ns.find? (fun n => n.name = nm)).getD (.compute "" 0 [] {})

/-- The final image of one segment in the processed parent graph: a plain segment
is inlined back verbatim; a region becomes the `get_attr` of its submodule, one
`wrap_with_autocast` call carrying the members' `"val"` metadata, and one
renamed extraction per escaping value. -/
def segImage (i : Nat) (s : SegDesc) (rest : List Node) (out : Option OutArgs) : List Node :=
  match s with
  | .plain ns => ns
  | .region en ps em mid ex xm =>
    let R : List Node := .enterA en ps em :: (mid ++ [.exitA ex en xm])
    let es := escapes R rest out
    .getAttr (gaName i) i ⟨.noneM, em.nnModuleStack, none⟩ ::
    .wrapA (wrapGenName i) ps i (freeRefs R)
      ⟨.tupM ((List.range es.length).map fun j => (findNodeD R (es.getD j "")).meta.val),
       em.nnModuleStack, some wrapTorchFn⟩ ::
    ((List.range es.length).map fun j =>
      Node.getitem (es.getD j "") (wrapGenName i) j (findNodeD R (es.getD j "")).meta)

/-- The fully processed parent node list, segment by segment. -/
def buildFinalNodes : List SegDesc → Option OutArgs → Nat → List Node
  | [], _, _ => []
  | s :: rest, out, i =>
    segImage i s ((rest.map SegDesc.nodes).flatten) out ++ buildFinalNodes rest out (i + 1)

/-- The final child module of one segment: the split child, with the autocast
markers erased for a region segment. -/
def erasedChild (s : SegDesc) (rest : List Node) (out : Option OutArgs) : GraphModule :=
  match s with
  | .plain ns => .mk (buildChild ns rest out) []
  | .region en ps em mid ex xm =>
    .mk ⟨freeRefs (SegDesc.nodes (.region en ps em mid ex xm)), mid,
         outSpecOf (escapes (SegDesc.nodes (.region en ps em mid ex xm)) rest out)⟩ []

/-- The final children list, segment by segment. -/
def finalChildren : List SegDesc → Option OutArgs → List GraphModule
  | [], _ => []
  | s :: rest, out =>
    erasedChild s ((rest.map SegDesc.nodes).flatten) out :: finalChildren rest out

/-- A name appearing as the name of an already-processed parent node: an original
traced name or a generated `get_attr`/wrap name of an earlier segment. -/
def imgName (t : Nat) (nm : String) : Prop :=
  percentFree nm ∨ ∃ i, i < t ∧ (nm = gaName i ∨ nm = wrapGenName i)

/-- A reference appearing in an already-processed parent node: an original traced
name or the wrap name of an earlier segment. -/
def imgRef (t : Nat) (r : String) : Prop :=
  percentFree r ∨ ∃ i, i < t ∧ r = wrapGenName i

/-- Image names persist as the processed prefix grows. -/
lemma imgName_mono (t : Nat) (nm : String) (h : imgName t nm) : imgName (t + 1) nm := by
  rcases h with h | ⟨i, hi, he⟩
  · exact Or.inl h
  · exact Or.inr ⟨i, by omega, he⟩

/-- Image references persist as the processed prefix grows. -/
lemma imgRef_mono (t : Nat) (r : String) (h : imgRef t r) : imgRef (t + 1) r := by
  rcases h with h | ⟨i, hi, he⟩
  · exact Or.inl h
  · exact Or.inr ⟨i, by omega, he⟩

/-- An image name never equals a submodule-call name. -/
lemma imgName_ne_submod (t u : Nat) (nm : String) (h : imgName t nm) : nm ≠ submodName u := by
  rcases h with h | ⟨i, _, he | he⟩
  · exact percentFree_ne_submodName nm h u
  · exact he ▸ gaName_ne_submodName i u
  · exact he ▸ wrapGenName_ne_submodName i u

/-- An image name never equals an extraction name. -/
lemma imgName_ne_gi (t u j : Nat) (nm : String) (h : imgName t nm) : nm ≠ giName u j := by
  rcases h with h | ⟨i, _, he | he⟩
  · exact percentFree_ne_giName nm h u j
  · exact he ▸ gaName_ne_giName i u j
  · exact he ▸ wrapGenName_ne_giName i u j

/-- An image reference never equals a submodule-call name. -/
lemma imgRef_ne_submod (t u : Nat) (r : String) (h : imgRef t r) : r ≠ submodName u := by
  rcases h with h | ⟨i, _, he⟩
  · exact percentFree_ne_submodName r h u
  · exact he ▸ wrapGenName_ne_submodName i u

/-- An image reference never equals an extraction name. -/
lemma imgRef_ne_gi (t u j : Nat) (r : String) (h : imgRef t r) : r ≠ giName u j := by
  rcases h with h | ⟨i, _, he⟩
  · exact percentFree_ne_giName r h u j
  · exact he ▸ wrapGenName_ne_giName i u j

/-- An image reference of bound `t` never equals a wrap name of index ≥ `t`. -/
lemma imgRef_ne_wrap_ge (t u : Nat) (r : String) (h : imgRef t r) (hu : t ≤ u) :
    r ≠ wrapGenName u := by
  rcases h with h | ⟨i, hi, he⟩
  · exact percentFree_ne_wrapGenName r h u
  · subst he
    intro he2
    have := wrapGenName_inj i u he2
    omega

/-- Finding a node by name skips a prefix of differently named nodes. -/
lemma find?_name_append (nm : String) (A : List Node) :
    ∀ (B : List Node), (∀ n ∈ A, n.name ≠ nm) →
    List.find? (fun n => n.name = nm) (A ++ B) = List.find? (fun n => n.name = nm) B := by
  induction A with
  | nil => intro B _; rfl
  | cons a rest ih =>
    intro B h
    simp only [List.cons_append, List.find?]
    rw [show (decide (a.name = nm)) = false from by simpa using h a (by simp)]
    exact ih B (fun n hn => h n (by simp [hn]))

/-- Reading just past a prefix of known length. -/
lemma get?_append_len {α : Type} (A : List α) :
    ∀ (B : List α), (A ++ B).get? A.length = B.get? 0 := by
  induction A with
  | nil => intro B; rfl
  | cons a rest ih => intro B; simpa using ih B

/-- Writing just past a prefix of known length. -/
lemma set_append_len {α : Type} (A : List α) :
    ∀ (B : List α) (v : α), (A ++ B).set A.length v = A ++ B.set 0 v := by
  induction A with
  | nil => intro B v; rfl
  | cons a rest ih => intro B v; simpa using ih B v

/-- A map over a list as a map over its index range. -/
lemma map_eq_range_getD {α β : Type} (l : List α) (d : α) (f : α → β) :
    l.map f = (List.range l.length).map (fun j => f (l.getD j d)) := by
  induction l with
  | nil => rfl
  | cons a rest ih =>
    simp only [List.map_cons, List.length_cons]
    rw [List.range_succ_eq_map]
    simp only [List.map_cons, List.map_map]
    congr 1

/-- Generated submodule-call names are not traced names. -/
lemma not_pf_submodName (i : Nat) : ¬ percentFree (submodName i) := by
  intro h
  exact h (by rw [submodName_data]; rfl)

/-- Generated extraction names are not traced names. -/
lemma not_pf_giName (i j : Nat) : ¬ percentFree (giName i j) := by
  intro h
  exact h (by rw [giName_data]; rfl)

/-- Generated `get_attr` names are not traced names. -/
lemma not_pf_gaName (i : Nat) : ¬ percentFree (gaName i) := by
  intro h
  exact h (by rw [gaName_data]; rfl)

/-- Generated wrap names are not traced names. -/
lemma not_pf_wrapGenName (i : Nat) : ¬ percentFree (wrapGenName i) := by
  intro h
  exact h (by rw [wrapGenName_data]; rfl)

/-- Unwinding a single proxy entry over the pending parent nodes: substituting the
proxy back to its original name on the nodes built with the entry first in the
renaming yields the nodes built without it. -/
lemma unwind_nodes_one (L : List (List Node)) :
    ∀ (out : Option OutArgs) (i : Nat) (pm : List (String × String)) (orig proxy : String),
    (∀ seg ∈ L, ∀ x ∈ freeRefs seg, percentFree x) →
    (∀ seg ∈ L, ∀ n ∈ seg, n.name ≠ orig) →
    (∀ pr ∈ pm, pr.1 ≠ orig) →
    (∀ pr ∈ pm, pr.2 ≠ proxy) →
    (∀ u, i ≤ u → proxy ≠ submodName u) →
    (∀ u j, i ≤ u → proxy ≠ giName u j) →
    ¬ percentFree proxy →
    ((buildParentNodes L out i ((orig, proxy) :: pm)).1).map
        (Node.mapRefs (substName proxy orig)) =
      (buildParentNodes L out i pm).1 := by
  induction L with
  | nil => intro out i pm orig proxy _ _ _ _ _ _ _; simp [buildParentNodes]
  | cons seg rest ih =>
    intro out i pm orig proxy hfree hnames hkeys hvals hps hpg hppf
    have hfree' : ∀ s ∈ rest, ∀ x ∈ freeRefs s, percentFree x :=
      fun s hs => hfree s (by simp [hs])
    have hnames' : ∀ s ∈ rest, ∀ n ∈ s, n.name ≠ orig :=
      fun s hs => hnames s (by simp [hs])
    have hps' : ∀ u, i + 1 ≤ u → proxy ≠ submodName u := fun u hu => hps u (by omega)
    have hpg' : ∀ u j, i + 1 ≤ u → proxy ≠ giName u j := fun u j hu => hpg u j (by omega)
    have hcall : ∀ (m : Meta),
        (Node.callMod (submodName i) i
            ((freeRefs seg).map (lookupOr ((orig, proxy) :: pm))) m).mapRefs
          (substName proxy orig) =
        Node.callMod (submodName i) i ((freeRefs seg).map (lookupOr pm)) m := by
      intro m
      simp only [Node.mapRefs, List.map_map, Node.callMod.injEq, true_and, and_true]
      apply List.map_congr_left
      intro x hx
      exact subst_lookupOr_cons orig proxy x pm
        (fun he => hppf (he ▸ hfree seg (by simp) x hx)) hkeys hvals
    have hseg_ne : ∀ nm ∈ escapes seg rest.flatten out, nm ≠ orig := by
      intro nm hnm
      obtain ⟨n, hn, he⟩ := List.mem_map.mp (escapes_sub seg rest.flatten out nm hnm)
      exact he ▸ hnames seg (by simp) n hn
    rcases hes : escapes seg rest.flatten out with _ | ⟨a, es1⟩
    · rw [buildParentNodes_cons_none seg rest out i _ hes,
          buildParentNodes_cons_none seg rest out i pm hes]
      simp only [List.map_cons]
      rw [hcall, ih out (i + 1) pm orig proxy hfree' hnames' hkeys hvals hps' hpg' hppf]
    · rcases hes1 : es1 with _ | ⟨b, es'⟩
      · rw [hes1] at hes
        rw [buildParentNodes_cons_single seg rest out i _ a hes,
            buildParentNodes_cons_single seg rest out i pm a hes]
        simp only [List.map_cons, List.cons_append]
        have hkeys2 : ∀ pr ∈ pm ++ [(a, submodName i)], pr.1 ≠ orig := by
          intro pr hpr
          rcases List.mem_append.mp hpr with h1 | h2
          · exact hkeys pr h1
          · have he : pr = (a, submodName i) := by simpa using h2
            subst he
            exact hseg_ne a (by simp [hes])
        have hvals2 : ∀ pr ∈ pm ++ [(a, submodName i)], pr.2 ≠ proxy := by
          intro pr hpr
          rcases List.mem_append.mp hpr with h1 | h2
          · exact hvals pr h1
          · have he : pr = (a, submodName i) := by simpa using h2
            subst he
            exact Ne.symm (hps i (le_refl i))
        rw [hcall, ih out (i + 1) _ orig proxy hfree' hnames' hkeys2 hvals2 hps' hpg' hppf]
      · rw [hes1] at hes
        rw [buildParentNodes_cons_multi seg rest out i _ a b es' hes,
            buildParentNodes_cons_multi seg rest out i pm a b es' hes]
        simp only [List.map_cons, List.cons_append, List.map_append]
        have hkeys2 : ∀ pr ∈ pm ++ giEntries i (a :: b :: es'), pr.1 ≠ orig := by
          intro pr hpr
          rcases List.mem_append.mp hpr with h1 | h2
          · exact hkeys pr h1
          · simp only [giEntries] at h2
            obtain ⟨j, hj, rfl⟩ := List.mem_map.mp h2
            refine hseg_ne _ ?_
            rw [hes]
            exact getD_mem_of_lt _ j "" (by simpa using List.mem_range.mp hj)
        have hvals2 : ∀ pr ∈ pm ++ giEntries i (a :: b :: es'), pr.2 ≠ proxy := by
          intro pr hpr
          rcases List.mem_append.mp hpr with h1 | h2
          · exact hvals pr h1
          · simp only [giEntries] at h2
            obtain ⟨j, hj, rfl⟩ := List.mem_map.mp h2
            exact Ne.symm (hpg i j (le_refl i))
        have hgis : (giNodes i (a :: b :: es')).map (Node.mapRefs (substName proxy orig)) =
            giNodes i (a :: b :: es') := by
          apply map_mapRefs_subst_id
          intro n hn
          simp only [giNodes] at hn
          obtain ⟨j, hj, rfl⟩ := List.mem_map.mp hn
          simp only [Node.argRefs, List.mem_singleton]
          exact hps i (le_refl i)

        rw [hcall, hgis, ih out (i + 1) _ orig proxy hfree' hnames' hkeys2 hvals2 hps' hpg' hppf]

/-- Unwinding a single proxy entry on the routed output. -/
lemma unwind_out_one (o : Option OutArgs) (pm : List (String × String))
    (orig proxy : String)
    (hpf : ∀ r ∈ outRefs o, percentFree r)
    (hkeys : ∀ pr ∈ pm, pr.1 ≠ orig)
    (hvals : ∀ pr ∈ pm, pr.2 ≠ proxy)
    (hppf : ¬ percentFree proxy) :
    outMapRefs (substName proxy orig) (outMapRefs (lookupOr ((orig, proxy) :: pm)) o) =
      outMapRefs (lookupOr pm) o := by
  rw [outMapRefs_comp]
  apply outMapRefs_congr
  intro r hr
  exact subst_lookupOr_cons orig proxy r pm (fun he => hppf (he ▸ hpf r hr)) hkeys hvals

/-- Unwinding a block of proxy entries over the pending parent nodes:
sequentially substituting each proxy back to its original name yields the nodes
built without the block. -/
lemma unwind_nodes_many (E : List (String × String)) :
    ∀ (L : List (List Node)) (out : Option OutArgs) (i : Nat)
      (pm : List (String × String)),
    (∀ seg ∈ L, ∀ x ∈ freeRefs seg, percentFree x) →
    (∀ seg ∈ L, ∀ n ∈ seg, ∀ q ∈ E, n.name ≠ q.1) →
    (∀ pr ∈ pm, ∀ q ∈ E, pr.1 ≠ q.1) →
    (∀ pr ∈ pm, ∀ q ∈ E, pr.2 ≠ q.2) →
    (∀ q ∈ E, (∀ u, i ≤ u → q.2 ≠ submodName u) ∧ (∀ u j, i ≤ u → q.2 ≠ giName u j) ∧
      ¬ percentFree q.2) →
    (E.map Prod.fst).Nodup →
    (E.map Prod.snd).Nodup →
    ((buildParentNodes L out i (E ++ pm)).1).map (substSeq (E.map Prod.swap)) =
      (buildParentNodes L out i pm).1 := by
  induction E with
  | nil =>
    intro L out i pm _ _ _ _ _ _ _
    simp only [List.nil_append, List.map_nil]
    rw [show substSeq ([] : List (String × String)) = id from funext substSeq_nil,
        List.map_id]
  | cons q E' ih =>
    intro L out i pm hfree hnames hkeys hvals hgen hk hv
    obtain ⟨o1, p1⟩ := q
    have hk' : (E'.map Prod.fst).Nodup := (List.nodup_cons.mp (by simpa using hk)).2
    have hv' : (E'.map Prod.snd).Nodup := (List.nodup_cons.mp (by simpa using hv)).2
    have hknot : ∀ x ∈ E'.map Prod.fst, x ≠ o1 :=
      fun x hx => (List.nodup_cons.mp (by simpa using hk)).1 |> fun h => fun he => h (he ▸ hx)
    have hvnot : ∀ x ∈ E'.map Prod.snd, x ≠ p1 :=
      fun x hx => (List.nodup_cons.mp (by simpa using hv)).1 |> fun h => fun he => h (he ▸ hx)
    have hcomp : substSeq (((o1, p1) :: E').map Prod.swap) =
        (substSeq (E'.map Prod.swap)) ∘ (Node.mapRefs (substName p1 o1)) := by
      funext n
      rfl
    rw [hcomp, ← List.map_map]
    rw [show ((o1, p1) :: E') ++ pm = (o1, p1) :: (E' ++ pm) from rfl]
    rw [unwind_nodes_one L out i (E' ++ pm) o1 p1 hfree
      (fun seg hs n hn => hnames seg hs n hn (o1, p1) (by simp))
      (by
        intro pr hpr
        rcases List.mem_append.mp hpr with h1 | h2
        · exact hknot pr.1 (List.mem_map.mpr ⟨pr, h1, rfl⟩)
        · exact hkeys pr h2 (o1, p1) (by simp))
      (by
        intro pr hpr
        rcases List.mem_append.mp hpr with h1 | h2
        · exact hvnot pr.2 (List.mem_map.mpr ⟨pr, h1, rfl⟩)
        · exact hvals pr h2 (o1, p1) (by simp))
      (hgen (o1, p1) (by simp)).1
      (hgen (o1, p1) (by simp)).2.1
      (hgen (o1, p1) (by simp)).2.2]
    exact ih L out i pm hfree
      (fun seg hs n hn q hq => hnames seg hs n hn q (by simp [hq]))
      (fun pr hpr q hq => hkeys pr hpr q (by simp [hq]))
      (fun pr hpr q hq => hvals pr hpr q (by simp [hq]))
      (fun q hq => hgen q (by simp [hq])) hk' hv'

/-- Unwinding a block of proxy entries on the routed output. -/
lemma unwind_out_many (E : List (String × String)) :
    ∀ (pm : List (String × String)) (o : Option OutArgs),
    (∀ r ∈ outRefs o, percentFree r) →
    (∀ pr ∈ pm, ∀ q ∈ E, pr.1 ≠ q.1) →
    (∀ pr ∈ pm, ∀ q ∈ E, pr.2 ≠ q.2) →
    (∀ q ∈ E, ¬ percentFree q.2) →
    (E.map Prod.fst).Nodup →
    (E.map Prod.snd).Nodup →
    substSeqOut (E.map Prod.swap) (outMapRefs (lookupOr (E ++ pm)) o) =
      outMapRefs (lookupOr pm) o := by
  induction E with
  | nil => intro pm o _ _ _ _ _ _; rfl
  | cons q E' ih =>
    intro pm o hpf hkeys hvals hnpf hk hv
    obtain ⟨o1, p1⟩ := q
    have hk' : (E'.map Prod.fst).Nodup := (List.nodup_cons.mp (by simpa using hk)).2
    have hv' : (E'.map Prod.snd).Nodup := (List.nodup_cons.mp (by simpa using hv)).2
    have hknot : ∀ x ∈ E'.map Prod.fst, x ≠ o1 :=
      fun x hx => (List.nodup_cons.mp (by simpa using hk)).1 |> fun h => fun he => h (he ▸ hx)
    have hvnot : ∀ x ∈ E'.map Prod.snd, x ≠ p1 :=
      fun x hx => (List.nodup_cons.mp (by simpa using hv)).1 |> fun h => fun he => h (he ▸ hx)
    rw [show (((o1, p1) :: E').map Prod.swap) = (p1, o1) :: E'.map Prod.swap from rfl,
        substSeqOut_cons,
        show ((o1, p1) :: E') ++ pm = (o1, p1) :: (E' ++ pm) from rfl,
        unwind_out_one o (E' ++ pm) o1 p1 hpf
          (by
            intro pr hpr
            rcases List.mem_append.mp hpr with h1 | h2
            · exact hknot pr.1 (List.mem_map.mpr ⟨pr, h1, rfl⟩)
            · exact hkeys pr h2 (o1, p1) (by simp))
          (by
            intro pr hpr
            rcases List.mem_append.mp hpr with h1 | h2
            · exact hvnot pr.2 (List.mem_map.mpr ⟨pr, h1, rfl⟩)
            · exact hvals pr h2 (o1, p1) (by simp))
          (hnpf (o1, p1) (by simp))]
    exact ih pm o hpf
      (fun pr hpr q hq => hkeys pr hpr q (by simp [hq]))
      (fun pr hpr q hq => hvals pr hpr q (by simp [hq]))
      (fun q hq => hnpf q (by simp [hq])) hk' hv'

/-- The keys of the extraction entries are the escaping values themselves. -/
lemma giEntries_fst (t : Nat) (es : List String) :
    (giEntries t es).map Prod.fst = es := by
  simp only [giEntries, List.map_map]
  exact (map_eq_range_getD es "" id).symm.trans (List.map_id es)

/-- The targets of the extraction entries are the extraction names. -/
lemma giEntries_snd (t : Nat) (es : List String) :
    (giEntries t es).map Prod.snd = (List.range es.length).map (fun j => giName t j) := by
  simp [giEntries, List.map_map]

/-- The swapped extraction entries, in substitution order. -/
lemma giEntries_swap (t : Nat) (es : List String) :
    (giEntries t es).map Prod.swap =
      (List.range es.length).map (fun j => (giName t j, es.getD j "")) := by
  simp only [giEntries, List.map_map]
  apply List.map_congr_left
  intro j _
  rfl

/-- Extraction names for distinct indices of one segment are distinct. -/
lemma nodup_giName_range (t k : Nat) :
    ((List.range k).map (fun j => giName t j)).Nodup := by
  refine List.Nodup.map_on ?_ (List.nodup_range k)
  intro x _ y _ he
  exact (giName_inj t x t y he).2

/-- The single extraction-elimination step in explicit form. -/
lemma inlineGetitemStep_getitem (outAs : List Arg) (gnm src : String) (idx : Nat)
    (gmeta : Meta) (gr : Graph) (acc : List (String × String)) (onm : String)
    (h : outAs.get? idx = some (.ref onm)) :
    inlineGetitemStep outAs (gr, acc) (.getitem gnm src idx gmeta) =
      .ok (⟨gr.inputs,
            (replaceNodeWith gnm [] gr.nodes).map (Node.mapRefs (substName gnm onm)),
            outMapRefs (substName gnm onm) gr.output⟩, acc ++ [(gnm, onm)]) := by
  have h' : outAs[idx]? = some (Arg.ref onm) := by
    rw [← List.get?_eq_getElem?]
    exact h
  simp [inlineGetitemStep, h']

/-- The extraction-elimination fold of inlining: removing the per-index
extraction users of the call, one at a time, and pushing the member
substitutions through the rest of the graph. -/
lemma inlineFold (outAs : List Arg) (ins : List String) (esf g srcF : Nat → String)
    (gms : Nat → Meta) :
    ∀ (L : List Nat) (A B : List Node) (o : Option OutArgs) (acc : List (String × String)),
    (∀ j ∈ L, outAs.get? j = some (.ref (esf j))) →
    (∀ j ∈ L, ∀ n ∈ A, n.name ≠ g j ∧ g j ∉ n.argRefs) →
    (∀ j ∈ L, ∀ n ∈ B, n.name ≠ g j) →
    (L.map g).Nodup →
    (∀ j ∈ L, ∀ i ∈ L, srcF i ≠ g j) →
    List.foldlM (inlineGetitemStep outAs)
        ((⟨ins, A ++ ((L.map fun j => Node.getitem (g j) (srcF j) j (gms j)) ++ B), o⟩ : Graph),
         acc)
        (L.map fun j => Node.getitem (g j) (srcF j) j (gms j)) =
      .ok (⟨ins, A ++ B.map (substSeq (L.map fun j => (g j, esf j))),
            substSeqOut (L.map fun j => (g j, esf j)) o⟩,
           acc ++ (L.map fun j => (g j, esf j))) := by
  intro L
  induction L with
  | nil =>
    intro A B o acc _ _ _ _ _
    simp only [List.map_nil, List.nil_append, List.foldlM_nil]
    rw [show substSeq ([] : List (String × String)) = id from funext substSeq_nil]
    simp only [substSeqOut_nil, List.map_id, List.append_nil]
    rfl
  | cons j rest ih =>
    intro A B o acc hget hA hB hnd hsrc
    obtain ⟨hjnot, hndrest⟩ : (∀ x ∈ rest, ¬ g x = g j) ∧ (rest.map g).Nodup := by
      simpa using hnd
    simp only [List.map_cons, List.foldlM_cons]
    rw [inlineGetitemStep_getitem outAs (g j) (srcF j) j (gms j) _ acc (esf j)
      (hget j (by simp))]
    simp only [exceptBindOk]
    have hrepl : replaceNodeWith (g j) []
        (A ++ ((Node.getitem (g j) (srcF j) j (gms j) ::
          rest.map fun i => Node.getitem (g i) (srcF i) i (gms i)) ++ B)) =
        A ++ ((rest.map fun i => Node.getitem (g i) (srcF i) i (gms i)) ++ B) := by
      rw [replaceNodeWith_append (g j) [] A _ (fun n hn => (hA j (by simp) n hn).1)]
      rw [show ((Node.getitem (g j) (srcF j) j (gms j) ::
        rest.map fun i => Node.getitem (g i) (srcF i) i (gms i)) ++ B) =
        Node.getitem (g j) (srcF j) j (gms j) ::
          ((rest.map fun i => Node.getitem (g i) (srcF i) i (gms i)) ++ B) from by simp]
      rw [replaceNodeWith_cons_self (g j) [] _ _ (by simp [Node.name])]
      simp
    simp only [hrepl]
    have hmapA : A.map (Node.mapRefs (substName (g j) (esf j))) = A :=
      map_mapRefs_subst_id _ _ A (fun n hn => (hA j (by simp) n hn).2)
    have hmapG : (rest.map fun i => Node.getitem (g i) (srcF i) i (gms i)).map
        (Node.mapRefs (substName (g j) (esf j))) =
        rest.map fun i => Node.getitem (g i) (srcF i) i (gms i) := by
      apply map_mapRefs_subst_id
      intro n hn
      obtain ⟨i, hi, rfl⟩ := List.mem_map.mp hn
      simp only [Node.argRefs, List.mem_singleton]
      exact fun he => hsrc j (by simp) i (by simp [hi]) he.symm
    simp only [List.map_append, hmapA, hmapG]
    rw [ih A (B.map (Node.mapRefs (substName (g j) (esf j))))
      (outMapRefs (substName (g j) (esf j)) o) (acc ++ [(g j, esf j)])
      (fun i hi => hget i (by simp [hi]))
      (fun i hi n hn => hA i (by simp [hi]) n hn)
      (fun i hi n hn => by
        obtain ⟨n0, hn0, rfl⟩ := List.mem_map.mp hn
        rw [mapRefs_name]
        exact hB i (by simp [hi]) n0 hn0)
      hndrest
      (fun i hi i' hi' => hsrc i (by simp [hi]) i' (by simp [hi']))]
    have hBmm : (B.map (Node.mapRefs (substName (g j) (esf j)))).map
        (substSeq (rest.map fun i => (g i, esf i))) =
        B.map (substSeq ((j :: rest).map fun i => (g i, esf i))) := by
      rw [List.map_map]
      exact List.map_congr_left (fun n _ => rfl)
    have homm : substSeqOut (rest.map fun i => (g i, esf i))
        (outMapRefs (substName (g j) (esf j)) o) =
        substSeqOut ((j :: rest).map fun i => (g i, esf i)) o := rfl
    rw [hBmm, homm]
    simp

/-- A body bound to its own placeholder names inlines verbatim. -/
lemma inline_body_id (phs : List String) (seg : List Node) :
    seg.map (Node.mapRefs (lookupOr (phs.zip phs))) = seg := by
  have h : ∀ n ∈ seg, n.mapRefs (lookupOr (phs.zip phs)) = n := by
    intro n _
    rw [mapRefs_congr _ id n (fun x _ => lookupOr_zip_self phs x)]
    exact mapRefs_id n
  rw [List.map_congr_left h]
  exact List.map_id seg

/-- Inlining a call whose submodule has no output: the body replaces the call in
place, nothing is renamed and nothing is logged. -/
lemma nodeInline_none (ins : List String) (P Q : List Node) (pout : Option OutArgs)
    (cname : String) (t : Nat) (cmeta : Meta) (children : List GraphModule)
    (phs : List String) (seg : List Node) (subcs : List GraphModule)
    (hchild : children.get? t = some (.mk ⟨phs, seg, none⟩ subcs))
    (hP : ∀ n ∈ P, n.name ≠ cname) :
    nodeInline ⟨ins, P ++ .callMod cname t phs cmeta :: Q, pout⟩ children
        (.callMod cname t phs cmeta) =
      .ok (⟨ins, P ++ (seg ++ Q), pout⟩, children, []) := by
  have hrepl : replaceNodeWith cname seg (P ++ .callMod cname t phs cmeta :: Q) =
      P ++ (seg ++ Q) := by
    rw [replaceNodeWith_append cname seg P _ hP,
        replaceNodeWith_cons_self cname seg _ Q (by simp [Node.name])]
  simp only [nodeInline, hchild, GraphModule.graph, inline_body_id, hrepl]

/-- Inlining a call whose submodule returns a single value: the body replaces the
call, uses of the call are redirected to the returned value, and the redirection
is logged. -/
lemma nodeInline_single (ins : List String) (P Q : List Node) (pout : Option OutArgs)
    (cname : String) (t : Nat) (cmeta : Meta) (children : List GraphModule)
    (phs : List String) (seg : List Node) (onm : String) (subcs : List GraphModule)
    (hchild : children.get? t = some (.mk ⟨phs, seg, some (.node onm)⟩ subcs))
    (hP : ∀ n ∈ P, n.name ≠ cname) :
    nodeInline ⟨ins, P ++ .callMod cname t phs cmeta :: Q, pout⟩ children
        (.callMod cname t phs cmeta) =
      .ok (⟨ins, (P ++ (seg ++ Q)).map (Node.mapRefs (substName cname onm)),
            outMapRefs (substName cname onm) pout⟩, children, [(cname, onm)]) := by
  have hrepl : replaceNodeWith cname seg (P ++ .callMod cname t phs cmeta :: Q) =
      P ++ (seg ++ Q) := by
    rw [replaceNodeWith_append cname seg P _ hP,
        replaceNodeWith_cons_self cname seg _ Q (by simp [Node.name])]
  simp only [nodeInline, hchild, GraphModule.graph, inline_body_id, hrepl]

/-- Inlining a call whose submodule returns a tuple: the body replaces the call,
each per-index extraction of the call is removed with its uses redirected to the
corresponding member, and the redirections are logged in order. -/
lemma nodeInline_tuple (ins : List String) (P seg Q : List Node) (pout : Option OutArgs)
    (cname : String) (t : Nat) (cmeta : Meta) (children : List GraphModule)
    (phs : List String) (subcs : List GraphModule)
    (k : Nat) (esf gnames : Nat → String) (gms : Nat → Meta)
    (hchild : children.get? t = some (.mk ⟨phs, seg,
      some (.tup ((List.range k).map fun j => Arg.ref (esf j)))⟩ subcs))
    (hP : ∀ n ∈ P, n.name ≠ cname ∧ cname ∉ n.argRefs)
    (hPg : ∀ j < k, ∀ n ∈ P, n.name ≠ gnames j ∧ gnames j ∉ n.argRefs)
    (hseg : ∀ n ∈ seg, cname ∉ n.argRefs)
    (hsegg : ∀ j < k, ∀ n ∈ seg, n.name ≠ gnames j ∧ gnames j ∉ n.argRefs)
    (hQ : ∀ n ∈ Q, cname ∉ n.argRefs)
    (hQn : ∀ j < k, ∀ n ∈ Q, n.name ≠ gnames j)
    (hnd : ((List.range k).map gnames).Nodup)
    (hcg : ∀ j < k, cname ≠ gnames j) :
    nodeInline ⟨ins, P ++ .callMod cname t phs cmeta ::
        (((List.range k).map fun j => Node.getitem (gnames j) cname j (gms j)) ++ Q), pout⟩
      children (.callMod cname t phs cmeta) =
      .ok (⟨ins,
            (P ++ seg) ++ Q.map (substSeq ((List.range k).map fun j => (gnames j, esf j))),
            substSeqOut ((List.range k).map fun j => (gnames j, esf j)) pout⟩,
           children, (List.range k).map fun j => (gnames j, esf j)) := by
  set outAs := (List.range k).map fun j => Arg.ref (esf j) with houtAs
  set G := (List.range k).map fun j => Node.getitem (gnames j) cname j (gms j) with hG
  have hrepl : replaceNodeWith cname seg
      (P ++ .callMod cname t phs cmeta :: (G ++ Q)) = P ++ (seg ++ (G ++ Q)) := by
    rw [replaceNodeWith_append cname seg P _ (fun n hn => (hP n hn).1),
        replaceNodeWith_cons_self cname seg _ _ (by simp [Node.name])]
  have hfilter : (P ++ (seg ++ (G ++ Q))).filter (fun n => n.argRefs.contains cname) = G := by
    rw [List.filter_append, List.filter_append, List.filter_append]
    have h1 : P.filter (fun n => n.argRefs.contains cname) = [] := by
      rw [List.filter_eq_nil_iff]
      intro n hn
      simpa using (hP n hn).2
    have h2 : seg.filter (fun n => n.argRefs.contains cname) = [] := by
      rw [List.filter_eq_nil_iff]
      intro n hn
      simpa using hseg n hn
    have h3 : Q.filter (fun n => n.argRefs.contains cname) = [] := by
      rw [List.filter_eq_nil_iff]
      intro n hn
      simpa using hQ n hn
    have h4 : G.filter (fun n => n.argRefs.contains cname) = G := by
      rw [List.filter_eq_self]
      intro n hn
      rw [hG] at hn
      obtain ⟨j, _, rfl⟩ := List.mem_map.mp hn
      simp [Node.argRefs]
    rw [h1, h2, h3, h4]
    simp
  have hGsrc : G = (List.range k).map fun j =>
      Node.getitem (gnames j) ((fun _ => cname) j) j (gms j) := rfl
  have hfold := inlineFold outAs ins esf gnames (fun _ => cname) gms (List.range k)
    (P ++ seg) Q pout []
    (fun j hj => by
      rw [houtAs, List.get?_eq_getElem?, List.getElem?_map,
        List.getElem?_range (List.mem_range.mp hj)]
      rfl)
    (fun j hj n hn => by
      rcases List.mem_append.mp hn with hmem | hmem
      · exact hPg j (List.mem_range.mp hj) n hmem
      · exact hsegg j (List.mem_range.mp hj) n hmem)
    (fun j hj n hn => hQn j (List.mem_range.mp hj) n hn)
    hnd
    (fun j hj i hi => hcg j (List.mem_range.mp hj))
  simp only [nodeInline, hchild, GraphModule.graph, inline_body_id, hrepl, hfilter]
  rw [show P ++ (seg ++ (G ++ Q)) = (P ++ seg) ++ (G ++ Q) from by simp]
  rw [hG]
  simp only [] at hfold
  rw [hfold]
  simp only [exceptBindOk]
  rfl

/-- References of a substituted output are the substituted references. -/
lemma outRefs_outMapRefs (f : String → String) (o : Option OutArgs) :
    outRefs (outMapRefs f o) = (outRefs o).map f := by
  match o with
  | none => rfl
  | some (.node n) => rfl
  | some (.tup as) =>
    simp only [outMapRefs, OutArgs.mapRefs, outRefs]
    induction as with
    | nil => rfl
    | cons a rest ih =>
      cases a with
      | noneA => simpa [Arg.mapRef, Arg.refName?] using ih
      | ref r => simpa [Arg.mapRef, Arg.refName?] using ih
  | some .noneV => rfl
  | some (.other k) => rfl

/-- A name defined in a node list is found, and the found node is `findNodeD`. -/
lemma find?_findNodeD (ns : List Node) (nm : String) (h : nm ∈ ns.map Node.name) :
    ns.find? (fun n => n.name = nm) = some (findNodeD ns nm) := by
  have hsome : (ns.find? (fun n => n.name = nm)).isSome := by
    rw [List.find?_isSome]
    obtain ⟨n, hn, he⟩ := List.mem_map.mp h
    exact ⟨n, hn, by simp [he]⟩
  obtain ⟨v, hv⟩ := Option.isSome_iff_exists.mp hsome
  rw [hv]
  simp [findNodeD, hv]

/-- Free references of a node list with traced references are traced. -/
lemma freeRefs_pf (seg : List Node)
    (h : ∀ n ∈ seg, ∀ r ∈ n.argRefs, percentFree r) :
    ∀ x ∈ freeRefs seg, percentFree x := by
  intro x hx
  have hx2 := (mem_dedupFirst _ x).mp hx
  obtain ⟨n, hn, hr⟩ := freeRefsGo_sub seg [] x hx2
  exact h n hn x hr

/-- A reference of a node of the rest of the graph is a used name. -/
lemma mem_usedNames_of_ref (rest : List Node) (out : Option OutArgs) (n : Node)
    (r : String) (hn : n ∈ rest) (hr : r ∈ n.argRefs) : r ∈ usedNames rest out := by
  simp only [usedNames, List.mem_append, List.mem_flatten]
  exact Or.inl ⟨n.argRefs, List.mem_map.mpr ⟨n, hn, rfl⟩, hr⟩

/-- An output reference is a used name. -/
lemma mem_usedNames_of_out (rest : List Node) (out : Option OutArgs) (r : String)
    (hr : r ∈ outRefs out) : r ∈ usedNames rest out := by
  simp only [usedNames, List.mem_append]
  exact Or.inr hr

/-- The arguments routed through the empty renaming are the placeholders. -/
lemma map_lookupOr_nil (l : List String) : l.map (lookupOr []) = l := by
  rw [List.map_congr_left (fun x _ => lookupOr_nil x)]
  exact List.map_id l

/-- `_is_autocast_sub_mod` on a call node resolves the child and inspects its
first node. -/
lemma isAutocastSubMod_eval (children : List GraphModule) (cname : String) (t : Nat)
    (cargs : List String) (cm : Meta) (sub : GraphModule)
    (hchild : children.get? t = some sub) :
    isAutocastSubMod children (.callMod cname t cargs cm) =
      (match sub.graph.nodes.head? with
       | some first => isEnterAutocastNode first
       | none => false) := by
  have h' : children[t]? = some sub := by
    rw [← List.get?_eq_getElem?]
    exact hchild
  simp [isAutocastSubMod, h']

/-- Every region segment lets at least two values escape (the tuple-output
shape of the claim under verification). -/
def regionsEscapeBig : List SegDesc → Option OutArgs → Prop
  | [], _ => True
  | .plain _ :: rest, out => regionsEscapeBig rest out
  | .region en ps em mid ex xm :: rest, out =>
      2 ≤ (escapes (SegDesc.nodes (.region en ps em mid ex xm))
            ((rest.map SegDesc.nodes).flatten) out).length ∧ regionsEscapeBig rest out

/-- The autocast markers are referenced only by their own exit: never by the
region body, never by later nodes, never by the output. -/
def markersOK : List SegDesc → Option OutArgs → Prop
  | [], _ => True
  | .plain _ :: rest, out => markersOK rest out
  | .region en ps em mid ex xm :: rest, out =>
      (∀ n ∈ mid, en ∉ n.argRefs ∧ ex ∉ n.argRefs) ∧
      en ∉ usedNames ((rest.map SegDesc.nodes).flatten) out ∧
      ex ∉ usedNames ((rest.map SegDesc.nodes).flatten) out ∧
      markersOK rest out

/-- One processing step on a plain (marker-free) segment: the call is found, the
submodule is not an autocast region, and inlining splices the segment back
verbatim, unwinding the segment's proxies in the pending suffix and the output. -/
lemma step_plain (out : Option OutArgs) (t : Nat) (ins : List String) (done : List Node)
    (A : List GraphModule) (log0 : List (String × String)) (ns : List Node)
    (restL : List (List Node))
    (hA : A.length = t)
    (hdone : ∀ n ∈ done, imgName t n.name ∧ ∀ r ∈ n.argRefs, imgRef t r)
    (hne : ns ≠ [])
    (hcomp : ∀ n ∈ ns, isComputeNode n = true)
    (hpf1 : ∀ n ∈ ns, percentFree n.name ∧ ∀ r ∈ n.argRefs, percentFree r)
    (hpf2 : ∀ seg ∈ restL, ∀ n ∈ seg, percentFree n.name ∧ ∀ r ∈ n.argRefs, percentFree r)
    (hopf : ∀ r ∈ outRefs out, percentFree r)
    (hnd1 : (ns.map Node.name).Nodup)
    (hdisj : ∀ nm ∈ ns.map Node.name, ∀ seg ∈ restL, ∀ n ∈ seg, n.name ≠ nm) :
    ∃ lg, maybeInlineOrReplaceWithHop
      (⟨ins, done ++ (buildParentNodes (ns :: restL) out t []).1,
        outMapRefs (lookupOr (buildParentNodes (ns :: restL) out t []).2) out⟩,
       A ++ (buildChildren (ns :: restL) out).map (fun c => GraphModule.mk c []),
       log0) (submodName t) =
    .ok (⟨ins, (done ++ ns) ++ (buildParentNodes restL out (t + 1) []).1,
          outMapRefs (lookupOr (buildParentNodes restL out (t + 1) []).2) out⟩,
         (A ++ [GraphModule.mk (buildChild ns restL.flatten out) []]) ++
           (buildChildren restL out).map (fun c => GraphModule.mk c []),
         log0 ++ lg) := by
  have hargs := map_lookupOr_nil (freeRefs ns)
  have hfree2 : ∀ seg ∈ restL, ∀ x ∈ freeRefs seg, percentFree x :=
    fun seg hs => freeRefs_pf seg (fun n hn => (hpf2 seg hs n hn).2)
  have hchild : (A ++ (buildChildren (ns :: restL) out).map
      (fun c => GraphModule.mk c [])).get? t =
      some (.mk (buildChild ns restL.flatten out) []) := by
    rw [← hA, get?_append_len]
    rfl
  have hsub : isAutocastSubMod
      (A ++ (buildChildren (ns :: restL) out).map (fun c => GraphModule.mk c []))
      (.callMod (submodName t) t (freeRefs ns) {}) = false := by
    rw [isAutocastSubMod_eval _ _ _ _ _ _ hchild]
    match ns, hne with
    | n0 :: tl, _ =>
      have h0 := hcomp n0 (by simp)
      match n0, h0 with
      | .compute nm f args m, _ => rfl
  have hpmR : ∀ pr ∈ (buildParentNodes restL out (t + 1) []).2,
      (∃ seg ∈ restL, pr.1 ∈ seg.map Node.name) ∧ genName (t + 1) pr.2 := by
    intro pr hpr
    rcases pending_pm_keys restL out (t + 1) [] pr hpr with h | h
    · simp at h
    · exact h
  rcases hes : escapes ns restL.flatten out with _ | ⟨a, es1⟩
  · -- no escaping value: the child has no output, the call is erased in place
    refine ⟨[], ?_⟩
    have h1 : (buildParentNodes (ns :: restL) out t []).1 =
        Node.callMod (submodName t) t (freeRefs ns) {} ::
          (buildParentNodes restL out (t + 1) []).1 := by
      rw [buildParentNodes_cons_none ns restL out t [] hes, hargs]
    have h2 : (buildParentNodes (ns :: restL) out t []).2 =
        (buildParentNodes restL out (t + 1) []).2 := by
      rw [buildParentNodes_cons_none ns restL out t [] hes]
    have hfind : (done ++ (buildParentNodes (ns :: restL) out t []).1).find?
        (fun n => n.name = submodName t) =
        some (.callMod (submodName t) t (freeRefs ns) {}) := by
      rw [h1, find?_name_append _ done _
        (fun n hn => imgName_ne_submod t t n.name (hdone n hn).1)]
      exact List.find?_cons_of_pos _ (by simp [Node.name])
    have hinline := nodeInline_none ins done ((buildParentNodes restL out (t + 1) []).1)
      (outMapRefs (lookupOr (buildParentNodes (ns :: restL) out t []).2) out)
      (submodName t) t {} _ (freeRefs ns) ns []
      (by
        rw [hchild]
        simp [buildChild, hes, outSpecOf])
      (fun n hn => imgName_ne_submod t t n.name (hdone n hn).1)
    simp only [maybeInlineOrReplaceWithHop, hfind, hsub, Bool.false_eq_true, if_false]
    rw [show (done ++ (buildParentNodes (ns :: restL) out t []).1) =
      done ++ Node.callMod (submodName t) t (freeRefs ns) {} ::
        (buildParentNodes restL out (t + 1) []).1 from by rw [h1]]
    rw [hinline]
    simp only [exceptBindOk, h2]
    simp [buildChildren]
  · rcases hes1 : es1 with _ | ⟨b, es'⟩
    · -- single escaping value `a`
      rw [hes1] at hes
      refine ⟨[(submodName t, a)], ?_⟩
      have hamem : a ∈ ns.map Node.name :=
        escapes_sub ns restL.flatten out a (by simp [hes])
      have h1 : (buildParentNodes (ns :: restL) out t []).1 =
          Node.callMod (submodName t) t (freeRefs ns) {} ::
            (buildParentNodes restL out (t + 1) [(a, submodName t)]).1 := by
        rw [buildParentNodes_cons_single ns restL out t [] a hes, hargs]
        simp
      have h2 : (buildParentNodes (ns :: restL) out t []).2 =
          (a, submodName t) :: (buildParentNodes restL out (t + 1) []).2 := by
        rw [buildParentNodes_cons_single ns restL out t [] a hes]
        simp only [List.nil_append]
        rw [buildParentNodes_pm_ext restL out (t + 1) [(a, submodName t)]]
        rfl
      have hfind : (done ++ (buildParentNodes (ns :: restL) out t []).1).find?
          (fun n => n.name = submodName t) =
          some (.callMod (submodName t) t (freeRefs ns) {}) := by
        rw [h1, find?_name_append _ done _
          (fun n hn => imgName_ne_submod t t n.name (hdone n hn).1)]
        exact List.find?_cons_of_pos _ (by simp [Node.name])
      have hinline := nodeInline_single ins done
        ((buildParentNodes restL out (t + 1) [(a, submodName t)]).1)
        (outMapRefs (lookupOr (buildParentNodes (ns :: restL) out t []).2) out)
        (submodName t) t {} _ (freeRefs ns) ns a []
        (by
          rw [hchild]
          simp [buildChild, hes, outSpecOf])
        (fun n hn => imgName_ne_submod t t n.name (hdone n hn).1)
      simp only [maybeInlineOrReplaceWithHop, hfind, hsub, Bool.false_eq_true, if_false]
      rw [show (done ++ (buildParentNodes (ns :: restL) out t []).1) =
        done ++ Node.callMod (submodName t) t (freeRefs ns) {} ::
          (buildParentNodes restL out (t + 1) [(a, submodName t)]).1 from by rw [h1]]
      rw [hinline]
      simp only [exceptBindOk]
      have hmapdone : done.map (Node.mapRefs (substName (submodName t) a)) = done :=
        map_mapRefs_subst_id _ _ done
          (fun n hn => fun hr => (imgRef_ne_submod t t _ ((hdone n hn).2 _ hr)) rfl)
      have hmapns : ns.map (Node.mapRefs (substName (submodName t) a)) = ns :=
        map_mapRefs_subst_id _ _ ns
          (fun n hn => fun hr => percentFree_ne_submodName _ ((hpf1 n hn).2 _ hr) t rfl)
      have hunw := unwind_nodes_one restL out (t + 1) [] a (submodName t) hfree2
        (fun seg hs n hn => hdisj a hamem seg hs n hn)
        (by simp) (by simp)
        (fun u hu => fun he => by
          have := submodName_inj t u he
          omega)
        (fun u j hu => giName_ne_submodName u j t ∘ Eq.symm)
        (not_pf_submodName t)
      have hunwo : outMapRefs (substName (submodName t) a)
          (outMapRefs (lookupOr (buildParentNodes (ns :: restL) out t []).2) out) =
          outMapRefs (lookupOr (buildParentNodes restL out (t + 1) []).2) out := by
        rw [h2]
        exact unwind_out_one out _ a (submodName t) hopf
          (fun pr hpr => by
            obtain ⟨⟨seg, hs, hn⟩, _⟩ := hpmR pr hpr
            obtain ⟨n, hn2, he⟩ := List.mem_map.mp hn
            exact he ▸ hdisj a hamem seg hs n hn2)
          (fun pr hpr => genName_ne_submod (t + 1) t pr.2 (hpmR pr hpr).2 (by omega))
          (not_pf_submodName t)
      rw [show (done ++ (ns ++ (buildParentNodes restL out (t + 1) [(a, submodName t)]).1)) =
        done ++ ns ++ (buildParentNodes restL out (t + 1) [(a, submodName t)]).1 from by simp]
      rw [List.map_append, List.map_append, hmapdone, hmapns, hunw, hunwo]
      simp [buildChildren]
    · -- several escaping values
      rw [hes1] at hes
      set es : List String := a :: b :: es' with hesdef
      set k : Nat := es.length with hk
      refine ⟨(List.range k).map fun j => (giName t j, es.getD j ""), ?_⟩
      have hesmem : ∀ nm ∈ es, nm ∈ ns.map Node.name := by
        intro nm hnm
        exact escapes_sub ns restL.flatten out nm (by rw [hes]; exact hnm)
      have hesnodup : es.Nodup := by
        have := escapes_nodup ns restL.flatten out hnd1
        rw [hes] at this
        exact this
      have h1 : (buildParentNodes (ns :: restL) out t []).1 =
          Node.callMod (submodName t) t (freeRefs ns) {} ::
            (giNodes t es ++ (buildParentNodes restL out (t + 1) (giEntries t es)).1) := by
        rw [buildParentNodes_cons_multi ns restL out t [] a b es' hes, hargs]
        simp
      have h2 : (buildParentNodes (ns :: restL) out t []).2 =
          giEntries t es ++ (buildParentNodes restL out (t + 1) []).2 := by
        rw [buildParentNodes_cons_multi ns restL out t [] a b es' hes]
        simp only [List.nil_append]
        rw [buildParentNodes_pm_ext restL out (t + 1) (giEntries t es)]
      have hfind : (done ++ (buildParentNodes (ns :: restL) out t []).1).find?
          (fun n => n.name = submodName t) =
          some (.callMod (submodName t) t (freeRefs ns) {}) := by
        rw [h1, find?_name_append _ done _
          (fun n hn => imgName_ne_submod t t n.name (hdone n hn).1)]
        exact List.find?_cons_of_pos _ (by simp [Node.name])
      have houtspec : outSpecOf es = some (.tup ((List.range k).map fun j =>
          Arg.ref (es.getD j ""))) := by
        have h0 : outSpecOf es = some (.tup (es.map Arg.ref)) := by
          rw [hesdef]
          rfl
        rw [h0, map_eq_range_getD es "" Arg.ref, hk]
      have hQ2refs : ∀ n ∈ (buildParentNodes restL out (t + 1) (giEntries t es)).1,
          ∀ r ∈ n.argRefs,
          percentFree r ∨ (∃ pr ∈ giEntries t es, r = pr.2) ∨ genName (t + 1) r :=
        fun n hn r hr => pending_refs restL out (t + 1) (giEntries t es) n r hfree2 hn hr
      have hQ2names : ∀ n ∈ (buildParentNodes restL out (t + 1) (giEntries t es)).1,
          (∃ u, t + 1 ≤ u ∧ n.name = submodName u) ∨
          (∃ u j, t + 1 ≤ u ∧ n.name = giName u j) := by
        intro n hn
        rcases pending_names restL out (t + 1) (giEntries t es) n hn with
          ⟨u, hu, he⟩ | ⟨u, j, hu, he⟩
        · exact Or.inl ⟨u, hu, by rw [he]; rfl⟩
        · exact Or.inr ⟨u, j, hu, by rw [he]; rfl⟩
      have hinline := nodeInline_tuple ins done ns
        ((buildParentNodes restL out (t + 1) (giEntries t es)).1)
        (outMapRefs (lookupOr (buildParentNodes (ns :: restL) out t []).2) out)
        (submodName t) t {} _ (freeRefs ns) []
        k (fun j => es.getD j "") (fun j => giName t j) (fun _ => {})
        (by
          rw [hchild]
          simp only [buildChild, hes, houtspec])
        (fun n hn => ⟨imgName_ne_submod t t n.name (hdone n hn).1,
          fun hr => (imgRef_ne_submod t t _ ((hdone n hn).2 _ hr)) rfl⟩)
        (fun j hj n hn => ⟨imgName_ne_gi t t j n.name (hdone n hn).1,
          fun hr => (imgRef_ne_gi t t j _ ((hdone n hn).2 _ hr)) rfl⟩)
        (fun n hn hr => percentFree_ne_submodName _ ((hpf1 n hn).2 _ hr) t rfl)
        (fun j hj n hn => ⟨percentFree_ne_giName _ (hpf1 n hn).1 t j,
          fun hr => percentFree_ne_giName _ ((hpf1 n hn).2 _ hr) t j rfl⟩)
        (fun n hn hr => by
          rcases hQ2refs n hn _ hr with h | ⟨pr, hpr, he⟩ | h
          · exact percentFree_ne_submodName _ h t rfl
          · simp only [giEntries] at hpr
            obtain ⟨j, hj, rfl⟩ := List.mem_map.mp hpr
            exact giName_ne_submodName t j t (he ▸ rfl)
          · exact genName_ne_submod (t + 1) t _ h (by omega) rfl)
        (fun j hj n hn => by
          rcases hQ2names n hn with ⟨u, hu, he⟩ | ⟨u, j', hu, he⟩
          · rw [he]
            exact fun h => giName_ne_submodName t j u h.symm
          · rw [he]
            intro h
            have := (giName_inj u j' t j h).1
            omega)
        (nodup_giName_range t k)
        (fun j hj => Ne.symm (giName_ne_submodName t j t))
      -- assemble the step
      simp only [maybeInlineOrReplaceWithHop, hfind, hsub, Bool.false_eq_true, if_false]
      rw [show (done ++ (buildParentNodes (ns :: restL) out t []).1) =
        done ++ Node.callMod (submodName t) t (freeRefs ns) {} ::
          (giNodes t es ++ (buildParentNodes restL out (t + 1) (giEntries t es)).1)
        from by rw [h1]]
      rw [show giNodes t es = (List.range k).map fun j =>
        Node.getitem (giName t j) (submodName t) j {} from rfl]
      simp only [] at hinline
      rw [hinline]
      simp only [exceptBindOk]
      have hpairs : ((List.range k).map fun j => (giName t j, es.getD j "")) =
          (giEntries t es).map Prod.swap := (giEntries_swap t es).symm
      rw [hpairs]
      have hEfst : ((giEntries t es).map Prod.fst).Nodup := by
        rw [giEntries_fst]
        exact hesnodup
      have hEsnd : ((giEntries t es).map Prod.snd).Nodup := by
        rw [giEntries_snd]
        exact nodup_giName_range t es.length
      have hEkey : ∀ q ∈ giEntries t es, q.1 ∈ es := by
        intro q hq
        simp only [giEntries] at hq
        obtain ⟨j, hj, rfl⟩ := List.mem_map.mp hq
        exact getD_mem_of_lt _ j "" (by simpa using List.mem_range.mp hj)
      have hEgen : ∀ q ∈ giEntries t es,
          (∀ u, t + 1 ≤ u → q.2 ≠ submodName u) ∧
          (∀ u j', t + 1 ≤ u → q.2 ≠ giName u j') ∧ ¬ percentFree q.2 := by
        intro q hq
        simp only [giEntries] at hq
        obtain ⟨j, hj, rfl⟩ := List.mem_map.mp hq
        refine ⟨fun u _ => giName_ne_submodName t j u, fun u j' hu he => ?_, not_pf_giName t j⟩
        have := (giName_inj t j u j' he).1
        omega
      have hunwN : ((buildParentNodes restL out (t + 1) (giEntries t es)).1).map
          (substSeq ((giEntries t es).map Prod.swap)) =
          (buildParentNodes restL out (t + 1) []).1 := by
        have h := unwind_nodes_many (giEntries t es) restL out (t + 1) [] hfree2
          (fun seg hs n hn q hq => hdisj q.1 (hesmem q.1 (hEkey q hq)) seg hs n hn)
          (by simp) (by simp) hEgen hEfst hEsnd
        simpa using h
      have hunwO : substSeqOut ((giEntries t es).map Prod.swap)
          (outMapRefs (lookupOr (buildParentNodes (ns :: restL) out t []).2) out) =
          outMapRefs (lookupOr (buildParentNodes restL out (t + 1) []).2) out := by
        rw [h2]
        exact unwind_out_many (giEntries t es) _ out hopf
          (fun pr hpr q hq => by
            obtain ⟨⟨seg, hs, hn⟩, _⟩ := hpmR pr hpr
            obtain ⟨n, hn2, he⟩ := List.mem_map.mp hn
            exact he ▸ hdisj q.1 (hesmem q.1 (hEkey q hq)) seg hs n hn2)
          (fun pr hpr q hq => by
            have hgen := (hpmR pr hpr).2
            simp only [giEntries] at hq
            obtain ⟨j, hj, rfl⟩ := List.mem_map.mp hq
            exact genName_ne_gi (t + 1) t j pr.2 hgen (by omega))
          (fun q hq => (hEgen q hq).2.2) hEfst hEsnd
      rw [hunwN, hunwO]
      simp [buildChildren]

/-- One processing step on a region segment with several escaping values: the
call is found, the submodule is an autocast region, and the replacement yields
the `get_attr`, the wrap node and the renamed extractions, unwinding the
region's proxies in the pending suffix and the output, and erasing the markers
from the child. -/
lemma step_region (out : Option OutArgs) (t : Nat) (ins : List String) (done : List Node)
    (A : List GraphModule) (log0 : List (String × String))
    (en : String) (ps : List Nat) (em : Meta) (mid : List Node) (ex : String) (xm : Meta)
    (restL : List (List Node))
    (hA : A.length = t)
    (hdone : ∀ n ∈ done, imgName t n.name ∧ ∀ r ∈ n.argRefs, imgRef t r)
    (hcomp : ∀ n ∈ mid, isComputeNode n = true)
    (hpfR : ∀ n ∈ (Node.enterA en ps em :: mid ++ [Node.exitA ex en xm]),
      percentFree n.name ∧ ∀ r ∈ n.argRefs, percentFree r)
    (hpf2 : ∀ seg ∈ restL, ∀ n ∈ seg, percentFree n.name ∧ ∀ r ∈ n.argRefs, percentFree r)
    (hopf : ∀ r ∈ outRefs out, percentFree r)
    (hndR : (((Node.enterA en ps em :: mid ++ [Node.exitA ex en xm])).map Node.name).Nodup)
    (hdisj : ∀ nm ∈ ((Node.enterA en ps em :: mid ++ [Node.exitA ex en xm])).map Node.name,
      ∀ seg ∈ restL, ∀ n ∈ seg, n.name ≠ nm)
    (hbig : 2 ≤ (escapes (Node.enterA en ps em :: mid ++ [Node.exitA ex en xm])
      restL.flatten out).length)
    (hmk : ∀ n ∈ mid, en ∉ n.argRefs ∧ ex ∉ n.argRefs)
    (hmen : en ∉ usedNames restL.flatten out)
    (hmex : ex ∉ usedNames restL.flatten out) :
    ∃ lg, maybeInlineOrReplaceWithHop
      (⟨ins, done ++ (buildParentNodes
          ((Node.enterA en ps em :: mid ++ [Node.exitA ex en xm]) :: restL) out t []).1,
        outMapRefs (lookupOr (buildParentNodes
          ((Node.enterA en ps em :: mid ++ [Node.exitA ex en xm]) :: restL) out t []).2) out⟩,
       A ++ (buildChildren
          ((Node.enterA en ps em :: mid ++ [Node.exitA ex en xm]) :: restL) out).map
          (fun c => GraphModule.mk c []),
       log0) (submodName t) =
    .ok (⟨ins, (done ++ segImage t (.region en ps em mid ex xm) restL.flatten out) ++
          (buildParentNodes restL out (t + 1) []).1,
          outMapRefs (lookupOr (buildParentNodes restL out (t + 1) []).2) out⟩,
         (A ++ [erasedChild (.region en ps em mid ex xm) restL.flatten out]) ++
           (buildChildren restL out).map (fun c => GraphModule.mk c []),
         log0 ++ lg) := by
  set Rn : List Node := Node.enterA en ps em :: mid ++ [Node.exitA ex en xm] with hRn
  have hargs := map_lookupOr_nil (freeRefs Rn)
  have hfree2 : ∀ seg ∈ restL, ∀ x ∈ freeRefs seg, percentFree x :=
    fun seg hs => freeRefs_pf seg (fun n hn => (hpf2 seg hs n hn).2)
  have hfreeR : ∀ x ∈ freeRefs Rn, percentFree x :=
    freeRefs_pf Rn (fun n hn => (hpfR n hn).2)
  have hchild : (A ++ (buildChildren (Rn :: restL) out).map
      (fun c => GraphModule.mk c [])).get? t =
      some (.mk (buildChild Rn restL.flatten out) []) := by
    rw [← hA, get?_append_len]
    rfl
  have hsub : isAutocastSubMod
      (A ++ (buildChildren (Rn :: restL) out).map (fun c => GraphModule.mk c []))
      (.callMod (submodName t) t (freeRefs Rn) {}) = true := by
    rw [isAutocastSubMod_eval _ _ _ _ _ _ hchild]
    rfl
  have hpmR : ∀ pr ∈ (buildParentNodes restL out (t + 1) []).2,
      (∃ seg ∈ restL, pr.1 ∈ seg.map Node.name) ∧ genName (t + 1) pr.2 := by
    intro pr hpr
    rcases pending_pm_keys restL out (t + 1) [] pr hpr with h | h
    · simp at h
    · exact h
  -- marker name facts
  have hndR2 : (en :: (List.map Node.name mid ++ [ex])).Nodup := by
    have h := hndR
    have he : Rn.map Node.name = en :: (List.map Node.name mid ++ [ex]) := by
      rw [hRn]
      simp [Node.name]
    rwa [he] at h
  have hnex : en ≠ ex := by
    have h1 := (List.nodup_cons.mp hndR2).1
    intro he
    exact h1 (by simp [he])
  have hnamesMid : ∀ n ∈ mid, n.name ≠ en ∧ n.name ≠ ex := by
    intro n hn
    have h1 := (List.nodup_cons.mp hndR2).1
    have h2 := (List.nodup_cons.mp hndR2).2
    constructor
    · intro he
      exact h1 (List.mem_append.mpr (Or.inl (List.mem_map.mpr ⟨n, hn, he⟩)))
    · intro he
      exact (List.nodup_append.mp h2).2.2 (List.mem_map.mpr ⟨n, hn, rfl⟩) (by simp [he])
  -- escaping values
  rcases hes0 : escapes Rn restL.flatten out with _ | ⟨a, rest1⟩
  · rw [hes0] at hbig; simp at hbig
  rcases hes1 : rest1 with _ | ⟨b, es'⟩
  · rw [hes0, hes1] at hbig; simp at hbig
  rw [hes1] at hes0
  have hes : escapes Rn restL.flatten out = a :: b :: es' := hes0
  set es : List String := a :: b :: es' with hesdef
  set k : Nat := es.length with hk
  refine ⟨[(submodName t, wrapGenName t)], ?_⟩
  have hesmem : ∀ nm ∈ es, nm ∈ Rn.map Node.name := by
    intro nm hnm
    exact escapes_sub Rn restL.flatten out nm (by rw [hes]; exact hnm)
  have hespf : ∀ nm ∈ es, percentFree nm := by
    intro nm hnm
    obtain ⟨n, hn, he⟩ := List.mem_map.mp (hesmem nm hnm)
    exact he ▸ (hpfR n hn).1
  have hesused : ∀ nm ∈ es, nm ∈ usedNames restL.flatten out := by
    intro nm hnm
    exact escapes_used Rn restL.flatten out nm (by rw [hes]; exact hnm)
  have hesnodup : es.Nodup := by
    have := escapes_nodup Rn restL.flatten out hndR
    rw [hes] at this
    exact this
  have h1 : (buildParentNodes (Rn :: restL) out t []).1 =
      Node.callMod (submodName t) t (freeRefs Rn) {} ::
        (giNodes t es ++ (buildParentNodes restL out (t + 1) (giEntries t es)).1) := by
    rw [buildParentNodes_cons_multi Rn restL out t [] a b es' hes, hargs]
    simp
  have h2 : (buildParentNodes (Rn :: restL) out t []).2 =
      giEntries t es ++ (buildParentNodes restL out (t + 1) []).2 := by
    rw [buildParentNodes_cons_multi Rn restL out t [] a b es' hes]
    simp only [List.nil_append]
    rw [buildParentNodes_pm_ext restL out (t + 1) (giEntries t es)]
  have hfind : (done ++ (buildParentNodes (Rn :: restL) out t []).1).find?
      (fun n => n.name = submodName t) =
      some (.callMod (submodName t) t (freeRefs Rn) {}) := by
    rw [h1, find?_name_append _ done _
      (fun n hn => imgName_ne_submod t t n.name (hdone n hn).1)]
    exact List.find?_cons_of_pos _ (by simp [Node.name])
  have houtspec : outSpecOf es = some (.tup ((List.range k).map fun j =>
      Arg.ref (es.getD j ""))) := by
    have h0 : outSpecOf es = some (.tup (es.map Arg.ref)) := by
      rw [hesdef]
      rfl
    rw [h0, map_eq_range_getD es "" Arg.ref, hk]
  have hQ2refs : ∀ n ∈ (buildParentNodes restL out (t + 1) (giEntries t es)).1,
      ∀ r ∈ n.argRefs,
      percentFree r ∨ (∃ pr ∈ giEntries t es, r = pr.2) ∨ genName (t + 1) r :=
    fun n hn r hr => pending_refs restL out (t + 1) (giEntries t es) n r hfree2 hn hr
  have hQ2names : ∀ n ∈ (buildParentNodes restL out (t + 1) (giEntries t es)).1,
      (∃ u, t + 1 ≤ u ∧ n.name = submodName u) ∨
      (∃ u j, t + 1 ≤ u ∧ n.name = giName u j) := by
    intro n hn
    rcases pending_names restL out (t + 1) (giEntries t es) n hn with
      ⟨u, hu, he⟩ | ⟨u, j, hu, he⟩
    · exact Or.inl ⟨u, hu, by rw [he]; rfl⟩
    · exact Or.inr ⟨u, j, hu, by rw [he]; rfl⟩
  have houtcur : ∀ r ∈ outRefs (outMapRefs
      (lookupOr (buildParentNodes (Rn :: restL) out t []).2) out),
      percentFree r ∨ (∃ pr ∈ giEntries t es, r = pr.2) ∨ genName (t + 1) r := by
    intro r hr
    rw [outRefs_outMapRefs] at hr
    obtain ⟨r0, hr0, rfl⟩ := List.mem_map.mp hr
    rcases lookupOr_mem_or (buildParentNodes (Rn :: restL) out t []).2 r0 with he | ⟨pr, hpr, he⟩
    · rw [he]; exact Or.inl (hopf r0 hr0)
    · rw [he]
      rw [h2] at hpr
      rcases List.mem_append.mp hpr with hin | hin
      · exact Or.inr (Or.inl ⟨pr, hin, rfl⟩)
      · exact Or.inr (Or.inr (hpmR pr hin).2)
  have hstep := hopTupleStep ins done
    ((buildParentNodes restL out (t + 1) (giEntries t es)).1)
    (outMapRefs (lookupOr (buildParentNodes (Rn :: restL) out t []).2) out)
    (submodName t) t (freeRefs Rn) {} _ (freeRefs Rn) en ex ps em xm mid []
    k (fun j => es.getD j "") (fun j => findNodeD Rn (es.getD j ""))
    (fun j => giName t j) (fun _ => {})
    (by
      rw [hchild]
      simp only [buildChild, hes0, houtspec])
    hcomp hnamesMid hmk hnex
    (fun j hj => find?_findNodeD Rn (es.getD j "")
      (hesmem _ (getD_mem_of_lt es j "" (by omega))))
    (fun j hj => by
      have hu := hesused _ (getD_mem_of_lt es j "" (by omega))
      exact ⟨fun he => hmen (he ▸ hu), fun he => hmex (he ▸ hu)⟩)
    (fun n hn => ⟨imgName_ne_submod t t n.name (hdone n hn).1,
      fun hr => (imgRef_ne_submod t t _ ((hdone n hn).2 _ hr)) rfl,
      fun hr => (imgRef_ne_wrap_ge t t _ ((hdone n hn).2 _ hr) (le_refl t)) rfl⟩)
    (fun j hj n hn => ⟨imgName_ne_gi t t j n.name (hdone n hn).1,
      fun hr => (imgRef_ne_gi t t j _ ((hdone n hn).2 _ hr)) rfl⟩)
    (fun n hn => by
      constructor
      · intro hr
        rcases hQ2refs n hn _ hr with h | ⟨pr, hpr, he⟩ | h
        · exact percentFree_ne_submodName _ h t rfl
        · simp only [giEntries] at hpr
          obtain ⟨j, hj, rfl⟩ := List.mem_map.mp hpr
          exact giName_ne_submodName t j t (he ▸ rfl)
        · exact genName_ne_submod (t + 1) t _ h (by omega) rfl
      · intro hr
        rcases hQ2refs n hn _ hr with h | ⟨pr, hpr, he⟩ | h
        · exact percentFree_ne_wrapGenName _ h t rfl
        · simp only [giEntries] at hpr
          obtain ⟨j, hj, rfl⟩ := List.mem_map.mp hpr
          exact wrapGenName_ne_giName t t j he
        · exact genName_ne_wrap (t + 1) t _ h rfl)
    (fun j hj n hn => by
      rcases hQ2names n hn with ⟨u, hu, he⟩ | ⟨u, j', hu, he⟩
      · rw [he]
        exact fun h => giName_ne_submodName t j u h.symm
      · rw [he]
        intro h
        have := (giName_inj u j' t j h).1
        omega)
    (⟨fun hr => percentFree_ne_submodName _ (hfreeR _ hr) t rfl,
      fun hr => percentFree_ne_wrapGenName _ (hfreeR _ hr) t rfl⟩)
    (fun j hj hr => percentFree_ne_giName _ (hfreeR _ hr) t j rfl)
    (nodup_giName_range t k)
    (fun j hj i hi => percentFree_ne_giName _
      (hespf _ (getD_mem_of_lt es i "" (by omega))) t j)
    (fun j hj => wrapGenName_ne_giName t t j)
    (fun j hj => gaName_ne_giName t t j ∘ Eq.symm)
    (by
      constructor
      · intro hr
        rcases houtcur _ hr with h | ⟨pr, hpr, he⟩ | h
        · exact percentFree_ne_submodName _ h t rfl
        · simp only [giEntries] at hpr
          obtain ⟨j, hj, rfl⟩ := List.mem_map.mp hpr
          exact giName_ne_submodName t j t (he ▸ rfl)
        · exact genName_ne_submod (t + 1) t _ h (by omega) rfl
      · intro hr
        rcases houtcur _ hr with h | ⟨pr, hpr, he⟩ | h
        · exact percentFree_ne_wrapGenName _ h t rfl
        · simp only [giEntries] at hpr
          obtain ⟨j, hj, rfl⟩ := List.mem_map.mp hpr
          exact wrapGenName_ne_giName t t j he
        · exact genName_ne_wrap (t + 1) t _ h rfl)
  -- assemble the step
  simp only [maybeInlineOrReplaceWithHop, hfind, hsub, if_true]
  rw [show (done ++ (buildParentNodes (Rn :: restL) out t []).1) =
    done ++ Node.callMod (submodName t) t (freeRefs Rn) {} ::
      (giNodes t es ++ (buildParentNodes restL out (t + 1) (giEntries t es)).1)
    from by rw [h1]]
  rw [show giNodes t es = (List.range k).map fun j =>
    Node.getitem (giName t j) (submodName t) j {} from rfl]
  simp only [] at hstep
  rw [hstep]
  simp only [exceptBindOk]
  have hpairs : ((List.range k).map fun j => (giName t j, es.getD j "")) =
      (giEntries t es).map Prod.swap := (giEntries_swap t es).symm
  rw [hpairs]
  have hEfst : ((giEntries t es).map Prod.fst).Nodup := by
    rw [giEntries_fst]
    exact hesnodup
  have hEsnd : ((giEntries t es).map Prod.snd).Nodup := by
    rw [giEntries_snd]
    exact nodup_giName_range t es.length
  have hEkey : ∀ q ∈ giEntries t es, q.1 ∈ es := by
    intro q hq
    simp only [giEntries] at hq
    obtain ⟨j, hj, rfl⟩ := List.mem_map.mp hq
    exact getD_mem_of_lt _ j "" (by simpa using List.mem_range.mp hj)
  have hEgen : ∀ q ∈ giEntries t es,
      (∀ u, t + 1 ≤ u → q.2 ≠ submodName u) ∧
      (∀ u j', t + 1 ≤ u → q.2 ≠ giName u j') ∧ ¬ percentFree q.2 := by
    intro q hq
    simp only [giEntries] at hq
    obtain ⟨j, hj, rfl⟩ := List.mem_map.mp hq
    refine ⟨fun u _ => giName_ne_submodName t j u, fun u j' hu he => ?_, not_pf_giName t j⟩
    have := (giName_inj t j u j' he).1
    omega
  have hunwN : ((buildParentNodes restL out (t + 1) (giEntries t es)).1).map
      (substSeq ((giEntries t es).map Prod.swap)) =
      (buildParentNodes restL out (t + 1) []).1 := by
    have h := unwind_nodes_many (giEntries t es) restL out (t + 1) [] hfree2
      (fun seg hs n hn q hq => hdisj q.1 (hesmem q.1 (hEkey q hq)) seg hs n hn)
      (by simp) (by simp) hEgen hEfst hEsnd
    simpa using h
  have hunwO : substSeqOut ((giEntries t es).map Prod.swap)
      (outMapRefs (lookupOr (buildParentNodes (Rn :: restL) out t []).2) out) =
      outMapRefs (lookupOr (buildParentNodes restL out (t + 1) []).2) out := by
    rw [h2]
    exact unwind_out_many (giEntries t es) _ out hopf
      (fun pr hpr q hq => by
        obtain ⟨⟨seg, hs, hn⟩, _⟩ := hpmR pr hpr
        obtain ⟨n, hn2, he⟩ := List.mem_map.mp hn
        exact he ▸ hdisj q.1 (hesmem q.1 (hEkey q hq)) seg hs n hn2)
      (fun pr hpr q hq => by
        have hgen := (hpmR pr hpr).2
        simp only [giEntries] at hq
        obtain ⟨j, hj, rfl⟩ := List.mem_map.mp hq
        exact genName_ne_gi (t + 1) t j pr.2 hgen (by omega))
      (fun q hq => (hEgen q hq).2.2) hEfst hEsnd
  rw [hunwN, hunwO]
  -- the produced image coincides with the declared segment image
  have himg : segImage t (.region en ps em mid ex xm) restL.flatten out =
      Node.getAttr (gaName t) t ⟨.noneM, em.nnModuleStack, none⟩ ::
      Node.wrapA (wrapGenName t) ps t (freeRefs Rn)
        ⟨.tupM ((List.range k).map fun j => (findNodeD Rn (es.getD j "")).meta.val),
         em.nnModuleStack, some wrapTorchFn⟩ ::
      ((List.range k).map fun j =>
        Node.getitem (es.getD j "") (wrapGenName t) j (findNodeD Rn (es.getD j "")).meta) := by
    simp only [segImage]
    rw [show (Node.enterA en ps em :: (mid ++ [Node.exitA ex en xm])) = Rn from by
      rw [hRn]; simp]
    rw [hes]
  rw [himg]
  -- the erased child coincides with the declared final child
  have hchildfin : GraphModule.mk
      (⟨freeRefs Rn, mid, some (.tup ((List.range k).map fun j =>
        Arg.ref (es.getD j "")))⟩ : Graph) [] =
      erasedChild (.region en ps em mid ex xm) restL.flatten out := by
    simp only [erasedChild]
    rw [show SegDesc.nodes (SegDesc.region en ps em mid ex xm) = Rn from by rw [hRn]; rfl]
    rw [hes0, houtspec]
  rw [show (A ++ (buildChildren (Rn :: restL) out).map (fun c => GraphModule.mk c [])) =
    A ++ (GraphModule.mk (buildChild Rn restL.flatten out) [] ::
      (buildChildren restL out).map (fun c => GraphModule.mk c [])) from rfl]
  rw [← hA, set_append_len]
  simp only [List.set_cons_zero]
  rw [hchildfin]
  simp

/-- The processing loop over the segments of the split parent: every plain
segment is inlined back verbatim, every region is replaced by its `get_attr`,
wrap node and renamed extractions; the proxies are fully unwound, so the final
parent carries the original output argument. -/
lemma processLoop (segs : List SegDesc) :
    ∀ (out : Option OutArgs) (t : Nat) (ins : List String) (done : List Node)
      (A : List GraphModule) (log0 : List (String × String)),
    A.length = t →
    (∀ n ∈ done, imgName t n.name ∧ ∀ r ∈ n.argRefs, imgRef t r) →
    segsContentOK segs →
    (∀ n ∈ segsNodes segs, percentFree n.name ∧ ∀ r ∈ n.argRefs, percentFree r) →
    (∀ r ∈ outRefs out, percentFree r) →
    ((segsNodes segs).map Node.name).Nodup →
    regionsEscapeBig segs out →
    markersOK segs out →
    ∃ log', (((List.range' t segs.length).map submodName).foldlM maybeInlineOrReplaceWithHop
      (⟨ins, done ++ (buildParentNodes (segs.map SegDesc.nodes) out t []).1,
        outMapRefs (lookupOr (buildParentNodes (segs.map SegDesc.nodes) out t []).2) out⟩,
       A ++ (buildChildren (segs.map SegDesc.nodes) out).map (fun c => GraphModule.mk c []),
       log0)) =
      .ok (⟨ins, done ++ buildFinalNodes segs out t, out⟩,
           A ++ finalChildren segs out, log') := by
  induction segs with
  | nil =>
    intro out t ins done A log0 _ _ _ _ _ _ _ _
    refine ⟨log0, ?_⟩
    simp only [List.length_nil, List.map_nil]
    rw [show List.range' t 0 = [] from rfl]
    simp only [List.map_nil, List.foldlM_nil]
    rw [show (buildParentNodes ([] : List (List Node)) out t []) =
      (([] : List Node), ([] : List (String × String))) from rfl]
    rw [show lookupOr [] = id from funext lookupOr_nil, outMapRefs_id]
    simp only [buildFinalNodes, finalChildren, buildChildren, List.map_nil,
      List.append_nil]
    rfl
  | cons s rest ihseg =>
    intro out t ins done A log0 hA hdone hcontent hpf hopf hnodup hbig hmarkers
    have hsplit : segsNodes (s :: rest) = SegDesc.nodes s ++ segsNodes rest := by
      simp [segsNodes]
    have hpf1 : ∀ n ∈ SegDesc.nodes s, percentFree n.name ∧ ∀ r ∈ n.argRefs, percentFree r :=
      fun n hn => hpf n (by rw [hsplit]; exact List.mem_append.mpr (Or.inl hn))
    have hpf2' : ∀ n ∈ segsNodes rest, percentFree n.name ∧ ∀ r ∈ n.argRefs, percentFree r :=
      fun n hn => hpf n (by rw [hsplit]; exact List.mem_append.mpr (Or.inr hn))
    have hmemrest : ∀ seg ∈ rest.map SegDesc.nodes, ∀ n ∈ seg, n ∈ segsNodes rest := by
      intro seg hs n hn
      simp only [segsNodes, List.mem_flatten]
      exact ⟨seg, hs, hn⟩
    have hpf2 : ∀ seg ∈ rest.map SegDesc.nodes, ∀ n ∈ seg,
        percentFree n.name ∧ ∀ r ∈ n.argRefs, percentFree r :=
      fun seg hs n hn => hpf2' n (hmemrest seg hs n hn)
    rw [hsplit, List.map_append] at hnodup
    have hnd1 := (List.nodup_append.mp hnodup).1
    have hnd2 := (List.nodup_append.mp hnodup).2.1
    have hdisjnames := (List.nodup_append.mp hnodup).2.2
    have hdisj : ∀ nm ∈ (SegDesc.nodes s).map Node.name, ∀ seg ∈ rest.map SegDesc.nodes,
        ∀ n ∈ seg, n.name ≠ nm := by
      intro nm hnm seg hs n hn he
      exact hdisjnames hnm (List.mem_map.mpr ⟨n, hmemrest seg hs n hn, he⟩)
    rw [show List.range' t (s :: rest).length = t :: List.range' (t + 1) rest.length from by
      simp [List.range'_succ]]
    simp only [List.map_cons, List.foldlM_cons]
    cases s with
    | plain ns =>
      obtain ⟨hne, hcomp, hcontent'⟩ := hcontent
      obtain ⟨lg, hstep⟩ := step_plain out t ins done A log0 ns (rest.map SegDesc.nodes)
        hA hdone hne hcomp
        (by simpa [SegDesc.nodes] using hpf1) hpf2 hopf
        (by simpa [SegDesc.nodes] using hnd1)
        (by simpa [SegDesc.nodes] using hdisj)
      obtain ⟨log', hrest⟩ := ihseg out (t + 1) ins (done ++ ns)
        (A ++ [GraphModule.mk (buildChild ns (rest.map SegDesc.nodes).flatten out) []])
        (log0 ++ lg)
        (by simp [hA])
        (by
          intro n hn
          rcases List.mem_append.mp hn with h | h
          · exact ⟨imgName_mono t _ (hdone n h).1,
              fun r hr => imgRef_mono t r ((hdone n h).2 r hr)⟩
          · have := hpf1 n (by simpa [SegDesc.nodes] using h)
            exact ⟨Or.inl this.1, fun r hr => Or.inl (this.2 r hr)⟩)
        hcontent' hpf2' hopf hnd2 hbig hmarkers
      simp only [List.map_cons, SegDesc.nodes]
      rw [hstep]
      simp only [exceptBindOk]
      rw [hrest]
      refine ⟨log', ?_⟩
      simp only [buildFinalNodes, finalChildren, segImage, erasedChild]
      simp [List.append_assoc]
    | region en ps em mid ex xm =>
      obtain ⟨hcomp, hcontent'⟩ := hcontent
      obtain ⟨hbig1, hbig'⟩ := hbig
      obtain ⟨hmk, hmen, hmex, hmarkers'⟩ := hmarkers
      obtain ⟨lg, hstep⟩ := step_region out t ins done A log0 en ps em mid ex xm
        (rest.map SegDesc.nodes)
        hA hdone hcomp
        (by simpa [SegDesc.nodes] using hpf1) hpf2 hopf
        (by simpa [SegDesc.nodes] using hnd1)
        (by simpa [SegDesc.nodes] using hdisj)
        (by simpa [SegDesc.nodes] using hbig1)
        hmk hmen hmex
      obtain ⟨log', hrest⟩ := ihseg out (t + 1) ins
        (done ++ segImage t (.region en ps em mid ex xm) (rest.map SegDesc.nodes).flatten out)
        (A ++ [erasedChild (.region en ps em mid ex xm) (rest.map SegDesc.nodes).flatten out])
        (log0 ++ lg)
        (by simp [hA])
        (by
          intro n hn
          rcases List.mem_append.mp hn with h | h
          · exact ⟨imgName_mono t _ (hdone n h).1,
              fun r hr => imgRef_mono t r ((hdone n h).2 r hr)⟩
          · simp only [segImage, List.mem_cons] at h
            rcases h with rfl | rfl | h
            · exact ⟨Or.inr ⟨t, by omega, Or.inl rfl⟩, fun r hr => by
                simp [Node.argRefs] at hr⟩
            · refine ⟨Or.inr ⟨t, by omega, Or.inr rfl⟩, fun r hr => ?_⟩
              simp only [Node.argRefs] at hr
              exact Or.inl (freeRefs_pf _ (fun n2 hn2 =>
                (hpf1 n2 (by simpa [SegDesc.nodes] using hn2)).2) r hr)
            · obtain ⟨j, hj, rfl⟩ := List.mem_map.mp h
              constructor
              · refine Or.inl ?_
                show percentFree (Node.getitem _ _ _ _).name
                have hmem := getD_mem_of_lt
                  (escapes (Node.enterA en ps em :: (mid ++ [Node.exitA ex en xm]))
                    (rest.map SegDesc.nodes).flatten out) j ""
                  (by simpa using List.mem_range.mp hj)
                obtain ⟨n2, hn2, he⟩ := List.mem_map.mp
                  (escapes_sub _ _ _ _ hmem)
                exact he ▸ (hpf1 n2 (by simpa [SegDesc.nodes] using hn2)).1
              · intro r hr
                simp only [Node.argRefs, List.mem_singleton] at hr
                exact Or.inr ⟨t, by omega, hr⟩)
        hcontent' hpf2' hopf hnd2 hbig' hmarkers'
      simp only [List.map_cons, SegDesc.nodes]
      rw [hstep]
      simp only [exceptBindOk]
      rw [hrest]
      refine ⟨log', ?_⟩
      simp only [buildFinalNodes, finalChildren]
      simp [List.append_assoc]

/-- `_split_autocast` on a well-formed segment decomposition produces exactly the
per-segment submodules and the proxied parent wiring. -/
lemma splitAutocast_segs (ins : List String) (segs : List SegDesc) (out : Option OutArgs)
    (hOK : segsOK segs) :
    splitAutocast ⟨ins, segsNodes segs, out⟩ =
      .ok (.mk ⟨ins, (buildParentNodes (segs.map SegDesc.nodes) out 0 []).1,
             outMapRefs (lookupOr (buildParentNodes (segs.map SegDesc.nodes) out 0 []).2) out⟩
           ((buildChildren (segs.map SegDesc.nodes) out).map (fun c => GraphModule.mk c []))) := by
  simp only [splitAutocast]
  rw [show initSplitState = (⟨[], false⟩ : SplitState) from rfl]
  rw [run_segs segs false hOK.1]
  simp only [exceptBindOk]
  simp only [sequentialSplitModel]
  rw [groupByFlags_segs segs hOK]

/-- An ordinary computation is not an autocast marker. -/
lemma compute_not_marker (n : Node) (h : isComputeNode n = true) :
    isAutocastNode n = false := by
  match n, h with
  | .compute nm f args m, _ => rfl

/-- Each final child module is recursively free of autocast markers. -/
lemma finalChildren_markerFree (segs : List SegDesc) :
    ∀ (out : Option OutArgs) (fuel : Nat), segsContentOK segs →
    ∀ c ∈ finalChildren segs out, markerFreeRec (fuel + 1) c = true := by
  induction segs with
  | nil => intro out fuel _ c hc; simp [finalChildren] at hc
  | cons s rest ih =>
    intro out fuel hcontent c hc
    simp only [finalChildren, List.mem_cons] at hc
    rcases hc with rfl | hc
    · cases s with
      | plain ns =>
        obtain ⟨_, hcomp, _⟩ := hcontent
        simp only [erasedChild, buildChild, markerFreeRec, Bool.and_eq_true, List.all_eq_true]
        exact ⟨fun n hn => by simp [compute_not_marker n (hcomp n hn)], fun c hc => by
          simp at hc⟩
      | region en ps em mid ex xm =>
        obtain ⟨hcomp, _⟩ := hcontent
        simp only [erasedChild, markerFreeRec, Bool.and_eq_true, List.all_eq_true]
        exact ⟨fun n hn => by simp [compute_not_marker n (hcomp n hn)], fun c hc => by
          simp at hc⟩
    · cases s with
      | plain ns => exact ih out fuel hcontent.2.2 c hc
      | region en ps em mid ex xm => exact ih out fuel hcontent.2 c hc

/-- The split-and-process helper on a well-formed one-or-more-segment graph with
no signature: split, then process every submodule call, producing the final
parent and children. -/
lemma helperPipeline (ins : List String) (segs : List SegDesc) (out : Option OutArgs)
    (hOK : segsOK segs)
    (hpf : ∀ n ∈ segsNodes segs, percentFree n.name ∧ ∀ r ∈ n.argRefs, percentFree r)
    (hopf : ∀ r ∈ outRefs out, percentFree r)
    (hnodup : ((segsNodes segs).map Node.name).Nodup)
    (hbig : regionsEscapeBig segs out)
    (hmk : markersOK segs out)
    (hany : (segsNodes segs).any isAutocastNode = true) :
    sequentialSplitAndMaybeInlineSubgraphs (.mk ⟨ins, segsNodes segs, out⟩ []) none =
      .ok (.mk ⟨ins, buildFinalNodes segs out 0, out⟩ (finalChildren segs out), none) := by
  obtain ⟨log', hloop⟩ := processLoop segs out 0 ins [] [] []
    rfl (by simp) hOK.1 hpf hopf hnodup hbig hmk
  simp only [List.nil_append] at hloop
  simp only [sequentialSplitAndMaybeInlineSubgraphs, GraphModule.graph, hany]
  rw [splitAutocast_segs ins segs out hOK]
  simp only [exceptBindOk, GraphModule.graph, GraphModule.children]
  rw [callModNames_buildParent (segs.map SegDesc.nodes) out 0 []]
  rw [show (segs.map SegDesc.nodes).length = segs.length from by simp]
  rw [hloop]
  simp only [exceptBindOk]
  rfl

/-- The full pass on a well-formed one-region graph module with no children and
no signature: the helper performs the rewrite, the recursion leaves the final
(marker-free) children untouched. -/
lemma passPipeline (fuel : Nat) (ins : List String) (segs : List SegDesc)
    (out : Option OutArgs)
    (hOK : segsOK segs)
    (hpf : ∀ n ∈ segsNodes segs, percentFree n.name ∧ ∀ r ∈ n.argRefs, percentFree r)
    (hopf : ∀ r ∈ outRefs out, percentFree r)
    (hnodup : ((segsNodes segs).map Node.name).Nodup)
    (hbig : regionsEscapeBig segs out)
    (hmk : markersOK segs out)
    (hany : (segsNodes segs).any isAutocastNode = true) :
    replaceAutocastWithHopPass (fuel + 2) (.mk ⟨ins, segsNodes segs, out⟩ []) none =
      .ok (.mk ⟨ins, buildFinalNodes segs out 0, out⟩ (finalChildren segs out), none) := by
  have hfold := childFold_id (fuel + 1) (buildFinalNodes segs out 0)
    (finalChildren segs out)
    (fun c hc => pass_id_of_markerFree (fuel + 1) c none
      (finalChildren_markerFree segs out fuel hOK.1 c hc))
  show replaceAutocastWithHopPass (fuel + 1 + 1) _ _ = _
  generalize hgen : fuel + 1 = f at hfold ⊢
  simp only [replaceAutocastWithHopPass]
  rw [helperPipeline ins segs out hOK hpf hopf hnodup hbig hmk hany]
  simp only [exceptBindOk, GraphModule.graph, GraphModule.children]
  rw [hfold]
  rfl

/-- Nodes that leave the ambient autocast context unchanged (everything except
the two markers). -/
def ctxNeutral : Node → Bool
  | .enterA _ _ _ => false
  | .exitA _ _ _ => false
  | _ => true

/-- Ordinary computations are context-neutral. -/
lemma compute_ctxNeutral (n : Node) (h : isComputeNode n = true) : ctxNeutral n = true := by
  match n, h with
  | .compute nm f args m, _ => rfl

/-- A run of context-neutral nodes returns the context it started with. -/
lemma evalNodesF_ctx (S : OpSem) (cf : Nat → List Val → Ctx → Val) (ns : List Node) :
    ∀ (env : Env) (ctx : Ctx), (∀ n ∈ ns, ctxNeutral n = true) →
    (evalNodesF S cf env ctx ns).2 = ctx := by
  induction ns with
  | nil => intro env ctx _; rfl
  | cons n rest ih =>
    intro env ctx h
    have hr : ∀ m ∈ rest, ctxNeutral m = true := fun m hm => h m (List.mem_cons_of_mem _ hm)
    cases n with
    | compute nm f args m => simpa [evalNodesF] using ih _ ctx hr
    | enterA nm ps m => exact absurd (h _ (List.mem_cons_self _ _)) (by simp [ctxNeutral])
    | exitA nm r m => exact absurd (h _ (List.mem_cons_self _ _)) (by simp [ctxNeutral])
    | callMod nm t args m => simpa [evalNodesF] using ih _ ctx hr
    | getAttr nm t m => simpa [evalNodesF] using ih _ ctx hr
    | wrapA nm ps t args m => simpa [evalNodesF] using ih _ ctx hr
    | getitem nm s i m => simpa [evalNodesF] using ih _ ctx hr

/-- A run only updates the names its nodes define. -/
lemma evalNodesF_frame (S : OpSem) (cf : Nat → List Val → Ctx → Val) (ns : List Node) :
    ∀ (env : Env) (ctx : Ctx) (x : String), x ∉ ns.map Node.name →
    (evalNodesF S cf env ctx ns).1 x = env x := by
  induction ns with
  | nil => intro env ctx x _; rfl
  | cons n rest ih =>
    intro env ctx x hx
    have hx1 : x ≠ n.name := fun he => hx (by simp [he])
    have hx2 : x ∉ rest.map Node.name := fun hm => hx (by simp [hm])
    cases n with
    | compute nm f args m =>
      rw [show evalNodesF S cf env ctx (.compute nm f args m :: rest) =
        evalNodesF S cf (updEnv env nm (S f (args.map (Arg.eval env)) ctx)) ctx rest from rfl]
      rw [ih _ ctx x hx2]
      simp [updEnv, show x ≠ nm from hx1]
    | enterA nm ps m =>
      rw [show evalNodesF S cf env ctx (.enterA nm ps m :: rest) =
        evalNodesF S cf (updEnv env nm (.base 0)) (ps :: ctx) rest from rfl]
      rw [ih _ _ x hx2]
      simp [updEnv, show x ≠ nm from hx1]
    | exitA nm r m =>
      rw [show evalNodesF S cf env ctx (.exitA nm r m :: rest) =
        evalNodesF S cf (updEnv env nm (.base 0)) ctx.tail rest from rfl]
      rw [ih _ _ x hx2]
      simp [updEnv, show x ≠ nm from hx1]
    | callMod nm t args m =>
      rw [show evalNodesF S cf env ctx (.callMod nm t args m :: rest) =
        evalNodesF S cf (updEnv env nm (cf t (args.map env) ctx)) ctx rest from rfl]
      rw [ih _ ctx x hx2]
      simp [updEnv, show x ≠ nm from hx1]
    | getAttr nm t m =>
      rw [show evalNodesF S cf env ctx (.getAttr nm t m :: rest) =
        evalNodesF S cf (updEnv env nm (.base 0)) ctx rest from rfl]
      rw [ih _ ctx x hx2]
      simp [updEnv, show x ≠ nm from hx1]
    | wrapA nm ps t args m =>
      rw [show evalNodesF S cf env ctx (.wrapA nm ps t args m :: rest) =
        evalNodesF S cf (updEnv env nm (cf t (args.map env) (ps :: ctx))) ctx rest from rfl]
      rw [ih _ ctx x hx2]
      simp [updEnv, show x ≠ nm from hx1]
    | getitem nm s i m =>
      rw [show evalNodesF S cf env ctx (.getitem nm s i m :: rest) =
        evalNodesF S cf (updEnv env nm (projV (env s) i)) ctx rest from rfl]
      rw [ih _ ctx x hx2]
      simp [updEnv, show x ≠ nm from hx1]

/-- Running an appended node list is running the parts in sequence. -/
lemma evalNodesF_append (S : OpSem) (cf : Nat → List Val → Ctx → Val) (A : List Node) :
    ∀ (B : List Node) (env : Env) (ctx : Ctx),
    evalNodesF S cf env ctx (A ++ B) =
      evalNodesF S cf (evalNodesF S cf env ctx A).1 (evalNodesF S cf env ctx A).2 B := by
  induction A with
  | nil => intro B env ctx; rfl
  | cons n rest ih =>
    intro B env ctx
    cases n with
    | compute nm f args m => simpa [evalNodesF] using ih B _ ctx
    | enterA nm ps m => simpa [evalNodesF] using ih B _ _
    | exitA nm r m => simpa [evalNodesF] using ih B _ _
    | callMod nm t args m => simpa [evalNodesF] using ih B _ ctx
    | getAttr nm t m => simpa [evalNodesF] using ih B _ ctx
    | wrapA nm ps t args m => simpa [evalNodesF] using ih B _ ctx
    | getitem nm s i m => simpa [evalNodesF] using ih B _ ctx

/-- The submodule-call semantics a graph module with child list `CS` provides:
look the target up, evaluate it with the remaining fuel. -/
def childCallF (S : OpSem) (fuel : Nat) (CS : List GraphModule) :
    Nat → List Val → Ctx → Val :=
  fun t vs c =>
    match CS.get? t with
    | none => .base 0
    | some sub => evalGM S fuel sub vs c

/-- One unfolding of `evalGM` in terms of `childCallF`. -/
lemma evalGM_succ (S : OpSem) (fuel : Nat) (gm : GraphModule) (vals : List Val)
    (ctx : Ctx) :
    evalGM S (fuel + 1) gm vals ctx =
      evalOut (evalNodesF S (childCallF S fuel gm.children)
        (bindVals gm.graph.inputs vals) ctx gm.graph.nodes).1 gm.graph.output := rfl

/-- With at least two escaping values the submodule output is the full tuple. -/
lemma outSpecOf_big (es : List String) (h : 2 ≤ es.length) :
    outSpecOf es = some (.tup (es.map Arg.ref)) := by
  match es, h with
  | e1 :: e2 :: es', _ => rfl

/-- `getD` through `map`, inside bounds. -/
lemma getD_map_lt {α β : Type} (l : List α) (f : α → β) (j : Nat) (h : j < l.length)
    (d : α) (d' : β) : (l.map f).getD j d' = f (l.getD j d) := by
  rw [List.getD_eq_getElem?_getD, List.getElem?_map, List.getElem?_eq_getElem h]
  rw [List.getD_eq_getElem?_getD, List.getElem?_eq_getElem h]
  rfl

/-- Two runs of the same computation-only node list, under possibly different
call semantics, agree on the `D`-protected names, the free references and the
defined names, provided they agreed on the protected names and free references
at the start. -/
lemma evalComputes_agree (ns : List Node) :
    ∀ (S : OpSem) (cf1 cf2 : Nat → List Val → Ctx → Val) (ctx : Ctx)
      (env1 env2 : Env) (D : List String),
    (∀ n ∈ ns, isComputeNode n = true) →
    (∀ r, r ∈ D ∨ r ∈ freeRefsGo ns D → env1 r = env2 r) →
    ∀ x, (x ∈ D ∨ x ∈ freeRefsGo ns D ∨ x ∈ ns.map Node.name) →
    (evalNodesF S cf1 env1 ctx ns).1 x = (evalNodesF S cf2 env2 ctx ns).1 x := by
  induction ns with
  | nil =>
    intro S cf1 cf2 ctx env1 env2 D _ hag x hx
    have hxD : x ∈ D := by
      rcases hx with h | h | h
      · exact h
      · simp [freeRefsGo] at h
      · simp at h
    exact hag x (Or.inl hxD)
  | cons n rest ih =>
    intro S cf1 cf2 ctx env1 env2 D hcomp hag x hx
    match n, hcomp _ (List.mem_cons_self _ _) with
    | .compute nm f args m, _ =>
    have hcr : ∀ u ∈ rest, isComputeNode u = true :=
      fun u hu => hcomp u (List.mem_cons_of_mem _ hu)
    have hargs : args.map (Arg.eval env1) = args.map (Arg.eval env2) := by
      apply List.map_congr_left
      intro a ha
      cases a with
      | noneA => rfl
      | ref r =>
        have hrr : r ∈ (Node.compute nm f args m).argRefs := by
          simp only [Node.argRefs]
          exact List.mem_filterMap.mpr ⟨.ref r, ha, rfl⟩
        have hr12 : env1 r = env2 r := by
          by_cases hrD : r ∈ D
          · exact hag r (Or.inl hrD)
          · refine hag r (Or.inr ?_)
            simp only [freeRefsGo, List.mem_append]
            exact Or.inl (List.mem_filter.mpr ⟨hrr, by simpa using hrD⟩)
        simp [Arg.eval, hr12]
    have hstep1 : evalNodesF S cf1 env1 ctx (Node.compute nm f args m :: rest) =
        evalNodesF S cf1 (updEnv env1 nm (S f (args.map (Arg.eval env1)) ctx)) ctx rest := rfl
    have hstep2 : evalNodesF S cf2 env2 ctx (Node.compute nm f args m :: rest) =
        evalNodesF S cf2 (updEnv env2 nm (S f (args.map (Arg.eval env2)) ctx)) ctx rest := rfl
    rw [hstep1, hstep2, hargs]
    set v := S f (args.map (Arg.eval env2)) ctx with hv
    have hag' : ∀ r, r ∈ (nm :: D) ∨ r ∈ freeRefsGo rest (nm :: D) →
        updEnv env1 nm v r = updEnv env2 nm v r := by
      intro r hr
      by_cases hrnm : r = nm
      · simp [updEnv, hrnm]
      · have hr2 : env1 r = env2 r := by
          rcases hr with hr | hr
          · rcases List.mem_cons.mp hr with h | h
            · exact absurd h hrnm
            · exact hag r (Or.inl h)
          · have hnotD : r ∉ D := fun hD =>
              (freeRefsGo_not_mem rest (nm :: D) r hr) (List.mem_cons_of_mem _ hD)
            refine hag r (Or.inr ?_)
            simp only [freeRefsGo, List.mem_append]
            exact Or.inr hr
        simp [updEnv, hrnm, hr2]
    by_cases hxnm : x = nm
    · exact ih S cf1 cf2 ctx _ _ (nm :: D) hcr hag' x (Or.inl (by simp [hxnm]))
    by_cases hxr : x ∈ rest.map Node.name
    · exact ih S cf1 cf2 ctx _ _ (nm :: D) hcr hag' x (Or.inr (Or.inr hxr))
    · rw [evalNodesF_frame S cf1 rest _ ctx x hxr, evalNodesF_frame S cf2 rest _ ctx x hxr]
      have hx12 : env1 x = env2 x := by
        rcases hx with h | h | h
        · exact hag x (Or.inl h)
        · exact hag x (Or.inr h)
        · rcases List.mem_cons.mp h with h | h
          · exact absurd (by simpa [Node.name] using h) hxnm
          · exact absurd h hxr
      simp [updEnv, hxnm, hx12]

/-- Evaluating a chain of extraction nodes off a common source: each target name
receives the corresponding projection of the source's value. -/
lemma evalGetitemList (wn : String) (mf : Nat → Meta) (S : OpSem)
    (cf : Nat → List Val → Ctx → Val) (ps : List (String × Nat)) :
    ∀ (env : Env) (ctx : Ctx),
    (∀ p ∈ ps, p.1 ≠ wn) → (ps.map Prod.fst).Nodup →
    ∀ p ∈ ps,
    (evalNodesF S cf env ctx (ps.map (fun p => Node.getitem p.1 wn p.2 (mf p.2)))).1 p.1 =
      projV (env wn) p.2 := by
  induction ps with
  | nil => intro env ctx _ _ p hp; simp at hp
  | cons q qs ih =>
    intro env ctx hne hnd p hp
    have hstep : evalNodesF S cf env ctx
        ((q :: qs).map (fun p => Node.getitem p.1 wn p.2 (mf p.2))) =
        evalNodesF S cf (updEnv env q.1 (projV (env wn) q.2)) ctx
          (qs.map (fun p => Node.getitem p.1 wn p.2 (mf p.2))) := rfl
    rw [hstep]
    have hwn : updEnv env q.1 (projV (env wn) q.2) wn = env wn := by
      simp [updEnv, Ne.symm (hne q (List.mem_cons_self _ _))]
    rcases List.mem_cons.mp hp with rfl | hp2
    · have hnames : (qs.map (fun p => Node.getitem p.1 wn p.2 (mf p.2))).map Node.name =
          qs.map Prod.fst := by
        rw [List.map_map]; rfl
      have hnot : p.1 ∉ (qs.map (fun p => Node.getitem p.1 wn p.2 (mf p.2))).map Node.name := by
        rw [hnames]
        exact (List.nodup_cons.mp hnd).1
      rw [evalNodesF_frame S cf _ _ ctx p.1 hnot]
      simp [updEnv]
    · have := ih (updEnv env q.1 (projV (env wn) q.2)) ctx
        (fun r hr => hne r (List.mem_cons_of_mem _ hr)) (List.nodup_cons.mp hnd).2 p hp2
      rw [this, hwn]

/-- Reading a list back off by its in-range default reads. -/
lemma range_getD_self (es : List String) :
    (List.range es.length).map (fun j => es.getD j "") = es := by
  have h := map_eq_range_getD es "" id
  simpa using h.symm

/-- The node sequence of a segment list, unfolded one segment. -/
lemma segsNodes_cons (s : SegDesc) (rest : List SegDesc) :
    segsNodes (s :: rest) = SegDesc.nodes s ++ segsNodes rest := by
  simp [segsNodes]

/-- Names used by a suffix are used by the whole list. -/
lemma usedNames_sub (A B : List Node) (out : Option OutArgs) (r : String)
    (h : r ∈ usedNames B out) : r ∈ usedNames (A ++ B) out := by
  simp only [usedNames, List.mem_append, List.mem_flatten, List.map_append] at h ⊢
  rcases h with ⟨l, hl, hr⟩ | h
  · exact Or.inl ⟨l, Or.inr hl, hr⟩
  · exact Or.inr h

/-- The free references of a region are the free references of its body (the
enter contributes none and the exit references only the enter). -/
lemma freeRefsGo_region (en : String) (ps : List Nat) (em : Meta) (mid : List Node)
    (ex : String) (xm : Meta) :
    freeRefsGo (SegDesc.nodes (.region en ps em mid ex xm)) [] = freeRefsGo mid [en] := by
  have hR : SegDesc.nodes (.region en ps em mid ex xm) =
      .enterA en ps em :: (mid ++ [.exitA ex en xm]) := by
    simp [SegDesc.nodes]
  rw [hR]
  rw [show freeRefsGo (.enterA en ps em :: (mid ++ [.exitA ex en xm])) [] =
    freeRefsGo (mid ++ [.exitA ex en xm]) [en] from rfl]
  rw [freeRefsGo_append]
  have hlast : freeRefsGo [Node.exitA ex en xm] (mid.reverse.map Node.name ++ [en]) = [] := by
    simp only [freeRefsGo, Node.argRefs, List.append_nil]
    simp
  rw [hlast, List.append_nil]

/-- Evaluating an original region: bind the enter marker, run the body under the
pushed context, bind the exit marker, pop the context. -/
lemma evalRegionOrig (S : OpSem) (cf0 : Nat → List Val → Ctx → Val)
    (en : String) (ps : List Nat) (em : Meta) (mid : List Node) (ex : String) (xm : Meta)
    (envO : Env) (ctx : Ctx) (hcomp : ∀ n ∈ mid, isComputeNode n = true) :
    evalNodesF S cf0 envO ctx (SegDesc.nodes (.region en ps em mid ex xm)) =
      (updEnv ((evalNodesF S cf0 (updEnv envO en (.base 0)) (ps :: ctx) mid).1) ex (.base 0),
       ctx) := by
  have hR : SegDesc.nodes (.region en ps em mid ex xm) =
      .enterA en ps em :: (mid ++ [.exitA ex en xm]) := by
    simp [SegDesc.nodes]
  rw [hR]
  rw [show evalNodesF S cf0 envO ctx (.enterA en ps em :: (mid ++ [.exitA ex en xm])) =
    evalNodesF S cf0 (updEnv envO en (.base 0)) (ps :: ctx) (mid ++ [.exitA ex en xm]) from rfl]
  rw [evalNodesF_append]
  rw [evalNodesF_ctx S cf0 mid _ (ps :: ctx) (fun n hn => compute_ctxNeutral n (hcomp n hn))]
  rfl

/-- Evaluating the image of a region in the processed parent: the `get_attr` and
the wrap bind their generated names, the wrap's value is the submodule call under
the pushed context, and each extraction receives the corresponding projection;
all other names keep their values. -/
lemma evalRegionImageCore (S : OpSem) (fuel : Nat) (CS : List GraphModule)
    (t : Nat) (ps : List Nat) (ga wn : String) (frs es : List String)
    (m1 m2 : Meta) (mf : Nat → Meta) (envF : Env) (ctx : Ctx) (c : GraphModule)
    (hget : CS.get? t = some c)
    (hesd : es.Nodup)
    (hesga : ∀ e ∈ es, e ≠ ga)
    (heswn : ∀ e ∈ es, e ≠ wn)
    (hgawn : ga ≠ wn)
    (hfrga : ∀ r ∈ frs, r ≠ ga) :
    ∃ envFc : Env,
      evalNodesF S (childCallF S fuel CS) envF ctx
        (.getAttr ga t m1 :: .wrapA wn ps t frs m2 ::
          ((List.range es.length).map fun j => Node.getitem (es.getD j "") wn j (mf j))) =
        (envFc, ctx) ∧
      (∀ j, j < es.length →
        envFc (es.getD j "") = projV (evalGM S fuel c (frs.map envF) (ps :: ctx)) j) ∧
      (∀ x, x ∉ es → x ≠ ga → x ≠ wn → envFc x = envF x) := by
  set w := evalGM S fuel c (frs.map envF) (ps :: ctx) with hw
  set envFa := updEnv envF ga (.base 0) with hFa
  set envFb := updEnv envFa wn w with hFb
  set giList := (List.range es.length).map
    fun j => Node.getitem (es.getD j "") wn j (mf j) with hgi
  have hmapF : frs.map envFa = frs.map envF := by
    apply List.map_congr_left
    intro r hr
    rw [hFa]
    simp [updEnv, hfrga r hr]
  have hcall : childCallF S fuel CS t (frs.map envFa) (ps :: ctx) = w := by
    rw [hmapF, childCallF, hget, hw]
  have hstep : evalNodesF S (childCallF S fuel CS) envF ctx
      (.getAttr ga t m1 :: .wrapA wn ps t frs m2 :: giList) =
      evalNodesF S (childCallF S fuel CS) envFb ctx giList := by
    rw [show evalNodesF S (childCallF S fuel CS) envF ctx
      (.getAttr ga t m1 :: .wrapA wn ps t frs m2 :: giList) =
      evalNodesF S (childCallF S fuel CS)
        (updEnv envFa wn (childCallF S fuel CS t (frs.map envFa) (ps :: ctx))) ctx giList
      from rfl]
    rw [hcall, hFb]
  have hnames : giList.map Node.name = es := by
    rw [hgi, List.map_map]
    have h2 : (Node.name ∘ fun j => Node.getitem (es.getD j "") wn j (mf j)) =
        fun j => es.getD j "" := rfl
    rw [h2, range_getD_self]
  have hctxn : ∀ n ∈ giList, ctxNeutral n = true := by
    intro n hn
    rw [hgi] at hn
    obtain ⟨j, _, rfl⟩ := List.mem_map.mp hn
    rfl
  refine ⟨(evalNodesF S (childCallF S fuel CS) envFb ctx giList).1, ?_, ?_, ?_⟩
  · rw [hstep]
    exact Prod.ext rfl (evalNodesF_ctx S _ giList envFb ctx hctxn)
  · intro j hj
    have hPS : giList = ((List.range es.length).map fun j => (es.getD j "", j)).map
        (fun p => Node.getitem p.1 wn p.2 (mf p.2)) := by
      rw [hgi, List.map_map]; rfl
    have hfst : (((List.range es.length).map fun j => (es.getD j "", j)).map Prod.fst) = es := by
      rw [List.map_map]
      have h2 : (Prod.fst ∘ fun j => (es.getD j "", j)) = fun j => es.getD j "" := rfl
      rw [h2, range_getD_self]
    have hne : ∀ p ∈ (List.range es.length).map fun j => (es.getD j "", j), p.1 ≠ wn := by
      intro p hp
      obtain ⟨j', hj', rfl⟩ := List.mem_map.mp hp
      exact heswn _ (getD_mem_of_lt es j' "" (List.mem_range.mp hj'))
    have hmem : ((es.getD j "", j)) ∈ (List.range es.length).map fun j => (es.getD j "", j) :=
      List.mem_map.mpr ⟨j, List.mem_range.mpr hj, rfl⟩
    have := evalGetitemList wn mf S (childCallF S fuel CS)
      ((List.range es.length).map fun j => (es.getD j "", j)) envFb ctx hne
      (by rw [hfst]; exact hesd) (es.getD j "", j) hmem
    rw [← hPS] at this
    rw [this]
    have hbwn : envFb wn = w := by rw [hFb]; simp [updEnv]
    rw [hbwn]
  · intro x hx hga hwn
    have hnot : x ∉ giList.map Node.name := by rw [hnames]; exact hx
    rw [evalNodesF_frame S _ giList envFb ctx x hnot, hFb, hFa]
    simp [updEnv, hga, hwn]

/-- Master evaluation equivalence: running the processed parent suffix (with the
final children) and running the original segment nodes from environments that
agree on all live traced names yields, outside a set of dead names (the
non-escaping region-internal names), agreeing environments; the context is
restored on both sides and output references never die. -/
lemma evalSegsEquiv (segs : List SegDesc) :
    ∀ (out : Option OutArgs) (t : Nat) (S : OpSem) (fuel : Nat)
      (cf0 : Nat → List Val → Ctx → Val) (ctx : Ctx) (envF envO : Env)
      (dead : String → Prop) (CS : List GraphModule),
    segsContentOK segs →
    (∀ n ∈ segsNodes segs, percentFree n.name ∧ ∀ r ∈ n.argRefs, percentFree r) →
    ((segsNodes segs).map Node.name).Nodup →
    regionsEscapeBig segs out →
    markersOK segs out →
    List.drop t CS = finalChildren segs out →
    (∀ r, r ∈ usedNames (segsNodes segs) out → ¬ dead r) →
    (∀ r, percentFree r → ¬ dead r → envF r = envO r) →
    ∃ dead' : String → Prop,
      (evalNodesF S (childCallF S (fuel + 1) CS) envF ctx (buildFinalNodes segs out t)).2 =
        ctx ∧
      (evalNodesF S cf0 envO ctx (segsNodes segs)).2 = ctx ∧
      (∀ r, percentFree r → ¬ dead' r →
        (evalNodesF S (childCallF S (fuel + 1) CS) envF ctx (buildFinalNodes segs out t)).1 r =
        (evalNodesF S cf0 envO ctx (segsNodes segs)).1 r) ∧
      (∀ r, ¬ dead r → r ∈ outRefs out → ¬ dead' r) := by
  induction segs with
  | nil =>
    intro out t S fuel cf0 ctx envF envO dead CS _ _ _ _ _ _ _ hagree
    exact ⟨dead, rfl, rfl, fun r hr hd => hagree r hr hd, fun r hd _ => hd⟩
  | cons s rest ih =>
    intro out t S fuel cf0 ctx envF envO dead CS hcontent hpf hnodup hbig hmk hdrop hav hagree
    have hsn : segsNodes (s :: rest) = SegDesc.nodes s ++ segsNodes rest := segsNodes_cons s rest
    have hpfS : ∀ n ∈ SegDesc.nodes s, percentFree n.name ∧ ∀ r ∈ n.argRefs, percentFree r :=
      fun n hn => hpf n (by rw [hsn]; exact List.mem_append.mpr (Or.inl hn))
    have hpfRest : ∀ n ∈ segsNodes rest,
        percentFree n.name ∧ ∀ r ∈ n.argRefs, percentFree r :=
      fun n hn => hpf n (by rw [hsn]; exact List.mem_append.mpr (Or.inr hn))
    have hnodup2 : ((SegDesc.nodes s).map Node.name ++ (segsNodes rest).map Node.name).Nodup := by
      rw [← List.map_append, ← hsn]; exact hnodup
    have hndS : ((SegDesc.nodes s).map Node.name).Nodup := (List.nodup_append.mp hnodup2).1
    have hndRest : ((segsNodes rest).map Node.name).Nodup := (List.nodup_append.mp hnodup2).2.1
    have havRest : ∀ r, r ∈ usedNames (segsNodes rest) out → ¬ dead r := by
      intro r hr
      apply hav
      rw [hsn]
      exact usedNames_sub _ _ out r hr
    have hdrop' : List.drop (t + 1) CS = finalChildren rest out := by
      rw [← List.tail_drop, hdrop]
      cases s <;> rfl
    cases s with
    | plain ns =>
      obtain ⟨hne, hcomp, hcontent2⟩ := hcontent
      have hbf : buildFinalNodes (SegDesc.plain ns :: rest) out t =
          ns ++ buildFinalNodes rest out (t + 1) := rfl
      rw [hbf, hsn]
      rw [show SegDesc.nodes (.plain ns) = ns from rfl]
      rw [evalNodesF_append S (childCallF S (fuel + 1) CS) ns _ envF ctx]
      rw [evalNodesF_append S cf0 ns _ envO ctx]
      have hctxF : (evalNodesF S (childCallF S (fuel + 1) CS) envF ctx ns).2 = ctx :=
        evalNodesF_ctx S _ ns envF ctx (fun n hn => compute_ctxNeutral n (hcomp n hn))
      have hctxO : (evalNodesF S cf0 envO ctx ns).2 = ctx :=
        evalNodesF_ctx S cf0 ns envO ctx (fun n hn => compute_ctxNeutral n (hcomp n hn))
      rw [hctxF, hctxO]
      have hagree1 : ∀ x, percentFree x → ¬ dead x →
          (evalNodesF S (childCallF S (fuel + 1) CS) envF ctx ns).1 x =
          (evalNodesF S cf0 envO ctx ns).1 x := by
        intro x hx hd
        by_cases hxn : x ∈ ns.map Node.name
        · refine evalComputes_agree ns S _ cf0 ctx envF envO [] hcomp ?_ x (Or.inr (Or.inr hxn))
          intro r hr
          rcases hr with h | h
          · simp at h
          · obtain ⟨n, hn, hrn⟩ := freeRefsGo_sub ns [] r h
            have hpfr : percentFree r :=
              (hpfS n (by rw [show SegDesc.nodes (.plain ns) = ns from rfl]; exact hn)).2 r hrn
            have hdr : ¬ dead r := by
              apply hav
              rw [hsn, show SegDesc.nodes (.plain ns) = ns from rfl]
              exact mem_usedNames_of_ref _ out n r (List.mem_append.mpr (Or.inl hn)) hrn
            exact hagree r hpfr hdr
        · rw [evalNodesF_frame S _ ns envF ctx x hxn, evalNodesF_frame S cf0 ns envO ctx x hxn]
          exact hagree x hx hd
      obtain ⟨dead', hx1, hx2, hx3, hx4⟩ := ih out (t + 1) S fuel cf0 ctx
        (evalNodesF S (childCallF S (fuel + 1) CS) envF ctx ns).1
        (evalNodesF S cf0 envO ctx ns).1 dead CS
        hcontent2 hpfRest hndRest hbig hmk hdrop' havRest hagree1
      exact ⟨dead', hx1, hx2, fun r hr hd => hx3 r hr hd, fun r hd hro => hx4 r hd hro⟩
    | region en ps em mid ex xm =>
      obtain ⟨hcomp, hcontent2⟩ := hcontent
      obtain ⟨hbig1, hbig2⟩ := hbig
      obtain ⟨hmk1, hmk2, hmk3, hmk4⟩ := hmk
      have hmk2' : en ∉ usedNames (segsNodes rest) out := hmk2
      have hmk3' : ex ∉ usedNames (segsNodes rest) out := hmk3
      have hbig1' : 2 ≤ (escapes (SegDesc.nodes (.region en ps em mid ex xm))
          (segsNodes rest) out).length := hbig1
      have hRform : SegDesc.nodes (.region en ps em mid ex xm) =
          .enterA en ps em :: (mid ++ [.exitA ex en xm]) := by
        simp [SegDesc.nodes]
      have hRnames : (SegDesc.nodes (.region en ps em mid ex xm)).map Node.name =
          en :: (mid.map Node.name ++ [ex]) := by
        rw [hRform]
        simp [Node.name]
      have hndR := hndS
      rw [hRnames] at hndR
      have hRcons := List.nodup_cons.mp hndR
      have hRapp := List.nodup_append.mp hRcons.2
      have hesnd : (escapes (SegDesc.nodes (.region en ps em mid ex xm))
          (segsNodes rest) out).Nodup := escapes_nodup _ _ _ hndS
      have hesused : ∀ e ∈ escapes (SegDesc.nodes (.region en ps em mid ex xm))
          (segsNodes rest) out, e ∈ usedNames (segsNodes rest) out :=
        fun e he => escapes_used _ _ _ e he
      have hesmid : ∀ e ∈ escapes (SegDesc.nodes (.region en ps em mid ex xm))
          (segsNodes rest) out, e ∈ mid.map Node.name := by
        intro e he
        have h1 := escapes_sub _ _ _ e he
        rw [hRnames] at h1
        rcases List.mem_cons.mp h1 with rfl | h1
        · exact absurd (hesused e he) hmk2'
        · rcases List.mem_append.mp h1 with h1 | h1
          · exact h1
          · rw [List.mem_singleton] at h1
            exact absurd (h1 ▸ hesused e he) hmk3'
      have hespf : ∀ e ∈ escapes (SegDesc.nodes (.region en ps em mid ex xm))
          (segsNodes rest) out, percentFree e := by
        intro e he
        obtain ⟨n, hn, hne⟩ := List.mem_map.mp (escapes_sub _ _ _ e he)
        exact hne ▸ (hpfS n hn).1
      have hfrpf : ∀ r ∈ freeRefs (SegDesc.nodes (.region en ps em mid ex xm)),
          percentFree r :=
        freeRefs_pf _ (fun n hn r hr => (hpfS n hn).2 r hr)
      have hget : CS.get? t =
          some (erasedChild (.region en ps em mid ex xm) (segsNodes rest) out) := by
        have h0 := List.getElem?_drop CS t 0
        rw [hdrop] at h0
        rw [Nat.add_zero] at h0
        rw [List.get?_eq_getElem?]
        rw [← h0]
        simp [finalChildren, segsNodes]
      -- evaluate the image of the region
      obtain ⟨envFc, hrun, hproj, hframe⟩ := evalRegionImageCore S (fuel + 1) CS t ps
        (gaName t) (wrapGenName t)
        (freeRefs (SegDesc.nodes (.region en ps em mid ex xm)))
        (escapes (SegDesc.nodes (.region en ps em mid ex xm)) (segsNodes rest) out)
        ⟨.noneM, em.nnModuleStack, none⟩
        ⟨.tupM ((List.range (escapes (SegDesc.nodes (.region en ps em mid ex xm))
            (segsNodes rest) out).length).map fun j =>
          (findNodeD (SegDesc.nodes (.region en ps em mid ex xm))
            ((escapes (SegDesc.nodes (.region en ps em mid ex xm))
              (segsNodes rest) out).getD j "")).meta.val),
         em.nnModuleStack, some wrapTorchFn⟩
        (fun j => (findNodeD (SegDesc.nodes (.region en ps em mid ex xm))
          ((escapes (SegDesc.nodes (.region en ps em mid ex xm))
            (segsNodes rest) out).getD j "")).meta)
        envF ctx (erasedChild (.region en ps em mid ex xm) (segsNodes rest) out) hget
        hesnd
        (fun e he => percentFree_ne_gaName e (hespf e he) t)
        (fun e he => percentFree_ne_wrapGenName e (hespf e he) t)
        (gaName_ne_wrapGenName t t)
        (fun r hr => percentFree_ne_gaName r (hfrpf r hr) t)
      -- the submodule call value: the tuple of the escaping values of the body run
      have hwval : evalGM S (fuel + 1)
          (erasedChild (.region en ps em mid ex xm) (segsNodes rest) out)
          ((freeRefs (SegDesc.nodes (.region en ps em mid ex xm))).map envF) (ps :: ctx) =
          .tupV ((escapes (SegDesc.nodes (.region en ps em mid ex xm))
            (segsNodes rest) out).map
            (evalNodesF S (childCallF S fuel [])
              (bindVals (freeRefs (SegDesc.nodes (.region en ps em mid ex xm)))
                ((freeRefs (SegDesc.nodes (.region en ps em mid ex xm))).map envF))
              (ps :: ctx) mid).1) := by
        rw [show (fuel + 1) = fuel + 1 from rfl, evalGM_succ]
        rw [show (erasedChild (.region en ps em mid ex xm) (segsNodes rest) out).children =
          [] from rfl]
        rw [show (erasedChild (.region en ps em mid ex xm) (segsNodes rest) out).graph.nodes =
          mid from rfl]
        rw [show (erasedChild (.region en ps em mid ex xm) (segsNodes rest) out).graph.inputs =
          freeRefs (SegDesc.nodes (.region en ps em mid ex xm)) from rfl]
        rw [show (erasedChild (.region en ps em mid ex xm) (segsNodes rest) out).graph.output =
          outSpecOf (escapes (SegDesc.nodes (.region en ps em mid ex xm))
            (segsNodes rest) out) from rfl]
        rw [outSpecOf_big _ hbig1']
        simp only [evalOut]
        rw [List.map_map]
        rfl
      -- the original region run
      have horig := evalRegionOrig S cf0 en ps em mid ex xm envO ctx hcomp
      -- body environments agree on the protected, the free and the defined names
      have hfrR : freeRefsGo (SegDesc.nodes (.region en ps em mid ex xm)) [] =
          freeRefsGo mid [en] := freeRefsGo_region en ps em mid ex xm
      have hagrMid : ∀ x, x ∈ [en] ∨ x ∈ freeRefsGo mid [en] ∨ x ∈ mid.map Node.name →
          (evalNodesF S (childCallF S fuel [])
            (bindVals (freeRefs (SegDesc.nodes (.region en ps em mid ex xm)))
              ((freeRefs (SegDesc.nodes (.region en ps em mid ex xm))).map envF))
            (ps :: ctx) mid).1 x =
          (evalNodesF S cf0 (updEnv envO en (.base 0)) (ps :: ctx) mid).1 x := by
        refine evalComputes_agree mid S _ cf0 (ps :: ctx) _ _ [en] hcomp ?_
        intro r hr
        have hr' : r = en ∨ r ∈ freeRefsGo mid [en] := by
          rcases hr with h | h
          · exact Or.inl (by simpa using h)
          · exact Or.inr h
        rcases hr' with rfl | hfree
        · have henfr : r ∉ freeRefs (SegDesc.nodes (.region r ps em mid ex xm)) := by
            intro hmem
            have h2 := (mem_dedupFirst _ r).mp hmem
            rw [hfrR] at h2
            exact (freeRefsGo_not_mem mid [r] r h2) (by simp)
          rw [bindVals_not_mem _ _ r henfr]
          simp [updEnv]
        · have hren : r ≠ en := fun he =>
            (freeRefsGo_not_mem mid [en] r hfree) (by simp [he])
          have hrmem : r ∈ freeRefs (SegDesc.nodes (.region en ps em mid ex xm)) :=
            (mem_dedupFirst _ r).mpr (by rw [hfrR]; exact hfree)
          have hndfr : (freeRefs (SegDesc.nodes (.region en ps em mid ex xm))).Nodup :=
            nodup_dedupFirst _
          rw [bindVals_zip_map (freeRefs (SegDesc.nodes (.region en ps em mid ex xm)))
            envF r hndfr hrmem]
          rw [show updEnv envO en (.base 0) r = envO r from by simp [updEnv, hren]]
          obtain ⟨n, hn, hrn⟩ := freeRefsGo_sub mid [en] r hfree
          have hnR : n ∈ SegDesc.nodes (.region en ps em mid ex xm) := by
            rw [hRform]
            exact List.mem_cons_of_mem _ (List.mem_append.mpr (Or.inl hn))
          refine hagree r ((hpfS n hnR).2 r hrn) ?_
          apply hav
          rw [hsn]
          exact mem_usedNames_of_ref _ out n r (List.mem_append.mpr (Or.inl hnR)) hrn
      -- the new dead set and the new agreement
      have hagree1 : ∀ x, percentFree x →
          ¬ (dead x ∨ (x ∈ (SegDesc.nodes (.region en ps em mid ex xm)).map Node.name ∧
            x ∉ escapes (SegDesc.nodes (.region en ps em mid ex xm)) (segsNodes rest) out)) →
          envFc x =
          updEnv (evalNodesF S cf0 (updEnv envO en (.base 0)) (ps :: ctx) mid).1 ex
            (.base 0) x := by
        intro x hx hdx
        have hdxd : ¬ dead x := fun h => hdx (Or.inl h)
        by_cases hxes : x ∈ escapes (SegDesc.nodes (.region en ps em mid ex xm))
            (segsNodes rest) out
        · obtain ⟨j, hj, hxj⟩ := List.getElem_of_mem hxes
          have hgd : (escapes (SegDesc.nodes (.region en ps em mid ex xm))
              (segsNodes rest) out).getD j "" = x := by
            rw [List.getD_eq_getElem?_getD, List.getElem?_eq_getElem hj, hxj]
            rfl
          have h1 : envFc x = projV (evalGM S (fuel + 1)
              (erasedChild (.region en ps em mid ex xm) (segsNodes rest) out)
              ((freeRefs (SegDesc.nodes (.region en ps em mid ex xm))).map envF)
              (ps :: ctx)) j := by
            rw [← hgd]
            exact hproj j hj
          have h2 := getD_map_lt (escapes (SegDesc.nodes (.region en ps em mid ex xm))
              (segsNodes rest) out)
            (evalNodesF S (childCallF S fuel [])
              (bindVals (freeRefs (SegDesc.nodes (.region en ps em mid ex xm)))
                ((freeRefs (SegDesc.nodes (.region en ps em mid ex xm))).map envF))
              (ps :: ctx) mid).1 j hj "" (Val.base 0)
          have hxex : x ≠ ex := fun he => hmk3' (he ▸ hesused x hxes)
          rw [h1, hwval]
          rw [show projV (Val.tupV ((escapes (SegDesc.nodes (.region en ps em mid ex xm))
              (segsNodes rest) out).map
              (evalNodesF S (childCallF S fuel [])
                (bindVals (freeRefs (SegDesc.nodes (.region en ps em mid ex xm)))
                  ((freeRefs (SegDesc.nodes (.region en ps em mid ex xm))).map envF))
                (ps :: ctx) mid).1)) j =
            (((escapes (SegDesc.nodes (.region en ps em mid ex xm))
              (segsNodes rest) out).map
              (evalNodesF S (childCallF S fuel [])
                (bindVals (freeRefs (SegDesc.nodes (.region en ps em mid ex xm)))
                  ((freeRefs (SegDesc.nodes (.region en ps em mid ex xm))).map envF))
                (ps :: ctx) mid).1)).getD j (Val.base 0) from rfl]
          rw [h2, hgd]
          rw [hagrMid x (Or.inr (Or.inr (hesmid x hxes)))]
          simp [updEnv, hxex]
        · have hxR : x ∉ (SegDesc.nodes (.region en ps em mid ex xm)).map Node.name :=
            fun h => hdx (Or.inr ⟨h, hxes⟩)
          have hxga : x ≠ gaName t := percentFree_ne_gaName x hx t
          have hxwn : x ≠ wrapGenName t := percentFree_ne_wrapGenName x hx t
          rw [hframe x hxes hxga hxwn]
          have hxen : x ≠ en := fun he => hxR (by rw [hRnames, he]; exact List.mem_cons_self _ _)
          have hxex : x ≠ ex := fun he => hxR (by
            rw [hRnames, he]
            exact List.mem_cons_of_mem _ (List.mem_append.mpr (Or.inr (List.mem_singleton.mpr rfl))))
          have hxmid : x ∉ mid.map Node.name := fun hm => hxR (by
            rw [hRnames]
            exact List.mem_cons_of_mem _ (List.mem_append.mpr (Or.inl hm)))
          rw [show updEnv (evalNodesF S cf0 (updEnv envO en (.base 0)) (ps :: ctx) mid).1 ex
            (.base 0) x = (evalNodesF S cf0 (updEnv envO en (.base 0)) (ps :: ctx) mid).1 x
            from by simp [updEnv, hxex]]
          rw [evalNodesF_frame S cf0 mid _ (ps :: ctx) x hxmid]
          rw [show updEnv envO en (.base 0) x = envO x from by simp [updEnv, hxen]]
          exact hagree x hx hdxd
      have hav1 : ∀ r, r ∈ usedNames (segsNodes rest) out →
          ¬ (dead r ∨ (r ∈ (SegDesc.nodes (.region en ps em mid ex xm)).map Node.name ∧
            r ∉ escapes (SegDesc.nodes (.region en ps em mid ex xm)) (segsNodes rest) out)) := by
        intro r hr h
        rcases h with h | ⟨hR', hnes⟩
        · exact havRest r hr h
        · exact hnes (mem_escapes _ _ out r hR' hr)
      obtain ⟨dead', hx1, hx2, hx3, hx4⟩ := ih out (t + 1) S fuel cf0 ctx envFc
        (updEnv (evalNodesF S cf0 (updEnv envO en (.base 0)) (ps :: ctx) mid).1 ex (.base 0))
        (fun x => dead x ∨ (x ∈ (SegDesc.nodes (.region en ps em mid ex xm)).map Node.name ∧
          x ∉ escapes (SegDesc.nodes (.region en ps em mid ex xm)) (segsNodes rest) out))
        CS hcontent2 hpfRest hndRest hbig2 hmk4 hdrop' hav1 hagree1
      -- assemble
      have hbf : buildFinalNodes (SegDesc.region en ps em mid ex xm :: rest) out t =
          (.getAttr (gaName t) t ⟨.noneM, em.nnModuleStack, none⟩ ::
           .wrapA (wrapGenName t) ps t
             (freeRefs (SegDesc.nodes (.region en ps em mid ex xm)))
             ⟨.tupM ((List.range (escapes (SegDesc.nodes (.region en ps em mid ex xm))
                 (segsNodes rest) out).length).map fun j =>
               (findNodeD (SegDesc.nodes (.region en ps em mid ex xm))
                 ((escapes (SegDesc.nodes (.region en ps em mid ex xm))
                   (segsNodes rest) out).getD j "")).meta.val),
              em.nnModuleStack, some wrapTorchFn⟩ ::
           ((List.range (escapes (SegDesc.nodes (.region en ps em mid ex xm))
               (segsNodes rest) out).length).map fun j =>
             Node.getitem ((escapes (SegDesc.nodes (.region en ps em mid ex xm))
               (segsNodes rest) out).getD j "") (wrapGenName t) j
               (findNodeD (SegDesc.nodes (.region en ps em mid ex xm))
                 ((escapes (SegDesc.nodes (.region en ps em mid ex xm))
                   (segsNodes rest) out).getD j "")).meta)) ++
          buildFinalNodes rest out (t + 1) := rfl
      rw [hbf, hsn]
      rw [evalNodesF_append S (childCallF S (fuel + 1) CS) _ _ envF ctx]
      rw [evalNodesF_append S cf0 _ _ envO ctx]
      rw [hrun, horig]
      exact ⟨dead', hx1, hx2, fun r hr hd => hx3 r hr hd, fun r hd hro => hx4 r
        (fun h1 => by
          rcases h1 with h1 | ⟨hR', hnes⟩
          · exact hd h1
          · exact hnes (mem_escapes _ _ out r hR' (mem_usedNames_of_out _ out r hro))) hro⟩

/-- Graphs whose final environments agree on the output references return equal
values. -/
lemma evalOut_agree (env1 env2 : Env) (out : Option OutArgs)
    (h : ∀ r ∈ outRefs out, env1 r = env2 r) : evalOut env1 out = evalOut env2 out := by
  match out with
  | none => rfl
  | some (.noneV) => rfl
  | some (.other k) => rfl
  | some (.node n) => exact h n (by simp [outRefs])
  | some (.tup as) =>
    simp only [evalOut]
    congr 1
    apply List.map_congr_left
    intro a ha
    cases a with
    | noneA => rfl
    | ref r =>
      have hr : r ∈ outRefs (some (.tup as)) := by
        simp only [outRefs]
        exact List.mem_filterMap.mpr ⟨.ref r, ha, rfl⟩
      exact h r hr

/-- Evaluation equivalence for the whole graphs: the processed parent with the
final children computes the same value as the original segment graph, for every
operation semantics, argument list, ambient context and sufficient fuel. -/
lemma evalEquivSegs (ins : List String) (segs : List SegDesc) (out : Option OutArgs)
    (hcontent : segsContentOK segs)
    (hpf : ∀ n ∈ segsNodes segs, percentFree n.name ∧ ∀ r ∈ n.argRefs, percentFree r)
    (hopf : ∀ r ∈ outRefs out, percentFree r)
    (hnodup : ((segsNodes segs).map Node.name).Nodup)
    (hbig : regionsEscapeBig segs out)
    (hmk : markersOK segs out)
    (S : OpSem) (vals : List Val) (fuel : Nat) (ctx : Ctx) :
    evalGM S (fuel + 2)
      (.mk ⟨ins, buildFinalNodes segs out 0, out⟩ (finalChildren segs out)) vals ctx =
    evalGM S (fuel + 2) (.mk ⟨ins, segsNodes segs, out⟩ []) vals ctx := by
  obtain ⟨dead', hx1, hx2, hx3, hx4⟩ := evalSegsEquiv segs out 0 S fuel
    (childCallF S (fuel + 1) []) ctx (bindVals ins vals) (bindVals ins vals)
    (fun _ => False) (finalChildren segs out) hcontent hpf hnodup hbig hmk
    (by simp) (fun r _ h => h) (fun r _ _ => rfl)
  have hL : evalGM S ((fuel + 1) + 1)
      (.mk ⟨ins, buildFinalNodes segs out 0, out⟩ (finalChildren segs out)) vals ctx =
      evalOut (evalNodesF S (childCallF S (fuel + 1) (finalChildren segs out))
        (bindVals ins vals) ctx (buildFinalNodes segs out 0)).1 out := rfl
  have hR : evalGM S ((fuel + 1) + 1) (.mk ⟨ins, segsNodes segs, out⟩ []) vals ctx =
      evalOut (evalNodesF S (childCallF S (fuel + 1) [])
        (bindVals ins vals) ctx (segsNodes segs)).1 out := rfl
  rw [show fuel + 2 = (fuel + 1) + 1 from rfl, hL, hR]
  exact evalOut_agree _ _ out (fun r hr => hx3 r (hopf r hr) (hx4 r (fun h => h) hr))

/-- A computation-only node list contains no `wrap_with_autocast` call. -/
lemma countWrap_computes (ns : List Node) (h : ∀ n ∈ ns, isComputeNode n = true) :
    countWrap ns = 0 := by
  simp only [countWrap, List.countP_eq_zero]
  intro n hn
  match n, h n hn with
  | .compute nm f args m, _ => simp [isWrapNode]

/-- `countWrap` distributes over append. -/
lemma countWrap_append (A B : List Node) :
    countWrap (A ++ B) = countWrap A + countWrap B := by
  simp [countWrap, List.countP_append]

/-- The number of region segments in a segment list. -/
def regionCount : List SegDesc → Nat
  | [] => 0
  | .plain _ :: rest => regionCount rest
  | .region _ _ _ _ _ _ :: rest => regionCount rest + 1

/-- The processed parent contains one `wrap_with_autocast` node per region
segment. -/
lemma countWrap_buildFinal (segs : List SegDesc) :
    ∀ (out : Option OutArgs) (t : Nat), segsContentOK segs →
    countWrap (buildFinalNodes segs out t) = regionCount segs := by
  induction segs with
  | nil => intro out t _; rfl
  | cons s rest ih =>
    intro out t hc
    cases s with
    | plain ns =>
      rw [show buildFinalNodes (SegDesc.plain ns :: rest) out t =
        ns ++ buildFinalNodes rest out (t + 1) from rfl]
      rw [countWrap_append, countWrap_computes ns hc.2.1, ih out (t + 1) hc.2.2]
      simp [regionCount]
    | region en ps em mid ex xm =>
      rw [show buildFinalNodes (SegDesc.region en ps em mid ex xm :: rest) out t =
        segImage t (.region en ps em mid ex xm) ((rest.map SegDesc.nodes).flatten) out ++
          buildFinalNodes rest out (t + 1) from rfl]
      rw [countWrap_append, ih out (t + 1) hc.2]
      have himg : countWrap (segImage t (.region en ps em mid ex xm)
          ((rest.map SegDesc.nodes).flatten) out) = 1 := by
        rw [show segImage t (.region en ps em mid ex xm)
          ((rest.map SegDesc.nodes).flatten) out =
          Node.getAttr (gaName t) t ⟨.noneM, em.nnModuleStack, none⟩ ::
          Node.wrapA (wrapGenName t) ps t
            (freeRefs (SegDesc.nodes (.region en ps em mid ex xm)))
            ⟨.tupM ((List.range (escapes (SegDesc.nodes (.region en ps em mid ex xm))
                ((rest.map SegDesc.nodes).flatten) out).length).map fun j =>
              (findNodeD (SegDesc.nodes (.region en ps em mid ex xm))
                ((escapes (SegDesc.nodes (.region en ps em mid ex xm))
                  ((rest.map SegDesc.nodes).flatten) out).getD j "")).meta.val),
             em.nnModuleStack, some wrapTorchFn⟩ ::
          ((List.range (escapes (SegDesc.nodes (.region en ps em mid ex xm))
              ((rest.map SegDesc.nodes).flatten) out).length).map fun j =>
            Node.getitem ((escapes (SegDesc.nodes (.region en ps em mid ex xm))
              ((rest.map SegDesc.nodes).flatten) out).getD j "") (wrapGenName t) j
              (findNodeD (SegDesc.nodes (.region en ps em mid ex xm))
                ((escapes (SegDesc.nodes (.region en ps em mid ex xm))
                  ((rest.map SegDesc.nodes).flatten) out).getD j "")).meta) from rfl]
        simp only [countWrap, List.countP_cons]
        have hgi : ((List.range (escapes (SegDesc.nodes (.region en ps em mid ex xm))
            ((rest.map SegDesc.nodes).flatten) out).length).map fun j =>
            Node.getitem ((escapes (SegDesc.nodes (.region en ps em mid ex xm))
              ((rest.map SegDesc.nodes).flatten) out).getD j "") (wrapGenName t) j
              (findNodeD (SegDesc.nodes (.region en ps em mid ex xm))
                ((escapes (SegDesc.nodes (.region en ps em mid ex xm))
                  ((rest.map SegDesc.nodes).flatten) out).getD j "")).meta).countP
            isWrapNode = 0 := by
          rw [List.countP_eq_zero]
          intro n hn
          obtain ⟨j, _, rfl⟩ := List.mem_map.mp hn
          simp [isWrapNode]
        rw [hgi]
        rfl
      rw [himg]
      simp only [regionCount]
      omega

/-- The processed parent of a list containing a region segment contains a
`wrap_with_autocast` node declaring exactly the region's escaping values. -/
lemma buildFinal_mem_region (pref : List SegDesc) :
    ∀ (rest2 : List SegDesc) (out : Option OutArgs) (t : Nat) (en : String)
      (ps : List Nat) (em : Meta) (mid : List Node) (ex : String) (xm : Meta),
    ∃ n ∈ buildFinalNodes (pref ++ .region en ps em mid ex xm :: rest2) out t,
      isWrapNode n = true ∧ ∃ ms, n.meta.val = MVal.tupM ms ∧
        ms.length = (escapes (SegDesc.nodes (.region en ps em mid ex xm))
          ((rest2.map SegDesc.nodes).flatten) out).length := by
  induction pref with
  | nil =>
    intro rest2 out t en ps em mid ex xm
    refine ⟨Node.wrapA (wrapGenName t) ps t
      (freeRefs (SegDesc.nodes (.region en ps em mid ex xm)))
      ⟨.tupM ((List.range (escapes (SegDesc.nodes (.region en ps em mid ex xm))
          ((rest2.map SegDesc.nodes).flatten) out).length).map fun j =>
        (findNodeD (SegDesc.nodes (.region en ps em mid ex xm))
          ((escapes (SegDesc.nodes (.region en ps em mid ex xm))
            ((rest2.map SegDesc.nodes).flatten) out).getD j "")).meta.val),
       em.nnModuleStack, some wrapTorchFn⟩, ?_, rfl, ⟨_, rfl, by simp⟩⟩
    exact List.mem_append.mpr (Or.inl (List.mem_cons_of_mem _ (List.mem_cons_self _ _)))
  | cons s rest ihp =>
    intro rest2 out t en ps em mid ex xm
    obtain ⟨n, hn, hprop⟩ := ihp rest2 out (t + 1) en ps em mid ex xm
    refine ⟨n, ?_, hprop⟩
    exact List.mem_append.mpr (Or.inr hn)

/-- The segment decomposition of a graph with exactly one top-level autocast
region: an optional plain prefix, the region, an optional plain suffix. -/
def segsOf (pre : List Node) (en : String) (ps : List Nat) (em : Meta)
    (mid : List Node) (ex : String) (xm : Meta) (post : List Node) : List SegDesc :=
  (if pre.isEmpty then [] else [.plain pre]) ++
    .region en ps em mid ex xm :: (if post.isEmpty then [] else [.plain post])

/-- An optional plain segment of an empty run is absent. -/
lemma optSeg_nil (pre : List Node) (s : SegDesc) (h : pre = []) :
    (if pre.isEmpty then ([] : List SegDesc) else [s]) = [] := by
  subst h
  rfl

/-- An optional plain segment of a nonempty run is present. -/
lemma optSeg_cons (pre : List Node) (s : SegDesc) (h : pre ≠ []) :
    (if pre.isEmpty then ([] : List SegDesc) else [s]) = [s] := by
  match pre, h with
  | a :: l, _ => rfl

/-- The nodes of the one-region decomposition are the original graph's nodes. -/
lemma segsOf_nodes (pre : List Node) (en : String) (ps : List Nat) (em : Meta)
    (mid : List Node) (ex : String) (xm : Meta) (post : List Node) :
    segsNodes (segsOf pre en ps em mid ex xm post) =
      pre ++ .enterA en ps em :: (mid ++ .exitA ex en xm :: post) := by
  by_cases h1 : pre = []
  · by_cases h2 : post = []
    · simp only [segsOf]
      rw [optSeg_nil pre _ h1, optSeg_nil post _ h2, h1, h2]
      simp [segsNodes, SegDesc.nodes]
    · simp only [segsOf]
      rw [optSeg_nil pre _ h1, optSeg_cons post _ h2, h1]
      simp [segsNodes, SegDesc.nodes]
  · by_cases h2 : post = []
    · simp only [segsOf]
      rw [optSeg_cons pre _ h1, optSeg_nil post _ h2, h2]
      simp [segsNodes, SegDesc.nodes]
    · simp only [segsOf]
      rw [optSeg_cons pre _ h1, optSeg_cons post _ h2]
      simp [segsNodes, SegDesc.nodes]

/-- The one-region decomposition satisfies the content discipline. -/
lemma segsOf_contentOK (pre : List Node) (en : String) (ps : List Nat) (em : Meta)
    (mid : List Node) (ex : String) (xm : Meta) (post : List Node)
    (hpre : ∀ n ∈ pre, isComputeNode n = true)
    (hmid : ∀ n ∈ mid, isComputeNode n = true)
    (hpost : ∀ n ∈ post, isComputeNode n = true) :
    segsContentOK (segsOf pre en ps em mid ex xm post) := by
  by_cases h1 : pre = []
  · by_cases h2 : post = []
    · simp only [segsOf]
      rw [optSeg_nil pre _ h1, optSeg_nil post _ h2]
      exact ⟨hmid, trivial⟩
    · simp only [segsOf]
      rw [optSeg_nil pre _ h1, optSeg_cons post _ h2]
      exact ⟨hmid, h2, hpost, trivial⟩
  · by_cases h2 : post = []
    · simp only [segsOf]
      rw [optSeg_cons pre _ h1, optSeg_nil post _ h2]
      exact ⟨h1, hpre, hmid, trivial⟩
    · simp only [segsOf]
      rw [optSeg_cons pre _ h1, optSeg_cons post _ h2]
      exact ⟨h1, hpre, hmid, h2, hpost, trivial⟩

/-- The one-region decomposition is a valid segment chain. -/
lemma segsOf_OK (pre : List Node) (en : String) (ps : List Nat) (em : Meta)
    (mid : List Node) (ex : String) (xm : Meta) (post : List Node)
    (hpre : ∀ n ∈ pre, isComputeNode n = true)
    (hmid : ∀ n ∈ mid, isComputeNode n = true)
    (hpost : ∀ n ∈ post, isComputeNode n = true) :
    segsOK (segsOf pre en ps em mid ex xm post) := by
  refine ⟨segsOf_contentOK pre en ps em mid ex xm post hpre hmid hpost, ?_⟩
  by_cases h1 : pre = []
  · by_cases h2 : post = []
    · simp only [segsOf]
      rw [optSeg_nil pre _ h1, optSeg_nil post _ h2]
      exact trivial
    · simp only [segsOf]
      rw [optSeg_nil pre _ h1, optSeg_cons post _ h2]
      exact ⟨rfl, trivial⟩
  · by_cases h2 : post = []
    · simp only [segsOf]
      rw [optSeg_cons pre _ h1, optSeg_nil post _ h2]
      exact trivial
    · simp only [segsOf]
      rw [optSeg_cons pre _ h1, optSeg_cons post _ h2]
      exact ⟨rfl, trivial⟩

/-- The nodes following the region inside the decomposition are the suffix. -/
lemma segsOf_flatten_post (post : List Node) :
    (((if post.isEmpty then ([] : List SegDesc) else [.plain post]).map
      SegDesc.nodes).flatten) = post := by
  by_cases h2 : post = []
  · rw [optSeg_nil post _ h2, h2]
    rfl
  · rw [optSeg_cons post _ h2]
    simp [SegDesc.nodes]

/-- The escaping-arity condition for the one-region decomposition. -/
lemma segsOf_big (pre : List Node) (en : String) (ps : List Nat) (em : Meta)
    (mid : List Node) (ex : String) (xm : Meta) (post : List Node)
    (out : Option OutArgs)
    (hk : 2 ≤ (escapes (SegDesc.nodes (.region en ps em mid ex xm)) post out).length) :
    regionsEscapeBig (segsOf pre en ps em mid ex xm post) out := by
  have htail : regionsEscapeBig (if post.isEmpty then ([] : List SegDesc)
      else [.plain post]) out := by
    by_cases h2 : post = []
    · rw [optSeg_nil post _ h2]; trivial
    · rw [optSeg_cons post _ h2]; exact trivial
  by_cases h1 : pre = []
  · simp only [segsOf]
    rw [optSeg_nil pre _ h1]
    exact ⟨by rw [segsOf_flatten_post post]; exact hk, htail⟩
  · simp only [segsOf]
    rw [optSeg_cons pre _ h1]
    exact ⟨by rw [segsOf_flatten_post post]; exact hk, htail⟩

/-- The marker discipline for the one-region decomposition. -/
lemma segsOf_markers (pre : List Node) (en : String) (ps : List Nat) (em : Meta)
    (mid : List Node) (ex : String) (xm : Meta) (post : List Node)
    (out : Option OutArgs)
    (hmk1 : ∀ n ∈ mid, en ∉ n.argRefs ∧ ex ∉ n.argRefs)
    (hen : en ∉ usedNames post out)
    (hex : ex ∉ usedNames post out) :
    markersOK (segsOf pre en ps em mid ex xm post) out := by
  have htail : markersOK (if post.isEmpty then ([] : List SegDesc)
      else [.plain post]) out := by
    by_cases h2 : post = []
    · rw [optSeg_nil post _ h2]; trivial
    · rw [optSeg_cons post _ h2]; exact trivial
  by_cases h1 : pre = []
  · simp only [segsOf]
    rw [optSeg_nil pre _ h1]
    exact ⟨hmk1, by rw [segsOf_flatten_post post]; exact hen,
      by rw [segsOf_flatten_post post]; exact hex, htail⟩
  · simp only [segsOf]
    rw [optSeg_cons pre _ h1]
    exact ⟨hmk1, by rw [segsOf_flatten_post post]; exact hen,
      by rw [segsOf_flatten_post post]; exact hex, htail⟩

/-- The one-region decomposition has exactly one region. -/
lemma segsOf_regionCount (pre : List Node) (en : String) (ps : List Nat) (em : Meta)
    (mid : List Node) (ex : String) (xm : Meta) (post : List Node) :
    regionCount (segsOf pre en ps em mid ex xm post) = 1 := by
  by_cases h1 : pre = []
  · by_cases h2 : post = []
    · simp only [segsOf]
      rw [optSeg_nil pre _ h1, optSeg_nil post _ h2]
      rfl
    · simp only [segsOf]
      rw [optSeg_nil pre _ h1, optSeg_cons post _ h2]
      rfl
  · by_cases h2 : post = []
    · simp only [segsOf]
      rw [optSeg_cons pre _ h1, optSeg_nil post _ h2]
      rfl
    · simp only [segsOf]
      rw [optSeg_cons pre _ h1, optSeg_cons post _ h2]
      rfl

/-- C1: for every graph containing exactly one top-level enter-autocast…
exit-autocast region — computation-only elsewhere, FX-traced (`%`-free, unique)
names, the markers referenced only by the matching exit — whose split-off scope
body's output instruction returns a tuple of `k` values (`k ≥ 2` escaping
values), running the pass yields a rewritten graph module containing exactly one
`wrap_with_autocast` region-operation node, that node declares `k` results in
its `"val"` metadata, and evaluating the rewritten module on any input, under
any operation semantics, produces the same results as evaluating the original
graph. -/
theorem claim_C1_single_region_rewrite
    (ins : List String) (pre mid post : List Node) (en ex : String)
    (ps : List Nat) (em xm : Meta) (outAs : List Arg)
    (hpre : ∀ n ∈ pre, isComputeNode n = true)
    (hmid : ∀ n ∈ mid, isComputeNode n = true)
    (hpost : ∀ n ∈ post, isComputeNode n = true)
    (hpf : ∀ n ∈ pre ++ .enterA en ps em :: (mid ++ .exitA ex en xm :: post),
      percentFree n.name ∧ ∀ r ∈ n.argRefs, percentFree r)
    (hopf : ∀ r ∈ outRefs (some (.tup outAs)), percentFree r)
    (hnodup : ((pre ++ .enterA en ps em :: (mid ++ .exitA ex en xm :: post)).map
      Node.name).Nodup)
    (hmk1 : ∀ n ∈ mid ++ post, en ∉ n.argRefs ∧ ex ∉ n.argRefs)
    (hmk2 : en ∉ outRefs (some (.tup outAs)))
    (hmk3 : ex ∉ outRefs (some (.tup outAs)))
    (hk : 2 ≤ (escapes (.enterA en ps em :: (mid ++ [.exitA ex en xm])) post
      (some (.tup outAs))).length) :
    ∃ gm' : GraphModule,
      (∀ fuel : Nat, replaceAutocastWithHopPass (fuel + 2)
        (.mk ⟨ins, pre ++ .enterA en ps em :: (mid ++ .exitA ex en xm :: post),
          some (.tup outAs)⟩ []) none = .ok (gm', none)) ∧
      countWrap gm'.graph.nodes = 1 ∧
      (∃ n ∈ gm'.graph.nodes, isWrapNode n = true ∧ ∃ ms, n.meta.val = MVal.tupM ms ∧
        ms.length = (escapes (.enterA en ps em :: (mid ++ [.exitA ex en xm])) post
          (some (.tup outAs))).length) ∧
      (∀ (S : OpSem) (vals : List Val) (fuel : Nat),
        evalGM S (fuel + 2) gm' vals [] =
        evalGM S (fuel + 2) (.mk ⟨ins, pre ++ .enterA en ps em ::
          (mid ++ .exitA ex en xm :: post), some (.tup outAs)⟩ []) vals []) := by
  have hkR : 2 ≤ (escapes (SegDesc.nodes (.region en ps em mid ex xm)) post
      (some (.tup outAs))).length := hk
  have hOK := segsOf_OK pre en ps em mid ex xm post hpre hmid hpost
  have hcont := segsOf_contentOK pre en ps em mid ex xm post hpre hmid hpost
  have hpf' : ∀ n ∈ segsNodes (segsOf pre en ps em mid ex xm post),
      percentFree n.name ∧ ∀ r ∈ n.argRefs, percentFree r := by
    intro n hn
    rw [segsOf_nodes] at hn
    exact hpf n hn
  have hnodup' : ((segsNodes (segsOf pre en ps em mid ex xm post)).map Node.name).Nodup := by
    rw [segsOf_nodes]
    exact hnodup
  have hbig' := segsOf_big pre en ps em mid ex xm post (some (.tup outAs)) hkR
  have hen : en ∉ usedNames post (some (.tup outAs)) := by
    intro h
    simp only [usedNames, List.mem_append, List.mem_flatten] at h
    rcases h with ⟨l, hl, hr⟩ | h
    · obtain ⟨n, hn, rfl⟩ := List.mem_map.mp hl
      exact (hmk1 n (List.mem_append.mpr (Or.inr hn))).1 hr
    · exact hmk2 h
  have hex : ex ∉ usedNames post (some (.tup outAs)) := by
    intro h
    simp only [usedNames, List.mem_append, List.mem_flatten] at h
    rcases h with ⟨l, hl, hr⟩ | h
    · obtain ⟨n, hn, rfl⟩ := List.mem_map.mp hl
      exact (hmk1 n (List.mem_append.mpr (Or.inr hn))).2 hr
    · exact hmk3 h
  have hmk1' : ∀ n ∈ mid, en ∉ n.argRefs ∧ ex ∉ n.argRefs :=
    fun n hn => hmk1 n (List.mem_append.mpr (Or.inl hn))
  have hmkOK := segsOf_markers pre en ps em mid ex xm post (some (.tup outAs)) hmk1' hen hex
  have hany : (segsNodes (segsOf pre en ps em mid ex xm post)).any isAutocastNode = true := by
    rw [segsOf_nodes]
    refine List.any_eq_true.mpr ⟨.enterA en ps em, ?_, rfl⟩
    exact List.mem_append.mpr (Or.inr (List.mem_cons_self _ _))
  refine ⟨.mk ⟨ins, buildFinalNodes (segsOf pre en ps em mid ex xm post)
      (some (.tup outAs)) 0, some (.tup outAs)⟩
      (finalChildren (segsOf pre en ps em mid ex xm post) (some (.tup outAs))),
    ?_, ?_, ?_, ?_⟩
  · intro fuel
    have hgr : (⟨ins, pre ++ .enterA en ps em :: (mid ++ .exitA ex en xm :: post),
        some (.tup outAs)⟩ : Graph) =
        ⟨ins, segsNodes (segsOf pre en ps em mid ex xm post), some (.tup outAs)⟩ := by
      rw [segsOf_nodes]
    rw [hgr]
    exact passPipeline fuel ins (segsOf pre en ps em mid ex xm post) (some (.tup outAs))
      hOK hpf' hopf hnodup' hbig' hmkOK hany
  · rw [show (GraphModule.mk ⟨ins, buildFinalNodes (segsOf pre en ps em mid ex xm post)
      (some (.tup outAs)) 0, some (.tup outAs)⟩
      (finalChildren (segsOf pre en ps em mid ex xm post)
        (some (.tup outAs)))).graph.nodes =
      buildFinalNodes (segsOf pre en ps em mid ex xm post) (some (.tup outAs)) 0 from rfl]
    rw [countWrap_buildFinal _ (some (.tup outAs)) 0 hcont, segsOf_regionCount]
  · obtain ⟨n, hn, hw, ms, hval, hlen⟩ := buildFinal_mem_region
      (if pre.isEmpty then [] else [.plain pre])
      (if post.isEmpty then [] else [.plain post]) (some (.tup outAs)) 0 en ps em mid ex xm
    rw [segsOf_flatten_post post] at hlen
    exact ⟨n, hn, hw, ms, hval, hlen⟩
  · intro S vals fuel
    have heq := evalEquivSegs ins (segsOf pre en ps em mid ex xm post) (some (.tup outAs))
      hcont hpf' hopf hnodup' hbig' hmkOK S vals fuel []
    rw [heq]
    rw [show (⟨ins, segsNodes (segsOf pre en ps em mid ex xm post),
      some (.tup outAs)⟩ : Graph) =
      ⟨ins, pre ++ .enterA en ps em :: (mid ++ .exitA ex en xm :: post), some (.tup outAs)⟩
      from by rw [segsOf_nodes]]

/-- Witness for C1: a concrete one-region graph (prefix `a = f0(x)`, region body
`b = f1(a); c = f2(b)`, suffix `d = f3(b)`, output `(d, b, c)`, escapes `b, c`)
satisfies the hypotheses and the rewrite conclusion. -/
theorem claim_C1_witness :
    (2 ≤ (escapes (.enterA "e" [1] {} :: ([Node.compute "b" 1 [.ref "a"] {},
        Node.compute "c" 2 [.ref "b"] {}] ++ [.exitA "f" "e" {}]))
      [Node.compute "d" 3 [.ref "b"] {}]
      (some (.tup [.ref "d", .ref "b", .ref "c"]))).length) ∧
    (∃ gm' : GraphModule,
      (∀ fuel : Nat, replaceAutocastWithHopPass (fuel + 2)
        (.mk ⟨["x"], [Node.compute "a" 0 [.ref "x"] {}] ++ .enterA "e" [1] {} ::
          ([Node.compute "b" 1 [.ref "a"] {}, Node.compute "c" 2 [.ref "b"] {}] ++
            .exitA "f" "e" {} :: [Node.compute "d" 3 [.ref "b"] {}]),
          some (.tup [.ref "d", .ref "b", .ref "c"])⟩ []) none = .ok (gm', none)) ∧
      countWrap gm'.graph.nodes = 1 ∧
      (∃ n ∈ gm'.graph.nodes, isWrapNode n = true ∧ ∃ ms, n.meta.val = MVal.tupM ms ∧
        ms.length = (escapes (.enterA "e" [1] {} :: ([Node.compute "b" 1 [.ref "a"] {},
            Node.compute "c" 2 [.ref "b"] {}] ++ [.exitA "f" "e" {}]))
          [Node.compute "d" 3 [.ref "b"] {}]
          (some (.tup [.ref "d", .ref "b", .ref "c"]))).length) ∧
      (∀ (S : OpSem) (vals : List Val) (fuel : Nat),
        evalGM S (fuel + 2) gm' vals [] =
        evalGM S (fuel + 2) (.mk ⟨["x"], [Node.compute "a" 0 [.ref "x"] {}] ++
          .enterA "e" [1] {} :: ([Node.compute "b" 1 [.ref "a"] {},
            Node.compute "c" 2 [.ref "b"] {}] ++
            .exitA "f" "e" {} :: [Node.compute "d" 3 [.ref "b"] {}]),
          some (.tup [.ref "d", .ref "b", .ref "c"])⟩ []) vals [])) :=
  ⟨by decide, claim_C1_single_region_rewrite ["x"]
    [Node.compute "a" 0 [.ref "x"] {}]
    [Node.compute "b" 1 [.ref "a"] {}, Node.compute "c" 2 [.ref "b"] {}]
    [Node.compute "d" 3 [.ref "b"] {}] "e" "f" [1] {} {}
    [.ref "d", .ref "b", .ref "c"]
    (by decide) (by decide) (by decide) (by decide) (by decide) (by decide)
    (by decide) (by decide) (by decide) (by decide)⟩

end ReplaceAutocast
